import Mathlib

/-! A scanner and a recursive-descent recognizer.

Shallow embedding of `main.go`: the `Lexer` (`tokenize`, `readNumber`,
`readIdentifier`) and the `Parser` (`parse`, `statement`, `assignment`,
`expression`, `term`, `factor`, `match`).

Conventions of the embedding.

* A Go `string` that is only compared, copied or formatted (`TokenType`,
  `Token.Value`, `ParseError.Message`, printed lines) is a Lean `String`; its
  bytes are its UTF-8 encoding (`goBytes`).
* The scanner input is indexed byte by byte (`l.input[l.position]`), so it is a
  list of bytes, each a natural number below 256.
* `fmt.Printf` appends a line to the `stdout` component carried by the state.
* A run of a method either completes with a return value and the mutated
  receiver, or panics (index out of range).  Recursion and loops are driven by
  a fuel argument; `Run.outOfFuel` is the artefact of the embedding and is shown
  to be unreachable for the fuel the entry points supply
  (`Parser.parse_ne_outOfFuel`, `Lexer.tokenize_total`).
-/

namespace Compilers

/-! ## Definitions -/

/-! ### Tokens -/

/-- Go: `type TokenType string`. -/
abbrev TokenType := String

@[reducible, simp] def INTEGER : TokenType := "INTEGER"
@[reducible, simp] def PLUS : TokenType := "PLUS"
@[reducible, simp] def MINUS : TokenType := "MINUS"
@[reducible, simp] def MULTIPLY : TokenType := "MULTIPLY"
@[reducible, simp] def DIVIDE : TokenType := "DIVIDE"
@[reducible, simp] def LPAREN : TokenType := "LPAREN"
@[reducible, simp] def RPAREN : TokenType := "RPAREN"
@[reducible, simp] def ASSIGN : TokenType := "ASSIGN"
@[reducible, simp] def ID : TokenType := "ID"
@[reducible, simp] def IF : TokenType := "IF"
@[reducible, simp] def ELSE : TokenType := "ELSE"
@[reducible, simp] def ENDIF : TokenType := "ENDIF"
@[reducible, simp] def THEN : TokenType := "THEN"
@[reducible, simp] def GREATER_THAN : TokenType := "GREATER_THAN"
@[reducible, simp] def LBRACE : TokenType := "LBRACE"
@[reducible, simp] def RBRACE : TokenType := "RBRACE"
@[reducible, simp] def LBRACKET : TokenType := "LBRACKET"
@[reducible, simp] def RBRACKET : TokenType := "RBRACKET"
@[reducible, simp] def COMMA : TokenType := "COMMA"
@[reducible, simp] def DOT : TokenType := "DOT"

/-- Go: `type Token struct { Type TokenType; Value string }`; the field `Type` is
spelled `type` here, `Type` being reserved. -/
structure Token where
  type : TokenType
  Value : String
deriving DecidableEq, Repr

/-- Go: `func (t Token) String() string`, that is
`fmt.Sprintf("(%v, %v)", t.type, t.Value)`. -/
def Token.String (t : Token) : String :=
  "(" ++ t.type ++ ", " ++ t.Value ++ ")"

/-- Outcome of running a method on a receiver of type `σ`: it completes with a
return value and the receiver after the call, it panics, or the embedding ran
out of fuel. -/
inductive Run (α σ : Type) where
  | done (a : α) (s : σ)
  | panic
  | outOfFuel
deriving DecidableEq, Repr

/-- Sequencing of two runs on the same receiver. -/
def Run.bind {α β σ : Type} (r : Run α σ) (k : α → σ → Run β σ) : Run β σ :=
  match r with
  | .done a s => k a s
  | .panic => .panic
  | .outOfFuel => .outOfFuel

/-! ### The recognizer -/

/-- Go: `type Parser struct { tokens []Token; current int }`, together with the
lines written to standard output so far. -/
structure Parser where
  tokens : List Token
  current : Nat
  stdout : List String
deriving DecidableEq, Repr

/-- Go: `type ParseError struct { Message string }`. -/
structure ParseError where
  Message : String
deriving DecidableEq, Repr

/-- Go: `func NewParser(tokens []Token) *Parser`. -/
def NewParser (tokens : List Token) : Parser :=
  { tokens := tokens, current := 0, stdout := [] }

/-- Go: `func (p *Parser) match(expectedTypes ...TokenType) bool`.  The loop over
`expectedTypes` returns at the first expected type equal to the type of the
token under the cursor, after advancing the cursor. -/
def Parser.match : List TokenType → Parser → Bool × Parser
  | [], p => (false, p)
  | expectedType :: more, p =>
    match p.tokens[p.current]? with
    | some t =>
      if t.type = expectedType then (true, { p with current := p.current + 1 })
      else Parser.match more p
    | none => Parser.match more p

/-- The text `fmt.Sprintf("Syntax error at token: %v", tok)`. -/
def syntaxErrorText (tok : Token) : String :=
  "Syntax error at token: " ++ tok.String

mutual

/-- Go: `func (p *Parser) factor()`. -/
def Parser.factor : Nat → Parser → Run Unit Parser
  | 0, _ => .outOfFuel
  | fuel + 1, p =>
    let m1 := Parser.match [INTEGER] p
    if m1.1 then .done () m1.2
    else
      let m2 := Parser.match [ID] m1.2
      if m2.1 then .done () m2.2
      else
        let m3 := Parser.match [LPAREN] m2.2
        if m3.1 then
          (Parser.expression fuel m3.2).bind fun _ q =>
            .done () (Parser.match [RPAREN] q).2
        else
          let m4 := Parser.match [MINUS] m3.2
          if m4.1 then Parser.factor fuel m4.2
          else
            match m4.2.tokens[m4.2.current]? with
            | some tok =>
              .done () { m4.2 with
                stdout := m4.2.stdout ++ [syntaxErrorText tok ++ "\n"] }
            | none => .panic

/-- The loop `for p.match(MULTIPLY, DIVIDE) { p.factor() }` of `term`. -/
def Parser.termLoop : Nat → Parser → Run Unit Parser
  | 0, _ => .outOfFuel
  | fuel + 1, p =>
    let m := Parser.match [MULTIPLY, DIVIDE] p
    if m.1 then (Parser.factor fuel m.2).bind fun _ q => Parser.termLoop fuel q
    else .done () m.2

/-- Go: `func (p *Parser) term()`. -/
def Parser.term : Nat → Parser → Run Unit Parser
  | 0, _ => .outOfFuel
  | fuel + 1, p =>
    (Parser.factor fuel p).bind fun _ q => Parser.termLoop fuel q

/-- The loop `for p.match(PLUS, MINUS, GREATER_THAN) { p.term() }` of
`expression`. -/
def Parser.expressionLoop : Nat → Parser → Run Unit Parser
  | 0, _ => .outOfFuel
  | fuel + 1, p =>
    let m := Parser.match [PLUS, MINUS, GREATER_THAN] p
    if m.1 then (Parser.term fuel m.2).bind fun _ q => Parser.expressionLoop fuel q
    else .done () m.2

/-- Go: `func (p *Parser) expression()`. -/
def Parser.expression : Nat → Parser → Run Unit Parser
  | 0, _ => .outOfFuel
  | fuel + 1, p =>
    (Parser.term fuel p).bind fun _ q => Parser.expressionLoop fuel q

end

/-- Go: `func (p *Parser) assignment() error`; `none` is the `nil` error. -/
def Parser.assignment : Nat → Parser → Run (Option ParseError) Parser
  | 0, _ => .outOfFuel
  | fuel + 1, p =>
    let m := Parser.match [ID, ASSIGN] p
    if m.1 then
      (Parser.expression fuel m.2).bind fun _ q => .done none q
    else
      match m.2.tokens[m.2.current]? with
      | some tok => .done (some { Message := syntaxErrorText tok }) m.2
      | none => .panic

/-- Go: `func (p *Parser) statement() error`; `none` is the `nil` error. -/
def Parser.statement : Nat → Parser → Run (Option ParseError) Parser
  | 0, _ => .outOfFuel
  | fuel + 1, p =>
    let m1 := Parser.match [ID] p
    if m1.1 then Parser.assignment fuel m1.2
    else
      let m2 := Parser.match [IF] m1.2
      if m2.1 then
        let p1 := (Parser.match [LPAREN] m2.2).2
        (Parser.expression fuel p1).bind fun _ p2 =>
          let p3 := (Parser.match [RPAREN] p2).2
          let p4 := (Parser.match [LBRACE] p3).2
          (Parser.statement fuel p4).bind fun err p5 =>
            match err with
            | some e => .done (some e) p5
            | none =>
              let p6 := (Parser.match [RBRACE] p5).2
              let m7 := Parser.match [ELSE] p6
              if m7.1 then
                let p8 := (Parser.match [LBRACE] m7.2).2
                (Parser.statement fuel p8).bind fun err2 p9 =>
                  match err2 with
                  | some e => .done (some e) p9
                  | none => .done none (Parser.match [RBRACE] p9).2
              else .done none m7.2
      else
        match m2.2.tokens[m2.2.current]? with
        | some tok => .done (some { Message := syntaxErrorText tok }) m2.2
        | none => .panic

/-- The loop `for p.current < len(p.tokens) { ... }` of `parse`. -/
def Parser.parseLoop : Nat → Parser → Run (Option ParseError) Parser
  | 0, _ => .outOfFuel
  | fuel + 1, p =>
    if p.current < p.tokens.length then
      (Parser.statement fuel p).bind fun err q =>
        match err with
        | some e => .done (some e) q
        | none => Parser.parseLoop fuel q
    else .done none p

/-- Fuel supplied to `parse`: three calls per remaining token and three more. -/
def Parser.parseFuel (p : Parser) : Nat :=
  3 * (p.tokens.length - p.current) + 3

/-- Go: `func (p *Parser) parse() error`. -/
def Parser.parse (p : Parser) : Run (Option ParseError) Parser :=
  Parser.parseLoop p.parseFuel p

/-! ### The scanner -/

/-- The bytes of a Go string given as text: its UTF-8 encoding. -/
def goBytes (s : String) : List Nat :=
  (s.toList.flatMap String.utf8EncodeChar).map UInt8.toNat

/-- Go standard library: `unicode.IsDigit(r)` for a rune `r ≤ 0xFF`, which is the
range of `rune(b)` for a byte `b`: the ASCII digits. -/
def unicode.IsDigit (r : Nat) : Bool :=
  decide ('0'.toNat ≤ r ∧ r ≤ '9'.toNat)

/-- Go standard library: `unicode.IsSpace(r)` for a rune `r ≤ 0xFF`:
`'\t'`, `'\n'`, `'\v'`, `'\f'`, `'\r'`, `' '`, U+0085 (NEL), U+00A0 (NBSP). -/
def unicode.IsSpace (r : Nat) : Bool :=
  decide (r = 0x09 ∨ r = 0x0A ∨ r = 0x0B ∨ r = 0x0C ∨ r = 0x0D ∨ r = 0x20 ∨
    r = 0x85 ∨ r = 0xA0)

/-- Go standard library: `unicode.IsLetter(r)` for a rune `r ≤ 0xFF`: the Latin-1
code points of categories Lu, Ll and Lo, that is `A`-`Z`, `a`-`z`, U+00AA,
U+00B5, U+00BA, U+00C0-U+00D6, U+00D8-U+00F6 and U+00F8-U+00FF. -/
def unicode.IsLetter (r : Nat) : Bool :=
  decide (('A'.toNat ≤ r ∧ r ≤ 'Z'.toNat) ∨ ('a'.toNat ≤ r ∧ r ≤ 'z'.toNat) ∨
    r = 0xAA ∨ r = 0xB5 ∨ r = 0xBA ∨ (0xC0 ≤ r ∧ r ≤ 0xD6) ∨
    (0xD8 ≤ r ∧ r ≤ 0xF6) ∨ (0xF8 ≤ r ∧ r ≤ 0xFF))

/-- Go: `type Lexer struct { input string; position int }`, together with the
lines written to standard output so far.  `input` is the byte sequence of the
Go string. -/
structure Lexer where
  input : List Nat
  position : Nat
  stdout : List String
deriving DecidableEq, Repr

/-- Go: `func NewLexer(input string) *Lexer`. -/
def NewLexer (input : List Nat) : Lexer :=
  { input := input, position := 0, stdout := [] }

/-- The loop of `readNumber`; `result` is the `strings.Builder`, to which
`WriteRune(rune(b))` appends the code point numbered by the byte `b`. -/
def Lexer.readNumberLoop : Nat → Lexer → String → Run String Lexer
  | 0, _, _ => .outOfFuel
  | fuel + 1, l, result =>
    match l.input[l.position]? with
    | some b =>
      if unicode.IsDigit b then
        Lexer.readNumberLoop fuel { l with position := l.position + 1 }
          (result.push (Char.ofNat b))
      else .done result l
    | none => .done result l

/-- Go: `func (l *Lexer) readNumber() string`. -/
def Lexer.readNumber (l : Lexer) : Run String Lexer :=
  Lexer.readNumberLoop (l.input.length - l.position + 1) l ""

/-- The loop of `readIdentifier`. -/
def Lexer.readIdentifierLoop : Nat → Lexer → String → Run String Lexer
  | 0, _, _ => .outOfFuel
  | fuel + 1, l, result =>
    match l.input[l.position]? with
    | some b =>
      if unicode.IsLetter b || unicode.IsDigit b then
        Lexer.readIdentifierLoop fuel { l with position := l.position + 1 }
          (result.push (Char.ofNat b))
      else .done result l
    | none => .done result l

/-- Go: `func (l *Lexer) readIdentifier() string`. -/
def Lexer.readIdentifier (l : Lexer) : Run String Lexer :=
  Lexer.readIdentifierLoop (l.input.length - l.position + 1) l ""

/-- The token appended by a punctuation case of the `switch` in `tokenize`:
`Token{Type: ty, Value: string(currentChar)}`. -/
def punctToken (ty : TokenType) (currentChar : Nat) : Token :=
  { type := ty, Value := String.singleton (Char.ofNat currentChar) }

/-- The punctuation cases of `switch currentChar` in `tokenize`: the token type
of the case that `currentChar` selects, `none` for the `default` case. -/
def punctType (currentChar : Nat) : Option TokenType :=
  if currentChar = '+'.toNat then some PLUS
  else if currentChar = '-'.toNat then some MINUS
  else if currentChar = '*'.toNat then some MULTIPLY
  else if currentChar = '/'.toNat then some DIVIDE
  else if currentChar = '('.toNat then some LPAREN
  else if currentChar = ')'.toNat then some RPAREN
  else if currentChar = '='.toNat then some ASSIGN
  else if currentChar = '>'.toNat then some GREATER_THAN
  else if currentChar = '{'.toNat then some LBRACE
  else if currentChar = '}'.toNat then some RBRACE
  else none

/-- The line `fmt.Printf("Invalid character: %c\n", currentChar)`. -/
def invalidCharacterText (currentChar : Nat) : String :=
  "Invalid character: " ++ String.singleton (Char.ofNat currentChar) ++ "\n"

/-- The `switch identifier` of `tokenize`: keyword or `ID`. -/
def identifierToken (identifier : String) : Token :=
  if identifier = "if" then { type := IF, Value := identifier }
  else if identifier = "else" then { type := ELSE, Value := identifier }
  else { type := ID, Value := identifier }

/-- The loop `for l.position < len(l.input) { ... }` of `tokenize`; `tokens` is
the slice built so far. -/
def Lexer.tokenizeLoop : Nat → Lexer → List Token → Run (List Token) Lexer
  | 0, _, _ => .outOfFuel
  | fuel + 1, l, tokens =>
    match l.input[l.position]? with
    | none => .done tokens l
    | some currentChar =>
      if unicode.IsDigit currentChar then
        l.readNumber.bind fun v l1 =>
          Lexer.tokenizeLoop fuel l1 (tokens ++ [{ type := INTEGER, Value := v }])
      else if unicode.IsSpace currentChar then
        Lexer.tokenizeLoop fuel { l with position := l.position + 1 } tokens
      else
        match punctType currentChar with
        | some ty =>
          Lexer.tokenizeLoop fuel { l with position := l.position + 1 }
            (tokens ++ [punctToken ty currentChar])
        | none =>
          if unicode.IsLetter currentChar then
            l.readIdentifier.bind fun identifier l1 =>
              Lexer.tokenizeLoop fuel l1 (tokens ++ [identifierToken identifier])
          else
            .done [] { l with stdout := l.stdout ++ [invalidCharacterText currentChar] }

/-- Go: `func (l *Lexer) tokenize() []Token`; the `nil` slice is `[]`. -/
def Lexer.tokenize (l : Lexer) : Run (List Token) Lexer :=
  Lexer.tokenizeLoop (l.input.length - l.position + 1) l []

/-! ### The driver and its test inputs -/

/-- Go (`TestParser` and `main`): `lexer := NewLexer(input)`,
`tokens := lexer.tokenize()`, `parser := NewParser(tokens)`,
`err := parser.parse()`. -/
def scanThenParse (input : List Nat) : Run (Option ParseError) Parser :=
  match (NewLexer input).tokenize with
  | .done tokens _ => (NewParser tokens).parse
  | .panic => .panic
  | .outOfFuel => .outOfFuel

/-- The tokens of `"x = 5"`. -/
def tokensTest1 : List Token :=
  [⟨ID, "x"⟩, ⟨ASSIGN, "="⟩, ⟨INTEGER, "5"⟩]

/-- The tokens of `"if (x > 2) { y = 4 } else { y = 5 }"`. -/
def tokensTest2 : List Token :=
  [⟨IF, "if"⟩, ⟨LPAREN, "("⟩, ⟨ID, "x"⟩, ⟨GREATER_THAN, ">"⟩, ⟨INTEGER, "2"⟩,
   ⟨RPAREN, ")"⟩, ⟨LBRACE, "\x7b"⟩, ⟨ID, "y"⟩, ⟨ASSIGN, "="⟩, ⟨INTEGER, "4"⟩,
   ⟨RBRACE, "\x7d"⟩, ⟨ELSE, "else"⟩, ⟨LBRACE, "\x7b"⟩, ⟨ID, "y"⟩, ⟨ASSIGN, "="⟩,
   ⟨INTEGER, "5"⟩, ⟨RBRACE, "\x7d"⟩]

/-- The tokens of `"x = (3 + 2) - (2 * 1)"`. -/
def tokensTest3 : List Token :=
  [⟨ID, "x"⟩, ⟨ASSIGN, "="⟩, ⟨LPAREN, "("⟩, ⟨INTEGER, "3"⟩, ⟨PLUS, "+"⟩,
   ⟨INTEGER, "2"⟩, ⟨RPAREN, ")"⟩, ⟨MINUS, "-"⟩, ⟨LPAREN, "("⟩, ⟨INTEGER, "2"⟩,
   ⟨MULTIPLY, "*"⟩, ⟨INTEGER, "1"⟩, ⟨RPAREN, ")"⟩]

/-- The tokens of `"if (x > 2) { 3 = 4 } else { y = 5 }"`. -/
def tokensTest4 : List Token :=
  [⟨IF, "if"⟩, ⟨LPAREN, "("⟩, ⟨ID, "x"⟩, ⟨GREATER_THAN, ">"⟩, ⟨INTEGER, "2"⟩,
   ⟨RPAREN, ")"⟩, ⟨LBRACE, "\x7b"⟩, ⟨INTEGER, "3"⟩, ⟨ASSIGN, "="⟩, ⟨INTEGER, "4"⟩,
   ⟨RBRACE, "\x7d"⟩, ⟨ELSE, "else"⟩, ⟨LBRACE, "\x7b"⟩, ⟨ID, "y"⟩, ⟨ASSIGN, "="⟩,
   ⟨INTEGER, "5"⟩, ⟨RBRACE, "\x7d"⟩]

/-! ### Views of the recognizer state -/

/-- The tokens not yet consumed: the stream from the cursor on. -/
def Parser.rest (p : Parser) : List Token := p.tokens.drop p.current

/-- The receiver after `p.current++`. -/
def Parser.advance (p : Parser) : Parser := { p with current := p.current + 1 }

/-- The receiver after `k` tokens were consumed. -/
def Parser.skip (p : Parser) (k : Nat) : Parser := { p with current := p.current + k }

/-! ### The grammar of the specification -/

/-- Nonterminals of the grammar; the two `Tail` nonterminals are the starred
groups `(("+" | "-" | ">") term)*` and `(("*" | "/") factor)*`. -/
inductive NT where
  | program
  | statement
  | expression
  | expressionTail
  | term
  | termTail
  | factor
deriving DecidableEq, Repr

/-- Derivability of a token sequence from a nonterminal of the grammar
```
program     := statement*
statement   := ID ASSIGN expression
             | IF LPAREN expression RPAREN LBRACE statement RBRACE
                 [ELSE LBRACE statement RBRACE]
expression  := term ((PLUS | MINUS | GREATER_THAN) term)*
term        := factor ((MULTIPLY | DIVIDE) factor)*
factor      := INTEGER | ID | LPAREN expression RPAREN | MINUS factor
```
A terminal stands for any token of that type. -/
inductive Derives : NT → List Token → Prop where
  | factor_integer (t : Token) : t.type = INTEGER → Derives .factor [t]
  | factor_id (t : Token) : t.type = ID → Derives .factor [t]
  | factor_paren (l : Token) (e : List Token) (r : Token) :
      l.type = LPAREN → Derives .expression e → r.type = RPAREN →
      Derives .factor (l :: e ++ [r])
  | factor_minus (m : Token) (f : List Token) :
      m.type = MINUS → Derives .factor f → Derives .factor (m :: f)
  | termTail_nil : Derives .termTail []
  | termTail_cons (op : Token) (f more : List Token) :
      op.type = MULTIPLY ∨ op.type = DIVIDE →
      Derives .factor f → Derives .termTail more →
      Derives .termTail (op :: f ++ more)
  | term (f more : List Token) :
      Derives .factor f → Derives .termTail more → Derives .term (f ++ more)
  | expressionTail_nil : Derives .expressionTail []
  | expressionTail_cons (op : Token) (t more : List Token) :
      op.type = PLUS ∨ op.type = MINUS ∨ op.type = GREATER_THAN →
      Derives .term t → Derives .expressionTail more →
      Derives .expressionTail (op :: t ++ more)
  | expression (t more : List Token) :
      Derives .term t → Derives .expressionTail more →
      Derives .expression (t ++ more)
  | statement_assign (i a : Token) (e : List Token) :
      i.type = ID → a.type = ASSIGN → Derives .expression e →
      Derives .statement (i :: a :: e)
  | statement_if (kw lp : Token) (c : List Token) (rp lb : Token)
      (s : List Token) (rb : Token) :
      kw.type = IF → lp.type = LPAREN → Derives .expression c →
      rp.type = RPAREN → lb.type = LBRACE → Derives .statement s →
      rb.type = RBRACE →
      Derives .statement (kw :: lp :: c ++ rp :: lb :: s ++ [rb])
  | statement_if_else (kw lp : Token) (c : List Token) (rp lb : Token)
      (s : List Token) (rb el lb2 : Token) (s2 : List Token) (rb2 : Token) :
      kw.type = IF → lp.type = LPAREN → Derives .expression c →
      rp.type = RPAREN → lb.type = LBRACE → Derives .statement s →
      rb.type = RBRACE → el.type = ELSE → lb2.type = LBRACE →
      Derives .statement s2 → rb2.type = RBRACE →
      Derives .statement
        (kw :: lp :: c ++ rp :: lb :: s ++ rb :: el :: lb2 :: s2 ++ [rb2])
  | program_nil : Derives .program []
  | program_cons (s more : List Token) :
      Derives .statement s → Derives .program more →
      Derives .program (s ++ more)

/-- The run of the recognizer's procedure for a nonterminal, started on `p`,
completes normally (without error for `statement` and `parse`) on `q`. -/
def Parser.recognizes (nt : NT) (fuel : Nat) (p q : Parser) : Prop :=
  match nt with
  | .factor => Parser.factor fuel p = .done () q
  | .termTail => Parser.termLoop fuel p = .done () q
  | .term => Parser.term fuel p = .done () q
  | .expressionTail => Parser.expressionLoop fuel p = .done () q
  | .expression => Parser.expression fuel p = .done () q
  | .statement => Parser.statement fuel p = .done none q
  | .program => Parser.parseLoop fuel p = .done none q

/-- Token types that the procedure for a nonterminal would consume if they came
right after a phrase of that nonterminal. -/
def continues : NT → List TokenType
  | .factor => []
  | .termTail => [MULTIPLY, DIVIDE]
  | .term => [MULTIPLY, DIVIDE]
  | .expressionTail => [MULTIPLY, DIVIDE, PLUS, MINUS, GREATER_THAN]
  | .expression => [MULTIPLY, DIVIDE, PLUS, MINUS, GREATER_THAN]
  | .statement => [MULTIPLY, DIVIDE, PLUS, MINUS, GREATER_THAN, ELSE]
  | .program => []

/-- What may come after a phrase of a nonterminal for the one-token lookahead
to stop there: the end of the stream for `program`, otherwise a token that does
not continue the phrase. -/
def Follow (nt : NT) (r : List Token) : Prop :=
  (nt = .program → r = []) ∧ ∀ t, r.head? = some t → t.type ∉ continues nt

/-- Fuel needed beyond three units per token of the phrase. -/
def slack : NT → Nat
  | .factor => 1
  | .termTail => 1
  | .term => 2
  | .expressionTail => 1
  | .expression => 3
  | .statement => 1
  | .program => 2

/-! ### The lenient grammar -/

/-- An optional terminal: nothing, or one token of type `ty`. -/
def Opt (ty : TokenType) (o : List Token) : Prop :=
  o = [] ∨ ∃ t, o = [t] ∧ t.type = ty

/-- Derivability from the lenient grammar
```
program     := statement*
statement   := ID ASSIGN expression
             | IF [LPAREN] expression [RPAREN] [LBRACE] statement [RBRACE]
                 [ELSE [LBRACE] statement [RBRACE]]
expression  := term ((PLUS | MINUS | GREATER_THAN) term)*
term        := factor ((MULTIPLY | DIVIDE) factor)*
factor      := INTEGER | ID | LPAREN expression [RPAREN] | MINUS factor | (empty)
```
in which the delimiters whose `match` result the recognizer discards are
optional and a factor may be empty (the no-match branch of `factor`). -/
inductive Lenient : NT → List Token → Prop where
  | factor_integer (t : Token) : t.type = INTEGER → Lenient .factor [t]
  | factor_id (t : Token) : t.type = ID → Lenient .factor [t]
  | factor_paren (l : Token) (e o : List Token) :
      l.type = LPAREN → Lenient .expression e → Opt RPAREN o →
      Lenient .factor (l :: (e ++ o))
  | factor_minus (m : Token) (f : List Token) :
      m.type = MINUS → Lenient .factor f → Lenient .factor (m :: f)
  | factor_empty : Lenient .factor []
  | termTail_nil : Lenient .termTail []
  | termTail_cons (op : Token) (f more : List Token) :
      op.type = MULTIPLY ∨ op.type = DIVIDE →
      Lenient .factor f → Lenient .termTail more →
      Lenient .termTail (op :: (f ++ more))
  | term (f more : List Token) :
      Lenient .factor f → Lenient .termTail more → Lenient .term (f ++ more)
  | expressionTail_nil : Lenient .expressionTail []
  | expressionTail_cons (op : Token) (t more : List Token) :
      op.type = PLUS ∨ op.type = MINUS ∨ op.type = GREATER_THAN →
      Lenient .term t → Lenient .expressionTail more →
      Lenient .expressionTail (op :: (t ++ more))
  | expression (t more : List Token) :
      Lenient .term t → Lenient .expressionTail more →
      Lenient .expression (t ++ more)
  | statement_assign (i a : Token) (e : List Token) :
      i.type = ID → a.type = ASSIGN → Lenient .expression e →
      Lenient .statement (i :: a :: e)
  | statement_if (kw : Token) (o1 c o2 o3 s o4 : List Token) :
      kw.type = IF → Opt LPAREN o1 → Lenient .expression c →
      Opt RPAREN o2 → Opt LBRACE o3 → Lenient .statement s → Opt RBRACE o4 →
      Lenient .statement (kw :: (o1 ++ (c ++ (o2 ++ (o3 ++ (s ++ o4))))))
  | statement_if_else (kw : Token) (o1 c o2 o3 s o4 : List Token) (el : Token)
      (o5 s2 o6 : List Token) :
      kw.type = IF → Opt LPAREN o1 → Lenient .expression c →
      Opt RPAREN o2 → Opt LBRACE o3 → Lenient .statement s → Opt RBRACE o4 →
      el.type = ELSE → Opt LBRACE o5 → Lenient .statement s2 → Opt RBRACE o6 →
      Lenient .statement
        (kw :: (o1 ++ (c ++ (o2 ++ (o3 ++ (s ++ (o4 ++ el :: (o5 ++ (s2 ++ o6)))))))))
  | program_nil : Lenient .program []
  | program_cons (s more : List Token) :
      Lenient .statement s → Lenient .program more →
      Lenient .program (s ++ more)

/-! ### The walk of the recognizer -/

/-- The one-token lookahead fails: `match(expected...)` on the remaining tokens
`r` would return `false`, because `r` is empty or its first token has none of the
expected types. -/
def Stops (expected : List TokenType) (r : List Token) : Prop :=
  ∀ t, r.head? = some t → t.type ∉ expected

/-- A `match(ty)` whose result is discarded, between the remaining tokens `inp`
before it and `out` after it: it consumes the first token when that token has
type `ty` and nothing otherwise. -/
def Skips (ty : TokenType) (inp out : List Token) : Prop :=
  (∃ t, inp = t :: out ∧ t.type = ty) ∨ (inp = out ∧ Stops [ty] inp)

/-- The walk of the recognizer: `Walk b nt inp out` says that the procedure of the
nonterminal `nt`, started on the remaining tokens `inp`, returns normally (`nil`
for `statement` and `parse`) with the remaining tokens `out`, following the
decisions the code takes on the token under the cursor. The flag `b` is `true`
when, on the way, `assignment` took an `ID` token in the place of `=` (it calls
`match(ID, ASSIGN)`), and `false` when every assignment took `=`. -/
inductive Walk : Bool → NT → List Token → List Token → Prop where
  | factor_integer (t : Token) (out : List Token) :
      t.type = INTEGER → Walk false .factor (t :: out) out
  | factor_id (t : Token) (out : List Token) :
      t.type = ID → Walk false .factor (t :: out) out
  | factor_paren (l : Token) (inp mid out : List Token) :
      l.type = LPAREN → Walk false .expression inp mid → Skips RPAREN mid out →
      Walk false .factor (l :: inp) out
  | factor_minus (m : Token) (inp out : List Token) :
      m.type = MINUS → Walk false .factor inp out → Walk false .factor (m :: inp) out
  | factor_none (t : Token) (r : List Token) :
      t.type ∉ [INTEGER, ID, LPAREN, MINUS] → Walk false .factor (t :: r) (t :: r)
  | termTail_stop (inp : List Token) :
      Stops [MULTIPLY, DIVIDE] inp → Walk false .termTail inp inp
  | termTail_more (op : Token) (inp mid out : List Token) :
      op.type ∈ [MULTIPLY, DIVIDE] → Walk false .factor inp mid →
      Walk false .termTail mid out → Walk false .termTail (op :: inp) out
  | term (inp mid out : List Token) :
      Walk false .factor inp mid → Walk false .termTail mid out →
      Walk false .term inp out
  | expressionTail_stop (inp : List Token) :
      Stops [PLUS, MINUS, GREATER_THAN] inp → Walk false .expressionTail inp inp
  | expressionTail_more (op : Token) (inp mid out : List Token) :
      op.type ∈ [PLUS, MINUS, GREATER_THAN] → Walk false .term inp mid →
      Walk false .expressionTail mid out → Walk false .expressionTail (op :: inp) out
  | expression (inp mid out : List Token) :
      Walk false .term inp mid → Walk false .expressionTail mid out →
      Walk false .expression inp out
  | statement_assign (i a : Token) (inp out : List Token) :
      i.type = ID → a.type = ASSIGN → Walk false .expression inp out →
      Walk false .statement (i :: a :: inp) out
  | statement_assign_id (i a : Token) (inp out : List Token) :
      i.type = ID → a.type = ID → Walk false .expression inp out →
      Walk true .statement (i :: a :: inp) out
  | statement_if (b : Bool) (kw : Token) (r1 r2 r3 r4 r5 r6 out : List Token) :
      kw.type = IF → Skips LPAREN r1 r2 → Walk false .expression r2 r3 →
      Skips RPAREN r3 r4 → Skips LBRACE r4 r5 → Walk b .statement r5 r6 →
      Skips RBRACE r6 out → Stops [ELSE] out →
      Walk b .statement (kw :: r1) out
  | statement_if_else (b1 b2 : Bool) (kw : Token) (r1 r2 r3 r4 r5 r6 : List Token)
      (el : Token) (r7 r8 r9 out : List Token) :
      kw.type = IF → Skips LPAREN r1 r2 → Walk false .expression r2 r3 →
      Skips RPAREN r3 r4 → Skips LBRACE r4 r5 → Walk b1 .statement r5 r6 →
      Skips RBRACE r6 (el :: r7) → el.type = ELSE → Skips LBRACE r7 r8 →
      Walk b2 .statement r8 r9 → Skips RBRACE r9 out →
      Walk (b1 || b2) .statement (kw :: r1) out
  | program_nil : Walk false .program [] []
  | program_cons (b1 b2 : Bool) (inp mid : List Token) :
      Walk b1 .statement inp mid → Walk b2 .program mid [] →
      Walk (b1 || b2) .program inp []

/-- The run from `p` to `q` consumed exactly the tokens `w` and left the stream
untouched. -/
def Consumed (p : Parser) (w : List Token) (q : Parser) : Prop :=
  q.tokens = p.tokens ∧ p.rest = w ++ q.rest

/-- The tokens of `"x = * 5"`. -/
def tokensStarFive : List Token :=
  [⟨ID, "x"⟩, ⟨ASSIGN, "="⟩, ⟨MULTIPLY, "*"⟩, ⟨INTEGER, "5"⟩]

/-- The tokens of `"x = + 5"`. -/
def tokensPlusFive : List Token :=
  [⟨ID, "x"⟩, ⟨ASSIGN, "="⟩, ⟨PLUS, "+"⟩, ⟨INTEGER, "5"⟩]

/-- The tokens of `"x = y z = 1"`. -/
def tokensTwoAssignments : List Token :=
  [⟨ID, "x"⟩, ⟨ASSIGN, "="⟩, ⟨ID, "y"⟩, ⟨ID, "z"⟩, ⟨ASSIGN, "="⟩, ⟨INTEGER, "1"⟩]

/-- The tokens of `"x = y z + 1"`. -/
def tokensStrayFactor : List Token :=
  [⟨ID, "x"⟩, ⟨ASSIGN, "="⟩, ⟨ID, "y"⟩, ⟨ID, "z"⟩, ⟨PLUS, "+"⟩, ⟨INTEGER, "1"⟩]

/-! ### Views of the scanner state -/

/-- The bytes not yet scanned: the input from the position on. -/
def Lexer.rest (l : Lexer) : List Nat := l.input.drop l.position

/-- The receiver after `k` bytes were consumed. -/
def Lexer.skip (l : Lexer) (k : Nat) : Lexer := { l with position := l.position + k }

/-- The text written by `WriteRune(rune(b))` for each byte `b` of a run. -/
def runeString (bs : List Nat) : String := String.mk (bs.map Char.ofNat)

/-- The loop condition of `readIdentifier` on the byte under the cursor. -/
def isIdentByte (b : Nat) : Bool := unicode.IsLetter b || unicode.IsDigit b

/-- The scanner classifies the byte as none of digit, whitespace, punctuation
mark and letter: the byte on which `tokenize` aborts. -/
def invalidByte (b : Nat) : Bool :=
  !unicode.IsDigit b && !unicode.IsSpace b && (punctType b).isNone && !unicode.IsLetter b

/-- The character set `[0-9a-zA-Z+\-*/()=>{} \t\n]` named by the specification:
digits, ASCII letters, the ten punctuation marks, space, tab and newline. -/
def inClaimedSet (b : Nat) : Bool :=
  decide ('0'.toNat ≤ b ∧ b ≤ '9'.toNat) || decide ('a'.toNat ≤ b ∧ b ≤ 'z'.toNat) ||
  decide ('A'.toNat ≤ b ∧ b ≤ 'Z'.toNat) ||
  decide (b ∈ ['+'.toNat, '-'.toNat, '*'.toNat, '/'.toNat, '('.toNat, ')'.toNat,
    '='.toNat, '>'.toNat, '{'.toNat, '}'.toNat, ' '.toNat, '\t'.toNat, '\n'.toNat])

/-! ### The scanner as a function of the remaining bytes -/

/-- One iteration of the loop of `tokenize` that starts on the byte `c`, not
invalid, followed by the bytes `r`: the run of bytes it consumes and the tokens
it appends. -/
def lexStep (c : Nat) (r : List Nat) : List Nat × List Token :=
  if unicode.IsDigit c then
    ((c :: r).takeWhile unicode.IsDigit,
      [{ type := INTEGER, Value := runeString ((c :: r).takeWhile unicode.IsDigit) }])
  else if unicode.IsSpace c then ([c], [])
  else
    match punctType c with
    | some ty => ([c], [punctToken ty c])
    | none =>
      ((c :: r).takeWhile isIdentByte,
        [identifierToken (runeString ((c :: r).takeWhile isIdentByte))])

/-- The tokens that the loop of `tokenize` appends while it scans the bytes `bs`,
none of them invalid. -/
def lexemesFuel : Nat → List Nat → List Token
  | 0, _ => []
  | _ + 1, [] => []
  | fuel + 1, c :: r =>
    (lexStep c r).2 ++ lexemesFuel fuel ((c :: r).drop (lexStep c r).1.length)

/-- The tokens of a byte sequence without invalid bytes. -/
def lexemes (bs : List Nat) : List Token := lexemesFuel (bs.length + 1) bs

/-- An ASCII letter: `A`-`Z` or `a`-`z`. -/
def isAsciiLetter (b : Nat) : Bool :=
  decide (('A'.toNat ≤ b ∧ b ≤ 'Z'.toNat) ∨ ('a'.toNat ≤ b ∧ b ≤ 'z'.toNat))

/-- The fourteen token types that `tokenize` can produce. -/
def producedTypes : List TokenType :=
  [INTEGER, PLUS, MINUS, MULTIPLY, DIVIDE, LPAREN, RPAREN, ASSIGN, ID, IF, ELSE,
    GREATER_THAN, LBRACE, RBRACE]

/-- The six declared token types that `tokenize` never produces. -/
def deadTypes : List TokenType := [ENDIF, THEN, LBRACKET, RBRACKET, COMMA, DOT]

/-! ### The cursor invariant -/

/-- The receiver `q` has the token stream of `p` and a cursor that is not behind
the cursor of `p` and, when the cursor of `p` is within the stream, not beyond
the end of the stream. -/
def Parser.Advances (p q : Parser) : Prop :=
  q.tokens = p.tokens ∧ p.current ≤ q.current ∧
    (p.current ≤ p.tokens.length → q.current ≤ p.tokens.length)

/-! ## Theorems -/

/-! ### The cursor and `match` -/

theorem Parser.getElem?_current (p : Parser) :
    p.tokens[p.current]? = p.rest.head? := by
  simp [Parser.rest, List.head?_drop]

theorem Parser.match_eq (expected : List TokenType) (p : Parser) :
    Parser.match expected p =
      match p.rest.head? with
      | some t => if t.type ∈ expected then (true, p.advance) else (false, p)
      | none => (false, p) := by
  induction expected with
  | nil => cases h : p.rest.head? <;> simp [Parser.match]
  | cons e more ih =>
    rw [Parser.match, ih, Parser.getElem?_current]
    cases h : p.rest.head? with
    | none => simp
    | some t =>
      by_cases h1 : t.type = e
      · simp [h1, Parser.advance]
      · simp [h1]

theorem Parser.rest_advance {p : Parser} {t : Token} {r : List Token}
    (h : p.rest = t :: r) : p.advance.rest = r := by
  simp only [Parser.rest, Parser.advance] at h ⊢
  rw [← List.drop_drop, h]
  rfl

theorem Parser.match_cons {p : Parser} {t : Token} {r : List Token}
    (expected : List TokenType) (h : p.rest = t :: r) :
    Parser.match expected p =
      if t.type ∈ expected then (true, p.skip 1) else (false, p) := by
  rw [Parser.match_eq, h]; rfl

theorem Parser.match_nil {p : Parser} (expected : List TokenType)
    (h : p.rest = []) : Parser.match expected p = (false, p) := by
  rw [Parser.match_eq, h]; rfl

theorem Parser.advance_eq_skip (p : Parser) : p.advance = p.skip 1 := rfl

theorem Parser.skip_skip (p : Parser) (a b : Nat) : (p.skip a).skip b = p.skip (a + b) := by
  simp [Parser.skip, Nat.add_assoc]

theorem Parser.skip_zero (p : Parser) : p.skip 0 = p := rfl

theorem Parser.rest_skip {p : Parser} {w r : List Token}
    (h : p.rest = w ++ r) : (p.skip w.length).rest = r := by
  simp only [Parser.rest, Parser.skip] at h ⊢
  rw [← List.drop_drop, h]
  simp

/-! ### Completeness: derivable sequences are accepted -/

theorem Derives.statement_first {w : List Token} (h : Derives .statement w) :
    ∃ t w', w = t :: w' ∧ (t.type = ID ∨ t.type = IF) := by
  cases h with
  | statement_assign i a e hi ha he => exact ⟨i, _, rfl, Or.inl hi⟩
  | statement_if kw lp c rp lb s rb hkw => exact ⟨kw, _, rfl, Or.inr hkw⟩
  | statement_if_else kw lp c rp lb s rb el lb2 s2 rb2 hkw =>
    exact ⟨kw, _, rfl, Or.inr hkw⟩

theorem Derives.expressionTail_first {w : List Token} (h : Derives .expressionTail w) :
    ∀ t, w.head? = some t → t.type ∈ [PLUS, MINUS, GREATER_THAN] := by
  cases h with
  | expressionTail_nil => simp
  | expressionTail_cons op t more hop => intro t ht; simp at ht; subst ht; simpa using hop

theorem Derives.program_first {w : List Token} (h : Derives .program w) :
    ∀ t, w.head? = some t → t.type ∈ [ID, IF] := by
  cases h with
  | program_nil => simp
  | program_cons s more hs _ =>
    obtain ⟨t, s', rfl, ht⟩ := Derives.statement_first hs
    intro t' ht'
    simp at ht'
    subst ht'
    simpa using ht

theorem Parser.rest_eq_nil_iff (p : Parser) : p.rest = [] ↔ ¬ p.current < p.tokens.length := by
  simp [Parser.rest]

theorem head?_append_of {α : Type} {P : α → Prop} (l r : List α)
    (hl : ∀ t, l.head? = some t → P t) (hr : ∀ t, r.head? = some t → P t) :
    ∀ t, (l ++ r).head? = some t → P t := by
  cases l with
  | nil => simpa using hr
  | cons a l => simpa using hl

theorem Follow.term_of_expressionTail {more r : List Token} {nt : NT}
    (hmore : Derives .expressionTail more)
    (hfol : ∀ t, r.head? = some t → t.type ∉ continues .expression) (hnt : nt ≠ .program)
    (hc : continues nt = [MULTIPLY, DIVIDE]) :
    Follow nt (more ++ r) := by
  refine ⟨fun h => absurd h hnt, head?_append_of more r ?_ ?_⟩
  · intro x hx
    have := Derives.expressionTail_first hmore x hx
    simp at this
    rcases this with h | h | h <;> simp [hc, h]
  · intro x hx
    have := hfol x hx
    simp [continues] at this
    simp [hc, this.1, this.2.1]

theorem Parser.recognizes_of_derives {nt : NT} {w : List Token} (h : Derives nt w) :
    ∀ (p : Parser) (r : List Token), p.rest = w ++ r → Follow nt r →
      ∀ n, 3 * w.length + slack nt ≤ n → Parser.recognizes nt n p (p.skip w.length) := by
  induction h with
  | factor_integer t ht =>
    intro p r hp _ n hn
    obtain ⟨m, rfl⟩ : ∃ m, n = m + 1 := ⟨n - 1, by simp [slack] at hn; omega⟩
    have hp' : p.rest = t :: r := by simpa using hp
    simp [Parser.recognizes, Parser.factor, Parser.match_cons _ hp', ht]
  | factor_id t ht =>
    intro p r hp _ n hn
    obtain ⟨m, rfl⟩ : ∃ m, n = m + 1 := ⟨n - 1, by simp [slack] at hn; omega⟩
    have hp' : p.rest = t :: r := by simpa using hp
    simp [Parser.recognizes, Parser.factor, Parser.match_cons _ hp', ht]
  | factor_paren l e r' hl he hr ih =>
    intro p r hp _ n hn
    obtain ⟨m, rfl⟩ : ∃ m, n = m + 1 := ⟨n - 1, by simp [slack] at hn; omega⟩
    have hp' : p.rest = l :: (e ++ r' :: r) := by simpa using hp
    have h1 : (p.skip 1).rest = e ++ r' :: r := Parser.rest_skip (w := [l]) hp'
    have h2 := ih (p.skip 1) (r' :: r) h1 (by simp [Follow, continues, hr]) m
      (by simp [slack] at hn ⊢; omega)
    have h3 : ((p.skip 1).skip e.length).rest = r' :: r := Parser.rest_skip h1
    simp only [Parser.recognizes] at h2
    simp [Parser.recognizes, Parser.factor, Parser.match_cons _ hp', hl, h2, Run.bind,
      Parser.match_cons _ h3, hr]
    simp [Parser.skip]; omega
  | factor_minus mt f hm hf ih =>
    intro p r hp hfol n hn
    obtain ⟨m, rfl⟩ : ∃ m, n = m + 1 := ⟨n - 1, by simp [slack] at hn; omega⟩
    have hp' : p.rest = mt :: (f ++ r) := by simpa using hp
    have h1 : (p.skip 1).rest = f ++ r := Parser.rest_skip (w := [mt]) hp'
    have h2 := ih (p.skip 1) r h1 hfol m (by simp [slack] at hn ⊢; omega)
    simp only [Parser.recognizes] at h2
    simp [Parser.recognizes, Parser.factor, Parser.match_cons _ hp', hm, h2]
    simp [Parser.skip]; omega
  | termTail_nil =>
    intro p r hp hfol n hn
    obtain ⟨m, rfl⟩ : ∃ m, n = m + 1 := ⟨n - 1, by simp [slack] at hn; omega⟩
    have hp' : p.rest = r := by simpa using hp
    cases r with
    | nil => simp [Parser.recognizes, Parser.termLoop, Parser.match_nil _ hp', Parser.skip]
    | cons t r =>
      have := hfol.2 t rfl
      simp [continues] at this
      simp [Parser.recognizes, Parser.termLoop, Parser.match_cons _ hp', this, Parser.skip]
  | termTail_cons op f more hop hf hmore ihf ihmore =>
    intro p r hp hfol n hn
    obtain ⟨m, rfl⟩ : ∃ m, n = m + 1 := ⟨n - 1, by simp [slack] at hn; omega⟩
    have hp' : p.rest = op :: (f ++ (more ++ r)) := by simpa using hp
    have h1 : (p.skip 1).rest = f ++ (more ++ r) := Parser.rest_skip (w := [op]) hp'
    have h2 := ihf (p.skip 1) (more ++ r) h1 (by simp [Follow, continues]) m
      (by simp [slack] at hn ⊢; omega)
    have h3 : ((p.skip 1).skip f.length).rest = more ++ r := Parser.rest_skip h1
    have h4 := ihmore _ r h3 hfol m (by simp [slack] at hn ⊢; omega)
    simp only [Parser.recognizes] at h2 h4
    have hop' : op.type ∈ [MULTIPLY, DIVIDE] := by simpa using hop
    simp only [Parser.recognizes, Parser.termLoop, Parser.match_cons _ hp', hop', if_true,
      h2, Run.bind, h4]
    simp [Parser.skip]; omega
  | term f more hf hmore ihf ihmore =>
    intro p r hp hfol n hn
    obtain ⟨m, rfl⟩ : ∃ m, n = m + 1 := ⟨n - 1, by simp [slack] at hn; omega⟩
    have hp' : p.rest = f ++ (more ++ r) := by simpa using hp
    have h2 := ihf p (more ++ r) hp' (by simp [Follow, continues]) m
      (by simp [slack] at hn ⊢; omega)
    have h3 : (p.skip f.length).rest = more ++ r := Parser.rest_skip hp'
    have h4 := ihmore _ r h3 ⟨by simp, hfol.2⟩ m (by simp [slack] at hn ⊢; omega)
    simp only [Parser.recognizes] at h2 h4
    simp only [Parser.recognizes, Parser.term, h2, Run.bind, h4]
    simp [Parser.skip]; omega
  | expressionTail_nil =>
    intro p r hp hfol n hn
    obtain ⟨m, rfl⟩ : ∃ m, n = m + 1 := ⟨n - 1, by simp [slack] at hn; omega⟩
    have hp' : p.rest = r := by simpa using hp
    cases r with
    | nil =>
      simp [Parser.recognizes, Parser.expressionLoop, Parser.match_nil _ hp', Parser.skip]
    | cons t r =>
      have := hfol.2 t rfl
      simp [continues] at this
      simp [Parser.recognizes, Parser.expressionLoop, Parser.match_cons _ hp', this,
        Parser.skip]
  | expressionTail_cons op t more hop ht hmore iht ihmore =>
    intro p r hp hfol n hn
    obtain ⟨m, rfl⟩ : ∃ m, n = m + 1 := ⟨n - 1, by simp [slack] at hn; omega⟩
    have hp' : p.rest = op :: (t ++ (more ++ r)) := by simpa using hp
    have h1 : (p.skip 1).rest = t ++ (more ++ r) := Parser.rest_skip (w := [op]) hp'
    have hfol' : Follow .term (more ++ r) :=
      Follow.term_of_expressionTail hmore hfol.2 (by simp) rfl
    have h2 := iht (p.skip 1) (more ++ r) h1 hfol' m (by simp [slack] at hn ⊢; omega)
    have h3 : ((p.skip 1).skip t.length).rest = more ++ r := Parser.rest_skip h1
    have h4 := ihmore _ r h3 hfol m (by simp [slack] at hn ⊢; omega)
    simp only [Parser.recognizes] at h2 h4
    have hop' : op.type ∈ [PLUS, MINUS, GREATER_THAN] := by simpa using hop
    simp only [Parser.recognizes, Parser.expressionLoop, Parser.match_cons _ hp', hop',
      if_true, h2, Run.bind, h4]
    simp [Parser.skip]; omega
  | expression t more ht hmore iht ihmore =>
    intro p r hp hfol n hn
    obtain ⟨m, rfl⟩ : ∃ m, n = m + 1 := ⟨n - 1, by simp [slack] at hn; omega⟩
    have hp' : p.rest = t ++ (more ++ r) := by simpa using hp
    have hfol' : Follow .term (more ++ r) :=
      Follow.term_of_expressionTail hmore hfol.2 (by simp) rfl
    have h2 := iht p (more ++ r) hp' hfol' m (by simp [slack] at hn ⊢; omega)
    have h3 : (p.skip t.length).rest = more ++ r := Parser.rest_skip hp'
    have h4 := ihmore _ r h3 ⟨by simp, hfol.2⟩ m (by simp [slack] at hn ⊢; omega)
    simp only [Parser.recognizes] at h2 h4
    simp only [Parser.recognizes, Parser.expression, h2, Run.bind, h4]
    simp [Parser.skip]; omega
  | statement_assign i a e hi ha he ihe =>
    intro p r hp hfol n hn
    obtain ⟨m, rfl⟩ : ∃ m, n = m + 2 := ⟨n - 2, by simp [slack] at hn; omega⟩
    have hp' : p.rest = i :: a :: (e ++ r) := by simpa using hp
    have h1 : (p.skip 1).rest = a :: (e ++ r) := Parser.rest_skip (w := [i]) hp'
    have h2 : ((p.skip 1).skip 1).rest = e ++ r := Parser.rest_skip (w := [a]) h1
    have hfol' : Follow .expression r := by
      refine ⟨by simp, fun x hx => ?_⟩
      have := hfol.2 x hx
      simp [continues] at this ⊢
      tauto
    have h3 := ihe _ r h2 hfol' m (by simp [slack] at hn ⊢; omega)
    simp only [Parser.recognizes] at h3
    simp [Parser.recognizes, Parser.statement, Parser.assignment, Parser.match_cons _ hp',
      Parser.match_cons _ h1, hi, ha, h3, Run.bind]
    simp [Parser.skip]; omega
  | statement_if kw lp c rp lb s rb hkw hlp hc hrp hlb hs hrb ihc ihs =>
    intro p r hp hfol n hn
    obtain ⟨m, rfl⟩ : ∃ m, n = m + 1 := ⟨n - 1, by simp [slack] at hn; omega⟩
    have hp' : p.rest = kw :: lp :: (c ++ rp :: lb :: (s ++ rb :: r)) := by simpa using hp
    have h1 : (p.skip 1).rest = lp :: (c ++ rp :: lb :: (s ++ rb :: r)) :=
      Parser.rest_skip (w := [kw]) hp'
    have h2 : ((p.skip 1).skip 1).rest = c ++ rp :: lb :: (s ++ rb :: r) :=
      Parser.rest_skip (w := [lp]) h1
    have h3 := ihc _ _ h2 (by simp [Follow, continues, hrp]) m
      (by simp [slack] at hn ⊢; omega)
    have h4 : (((p.skip 1).skip 1).skip c.length).rest = rp :: lb :: (s ++ rb :: r) :=
      Parser.rest_skip h2
    have h5 : ((((p.skip 1).skip 1).skip c.length).skip 1).rest = lb :: (s ++ rb :: r) :=
      Parser.rest_skip (w := [rp]) h4
    have h6 : (((((p.skip 1).skip 1).skip c.length).skip 1).skip 1).rest = s ++ rb :: r :=
      Parser.rest_skip (w := [lb]) h5
    have h7 := ihs _ _ h6 (by simp [Follow, continues, hrb]) m
      (by simp [slack] at hn ⊢; omega)
    have h8 : ((((((p.skip 1).skip 1).skip c.length).skip 1).skip 1).skip s.length).rest
        = rb :: r := Parser.rest_skip h6
    have h9 : (((((((p.skip 1).skip 1).skip c.length).skip 1).skip 1).skip s.length).skip
        1).rest = r := Parser.rest_skip (w := [rb]) h8
    simp only [Parser.recognizes] at h3 h7
    cases r with
    | nil =>
      simp [Parser.recognizes, Parser.statement, Parser.match_cons _ hp',
        Parser.match_cons _ h1, hkw, hlp, h3, Run.bind, Parser.match_cons _ h4,
        Parser.match_cons _ h5, hrp, hlb, h7, Parser.match_cons _ h8, hrb,
        Parser.match_nil _ h9]
      simp [Parser.skip]; omega
    | cons x r =>
      have := hfol.2 x rfl
      simp [continues] at this
      simp [Parser.recognizes, Parser.statement, Parser.match_cons _ hp',
        Parser.match_cons _ h1, hkw, hlp, h3, Run.bind, Parser.match_cons _ h4,
        Parser.match_cons _ h5, hrp, hlb, h7, Parser.match_cons _ h8, hrb,
        Parser.match_cons _ h9, this]
      simp [Parser.skip]; omega
  | statement_if_else kw lp c rp lb s rb el lb2 s2 rb2 hkw hlp hc hrp hlb hs hrb hel hlb2
      hs2 hrb2 ihc ihs ihs2 =>
    intro p r hp hfol n hn
    obtain ⟨m, rfl⟩ : ∃ m, n = m + 1 := ⟨n - 1, by simp [slack] at hn; omega⟩
    have hp' : p.rest =
        kw :: lp :: (c ++ rp :: lb :: (s ++ rb :: el :: lb2 :: (s2 ++ rb2 :: r))) := by
      simpa using hp
    have h1 : (p.skip 1).rest =
        lp :: (c ++ rp :: lb :: (s ++ rb :: el :: lb2 :: (s2 ++ rb2 :: r))) :=
      Parser.rest_skip (w := [kw]) hp'
    have h2 : ((p.skip 1).skip 1).rest =
        c ++ rp :: lb :: (s ++ rb :: el :: lb2 :: (s2 ++ rb2 :: r)) :=
      Parser.rest_skip (w := [lp]) h1
    have h3 := ihc _ _ h2 (by simp [Follow, continues, hrp]) m
      (by simp [slack] at hn ⊢; omega)
    have h4 : (((p.skip 1).skip 1).skip c.length).rest =
        rp :: lb :: (s ++ rb :: el :: lb2 :: (s2 ++ rb2 :: r)) := Parser.rest_skip h2
    have h5 : ((((p.skip 1).skip 1).skip c.length).skip 1).rest =
        lb :: (s ++ rb :: el :: lb2 :: (s2 ++ rb2 :: r)) := Parser.rest_skip (w := [rp]) h4
    have h6 : (((((p.skip 1).skip 1).skip c.length).skip 1).skip 1).rest =
        s ++ rb :: el :: lb2 :: (s2 ++ rb2 :: r) := Parser.rest_skip (w := [lb]) h5
    have h7 := ihs _ _ h6 (by simp [Follow, continues, hrb]) m
      (by simp [slack] at hn ⊢; omega)
    have h8 : ((((((p.skip 1).skip 1).skip c.length).skip 1).skip 1).skip s.length).rest
        = rb :: el :: lb2 :: (s2 ++ rb2 :: r) := Parser.rest_skip h6
    have h9 : (((((((p.skip 1).skip 1).skip c.length).skip 1).skip 1).skip s.length).skip
        1).rest = el :: lb2 :: (s2 ++ rb2 :: r) := Parser.rest_skip (w := [rb]) h8
    have h10 : ((((((((p.skip 1).skip 1).skip c.length).skip 1).skip 1).skip s.length).skip
        1).skip 1).rest = lb2 :: (s2 ++ rb2 :: r) := Parser.rest_skip (w := [el]) h9
    have h11 : (((((((((p.skip 1).skip 1).skip c.length).skip 1).skip 1).skip s.length).skip
        1).skip 1).skip 1).rest = s2 ++ rb2 :: r := Parser.rest_skip (w := [lb2]) h10
    have h12 := ihs2 _ _ h11 (by simp [Follow, continues, hrb2]) m
      (by simp [slack] at hn ⊢; omega)
    have h13 : ((((((((((p.skip 1).skip 1).skip c.length).skip 1).skip 1).skip
        s.length).skip 1).skip 1).skip 1).skip s2.length).rest = rb2 :: r :=
      Parser.rest_skip h11
    simp only [Parser.recognizes] at h3 h7 h12
    simp [Parser.recognizes, Parser.statement, Parser.match_cons _ hp',
      Parser.match_cons _ h1, hkw, hlp, h3, Run.bind, Parser.match_cons _ h4,
      Parser.match_cons _ h5, hrp, hlb, h7, Parser.match_cons _ h8, hrb,
      Parser.match_cons _ h9, hel, Parser.match_cons _ h10, hlb2, h12,
      Parser.match_cons _ h13, hrb2]
    simp [Parser.skip]; omega
  | program_nil =>
    intro p r hp hfol n hn
    obtain ⟨m, rfl⟩ : ∃ m, n = m + 1 := ⟨n - 1, by simp [slack] at hn; omega⟩
    have hr : r = [] := hfol.1 rfl
    have hp' : p.rest = [] := by simpa [hr] using hp
    have := (Parser.rest_eq_nil_iff p).1 hp'
    simp [Parser.recognizes, Parser.parseLoop, this, Parser.skip]
  | program_cons s more hs hmore ihs ihmore =>
    intro p r hp hfol n hn
    obtain ⟨m, rfl⟩ : ∃ m, n = m + 1 := ⟨n - 1, by simp [slack] at hn; omega⟩
    have hr : r = [] := hfol.1 rfl
    subst hr
    have hp' : p.rest = s ++ (more ++ []) := by simpa using hp
    obtain ⟨t, s', hs', -⟩ := Derives.statement_first hs
    have hlt : p.current < p.tokens.length := by
      by_contra hcon
      have := (Parser.rest_eq_nil_iff p).2 hcon
      rw [this, hs'] at hp'
      simp at hp'
    have hfol' : Follow .statement (more ++ []) := by
      refine ⟨by simp, fun x hx => ?_⟩
      have := Derives.program_first hmore x (by simpa using hx)
      simp at this
      rcases this with h | h <;> simp [continues, h]
    have hlen : 1 ≤ s.length := by simp [hs']
    have h2 := ihs p _ hp' hfol' m (by simp [slack] at hn ⊢; omega)
    have h3 : (p.skip s.length).rest = more ++ [] := Parser.rest_skip hp'
    have h4 := ihmore _ [] h3 hfol m (by simp [slack] at hn ⊢; omega)
    simp only [Parser.recognizes] at h2 h4
    simp only [Parser.recognizes, Parser.parseLoop, hlt, if_true, h2, Run.bind, h4]
    simp [Parser.skip]; omega

theorem Derives.term_of_factor {f : List Token} (h : Derives .factor f) :
    Derives .term f := by
  simpa using Derives.term f [] h .termTail_nil

theorem Derives.expression_of_term {t : List Token} (h : Derives .term t) :
    Derives .expression t := by
  simpa using Derives.expression t [] h .expressionTail_nil

theorem Derives.expression_of_factor {f : List Token} (h : Derives .factor f) :
    Derives .expression f :=
  Derives.expression_of_term (Derives.term_of_factor h)

theorem Derives.program_single {s : List Token} (h : Derives .statement s) :
    Derives .program s := by
  simpa using Derives.program_cons s [] h .program_nil

theorem derives_tokensTest1 : Derives .program tokensTest1 :=
  Derives.program_single
    (Derives.statement_assign _ _ _ rfl rfl
      (Derives.expression_of_factor (Derives.factor_integer _ rfl)))

theorem derives_tokensTest2 : Derives .program tokensTest2 :=
  Derives.program_single
    (Derives.statement_if_else ⟨IF, "if"⟩ ⟨LPAREN, "("⟩
      [⟨ID, "x"⟩, ⟨GREATER_THAN, ">"⟩, ⟨INTEGER, "2"⟩] ⟨RPAREN, ")"⟩ ⟨LBRACE, "\x7b"⟩
      [⟨ID, "y"⟩, ⟨ASSIGN, "="⟩, ⟨INTEGER, "4"⟩] ⟨RBRACE, "\x7d"⟩ ⟨ELSE, "else"⟩
      ⟨LBRACE, "\x7b"⟩ [⟨ID, "y"⟩, ⟨ASSIGN, "="⟩, ⟨INTEGER, "5"⟩] ⟨RBRACE, "\x7d"⟩
      rfl rfl
      (Derives.expression [⟨ID, "x"⟩] [⟨GREATER_THAN, ">"⟩, ⟨INTEGER, "2"⟩]
        (Derives.term_of_factor (Derives.factor_id _ rfl))
        (Derives.expressionTail_cons ⟨GREATER_THAN, ">"⟩ [⟨INTEGER, "2"⟩] []
          (Or.inr (Or.inr rfl)) (Derives.term_of_factor (Derives.factor_integer _ rfl))
          .expressionTail_nil))
      rfl rfl
      (Derives.statement_assign _ _ _ rfl rfl
        (Derives.expression_of_factor (Derives.factor_integer _ rfl)))
      rfl rfl rfl
      (Derives.statement_assign _ _ _ rfl rfl
        (Derives.expression_of_factor (Derives.factor_integer _ rfl)))
      rfl)

theorem derives_tokensTest3 : Derives .program tokensTest3 :=
  Derives.program_single
    (Derives.statement_assign ⟨ID, "x"⟩ ⟨ASSIGN, "="⟩ _ rfl rfl
      (Derives.expression
        [⟨LPAREN, "("⟩, ⟨INTEGER, "3"⟩, ⟨PLUS, "+"⟩, ⟨INTEGER, "2"⟩, ⟨RPAREN, ")"⟩]
        [⟨MINUS, "-"⟩, ⟨LPAREN, "("⟩, ⟨INTEGER, "2"⟩, ⟨MULTIPLY, "*"⟩, ⟨INTEGER, "1"⟩,
          ⟨RPAREN, ")"⟩]
        (Derives.term_of_factor
          (Derives.factor_paren ⟨LPAREN, "("⟩
            [⟨INTEGER, "3"⟩, ⟨PLUS, "+"⟩, ⟨INTEGER, "2"⟩] ⟨RPAREN, ")"⟩ rfl
            (Derives.expression [⟨INTEGER, "3"⟩] [⟨PLUS, "+"⟩, ⟨INTEGER, "2"⟩]
              (Derives.term_of_factor (Derives.factor_integer _ rfl))
              (Derives.expressionTail_cons ⟨PLUS, "+"⟩ [⟨INTEGER, "2"⟩] [] (Or.inl rfl)
                (Derives.term_of_factor (Derives.factor_integer _ rfl))
                .expressionTail_nil))
            rfl))
        (Derives.expressionTail_cons ⟨MINUS, "-"⟩
          [⟨LPAREN, "("⟩, ⟨INTEGER, "2"⟩, ⟨MULTIPLY, "*"⟩, ⟨INTEGER, "1"⟩, ⟨RPAREN, ")"⟩] []
          (Or.inr (Or.inl rfl))
          (Derives.term_of_factor
            (Derives.factor_paren ⟨LPAREN, "("⟩
              [⟨INTEGER, "2"⟩, ⟨MULTIPLY, "*"⟩, ⟨INTEGER, "1"⟩] ⟨RPAREN, ")"⟩ rfl
              (Derives.expression_of_term
                (Derives.term [⟨INTEGER, "2"⟩] [⟨MULTIPLY, "*"⟩, ⟨INTEGER, "1"⟩]
                  (Derives.factor_integer _ rfl)
                  (Derives.termTail_cons ⟨MULTIPLY, "*"⟩ [⟨INTEGER, "1"⟩] [] (Or.inl rfl)
                    (Derives.factor_integer _ rfl) .termTail_nil)))
              rfl))
          .expressionTail_nil)))

/-- C1. Completeness of the recognizer: every token sequence derivable from the
grammar (`Derives .program`) is accepted, that is `NewParser(tokens).parse()`
returns `nil`, having consumed the whole sequence and printed nothing. -/
theorem parse_complete (tokens : List Token) (h : Derives .program tokens) :
    (NewParser tokens).parse =
      .done none { tokens := tokens, current := tokens.length, stdout := [] } := by
  have := Parser.recognizes_of_derives h (NewParser tokens) [] (by simp [Parser.rest, NewParser])
    (by simp [Follow, continues]) (NewParser tokens).parseFuel
    (by simp [slack, Parser.parseFuel, NewParser])
  simpa [Parser.recognizes, Parser.parse, Parser.skip, NewParser] using this

/-- The three accepted inputs of `TestParser` are scanned to `tokensTest1`,
`tokensTest2` and `tokensTest3`, which are derivable, hence accepted. -/
theorem parse_complete_witness :
    (Derives .program tokensTest1 ∧ Derives .program tokensTest2 ∧
      Derives .program tokensTest3) ∧
    scanThenParse (goBytes "x = 5")
        = .done none { tokens := tokensTest1, current := 3, stdout := [] } ∧
    scanThenParse (goBytes "if (x > 2) { y = 4 } else { y = 5 }")
        = .done none { tokens := tokensTest2, current := 17, stdout := [] } ∧
    scanThenParse (goBytes "x = (3 + 2) - (2 * 1)")
        = .done none { tokens := tokensTest3, current := 13, stdout := [] } := by
  have e1 : (NewLexer (goBytes "x = 5")).tokenize =
      .done tokensTest1 ⟨goBytes "x = 5", 5, []⟩ := by decide
  have e2 : (NewLexer (goBytes "if (x > 2) { y = 4 } else { y = 5 }")).tokenize =
      .done tokensTest2 ⟨goBytes "if (x > 2) { y = 4 } else { y = 5 }", 35, []⟩ := by
    decide
  have e3 : (NewLexer (goBytes "x = (3 + 2) - (2 * 1)")).tokenize =
      .done tokensTest3 ⟨goBytes "x = (3 + 2) - (2 * 1)", 21, []⟩ := by decide
  simp only [scanThenParse, e1, e2, e3]
  exact ⟨⟨derives_tokensTest1, derives_tokensTest2, derives_tokensTest3⟩,
    parse_complete _ derives_tokensTest1, parse_complete _ derives_tokensTest2,
    parse_complete _ derives_tokensTest3⟩

/-! ### Soundness against the lenient grammar -/

theorem Consumed.refl (p : Parser) : Consumed p [] p := ⟨rfl, rfl⟩

theorem Consumed.trans {p q r : Parser} {w v : List Token}
    (h1 : Consumed p w q) (h2 : Consumed q v r) : Consumed p (w ++ v) r :=
  ⟨h2.1.trans h1.1, by rw [h1.2, h2.2, List.append_assoc]⟩

theorem Consumed.skip_one {p : Parser} {t : Token} {r : List Token}
    (h : p.rest = t :: r) : Consumed p [t] (p.skip 1) :=
  ⟨rfl, by
    have h' : (p.skip 1).rest = r := Parser.rest_skip (w := [t]) h
    rw [h', h]; rfl⟩

theorem Consumed.print (p : Parser) (out : List String) :
    Consumed p [] { p with stdout := out } := ⟨rfl, rfl⟩

theorem Parser.match_cases (expected : List TokenType) (p : Parser) :
    Parser.match expected p = (false, p) ∨
    ∃ t, t.type ∈ expected ∧ Consumed p [t] (p.skip 1) ∧
      Parser.match expected p = (true, p.skip 1) := by
  cases h : p.rest with
  | nil => exact Or.inl (Parser.match_nil _ h)
  | cons t r =>
    by_cases ht : t.type ∈ expected
    · exact Or.inr ⟨t, ht, Consumed.skip_one h, by rw [Parser.match_cons _ h, if_pos ht]⟩
    · exact Or.inl (by rw [Parser.match_cons _ h, if_neg ht])

theorem Parser.match_opt (ty : TokenType) (p : Parser) :
    ∃ o, Opt ty o ∧ Consumed p o (Parser.match [ty] p).2 := by
  rcases Parser.match_cases [ty] p with h | ⟨t, ht, hc, h⟩
  · exact ⟨[], Or.inl rfl, by rw [h]; exact Consumed.refl p⟩
  · exact ⟨[t], Or.inr ⟨t, rfl, by simpa using ht⟩, by rw [h]; exact hc⟩

theorem Run.bind_eq_done {α β σ : Type} {r : Run α σ} {k : α → σ → Run β σ} {b : β}
    {q : σ} (h : r.bind k = .done b q) : ∃ a s, r = .done a s ∧ k a s = .done b q := by
  cases r with
  | done a s => exact ⟨a, s, rfl, h⟩
  | panic => simp [Run.bind] at h
  | outOfFuel => simp [Run.bind] at h

/-- Soundness of the expression procedures against the lenient grammar. -/
theorem Parser.lenient_expression (n : Nat) :
    (∀ p q, Parser.factor n p = .done () q → ∃ w, Consumed p w q ∧ Lenient .factor w) ∧
    (∀ p q, Parser.termLoop n p = .done () q →
      ∃ w, Consumed p w q ∧ Lenient .termTail w) ∧
    (∀ p q, Parser.term n p = .done () q → ∃ w, Consumed p w q ∧ Lenient .term w) ∧
    (∀ p q, Parser.expressionLoop n p = .done () q →
      ∃ w, Consumed p w q ∧ Lenient .expressionTail w) ∧
    (∀ p q, Parser.expression n p = .done () q →
      ∃ w, Consumed p w q ∧ Lenient .expression w) := by
  induction n with
  | zero => simp [Parser.factor, Parser.termLoop, Parser.term, Parser.expressionLoop,
      Parser.expression]
  | succ n ih =>
    obtain ⟨ihF, ihTT, ihT, ihET, ihE⟩ := ih
    refine ⟨?_, ?_, ?_, ?_, ?_⟩
    · intro p q h
      rw [Parser.factor] at h
      rcases Parser.match_cases [INTEGER] p with h1 | ⟨t, ht, hc, h1⟩
      swap
      · simp [h1] at h
        exact ⟨[t], h ▸ hc, .factor_integer t (by simpa using ht)⟩
      rcases Parser.match_cases [ID] p with h2 | ⟨t, ht, hc, h2⟩
      swap
      · simp [h1, h2] at h
        exact ⟨[t], h ▸ hc, .factor_id t (by simpa using ht)⟩
      rcases Parser.match_cases [LPAREN] p with h3 | ⟨t, ht, hc, h3⟩
      swap
      · simp [h1, h2, h3] at h
        obtain ⟨_, q', he, hq⟩ := Run.bind_eq_done h
        obtain ⟨e, hce, hle⟩ := ihE _ _ he
        obtain ⟨o, ho, hco⟩ := Parser.match_opt RPAREN q'
        simp at hq
        refine ⟨[t] ++ (e ++ o), ?_, .factor_paren t e o (by simpa using ht) hle ho⟩
        rw [← hq]
        exact hc.trans (hce.trans hco)
      rcases Parser.match_cases [MINUS] p with h4 | ⟨t, ht, hc, h4⟩
      swap
      · simp [h1, h2, h3, h4] at h
        obtain ⟨f, hcf, hlf⟩ := ihF _ _ h
        exact ⟨[t] ++ f, hc.trans hcf, .factor_minus t f (by simpa using ht) hlf⟩
      simp [h1, h2, h3, h4] at h
      cases htok : p.tokens[p.current]? with
      | none => simp [htok] at h
      | some tok =>
        simp [htok] at h
        exact ⟨[], h ▸ Consumed.print p _, .factor_empty⟩
    · intro p q h
      rw [Parser.termLoop] at h
      rcases Parser.match_cases [MULTIPLY, DIVIDE] p with h1 | ⟨t, ht, hc, h1⟩
      · simp [h1] at h
        exact ⟨[], h ▸ Consumed.refl p, .termTail_nil⟩
      · simp [h1] at h
        obtain ⟨_, q', hf, hq⟩ := Run.bind_eq_done h
        obtain ⟨f, hcf, hlf⟩ := ihF _ _ hf
        obtain ⟨more, hcm, hlm⟩ := ihTT _ _ hq
        exact ⟨[t] ++ (f ++ more), hc.trans (hcf.trans hcm),
          .termTail_cons t f more (by simpa using ht) hlf hlm⟩
    · intro p q h
      rw [Parser.term] at h
      obtain ⟨_, q', hf, hq⟩ := Run.bind_eq_done h
      obtain ⟨f, hcf, hlf⟩ := ihF _ _ hf
      obtain ⟨more, hcm, hlm⟩ := ihTT _ _ hq
      exact ⟨f ++ more, hcf.trans hcm, .term f more hlf hlm⟩
    · intro p q h
      rw [Parser.expressionLoop] at h
      rcases Parser.match_cases [PLUS, MINUS, GREATER_THAN] p with h1 | ⟨t, ht, hc, h1⟩
      · simp [h1] at h
        exact ⟨[], h ▸ Consumed.refl p, .expressionTail_nil⟩
      · simp [h1] at h
        obtain ⟨_, q', hf, hq⟩ := Run.bind_eq_done h
        obtain ⟨f, hcf, hlf⟩ := ihT _ _ hf
        obtain ⟨more, hcm, hlm⟩ := ihET _ _ hq
        exact ⟨[t] ++ (f ++ more), hc.trans (hcf.trans hcm),
          .expressionTail_cons t f more (by simpa using ht) hlf hlm⟩
    · intro p q h
      rw [Parser.expression] at h
      obtain ⟨_, q', hf, hq⟩ := Run.bind_eq_done h
      obtain ⟨f, hcf, hlf⟩ := ihT _ _ hf
      obtain ⟨more, hcm, hlm⟩ := ihET _ _ hq
      exact ⟨f ++ more, hcf.trans hcm, .expression f more hlf hlm⟩

/-! ### The walk of the recognizer and its runs -/

theorem Stops.of_nil (expected : List TokenType) : Stops expected [] := by
  intro t ht; simp at ht

theorem Parser.match_walk (expected : List TokenType) (p : Parser) :
    (Parser.match expected p = (false, p) ∧ Stops expected p.rest) ∨
    ∃ t, t.type ∈ expected ∧ p.rest = t :: (p.skip 1).rest ∧
      Parser.match expected p = (true, p.skip 1) := by
  cases h : p.rest with
  | nil => exact Or.inl ⟨Parser.match_nil _ h, Stops.of_nil _⟩
  | cons t r =>
    have hr : (p.skip 1).rest = r := Parser.rest_skip (w := [t]) h
    by_cases ht : t.type ∈ expected
    · exact Or.inr ⟨t, ht, by rw [hr], by rw [Parser.match_cons _ h, if_pos ht]⟩
    · refine Or.inl ⟨by rw [Parser.match_cons _ h, if_neg ht], ?_⟩
      intro x hx
      simp at hx
      subst hx
      exact ht

theorem Parser.match_skips (ty : TokenType) (p : Parser) :
    Skips ty p.rest (Parser.match [ty] p).2.rest := by
  rcases Parser.match_walk [ty] p with ⟨h, hs⟩ | ⟨t, ht, hr, h⟩
  · rw [h]; exact Or.inr ⟨rfl, hs⟩
  · rw [h]; exact Or.inl ⟨t, hr, by simpa using ht⟩

/-- Every normal completion of an expression procedure is a walk. -/
theorem Parser.walk_expression (n : Nat) :
    (∀ p q, Parser.factor n p = .done () q → Walk false .factor p.rest q.rest) ∧
    (∀ p q, Parser.termLoop n p = .done () q → Walk false .termTail p.rest q.rest) ∧
    (∀ p q, Parser.term n p = .done () q → Walk false .term p.rest q.rest) ∧
    (∀ p q, Parser.expressionLoop n p = .done () q →
      Walk false .expressionTail p.rest q.rest) ∧
    (∀ p q, Parser.expression n p = .done () q → Walk false .expression p.rest q.rest) := by
  induction n with
  | zero => simp [Parser.factor, Parser.termLoop, Parser.term, Parser.expressionLoop,
      Parser.expression]
  | succ n ih =>
    obtain ⟨ihF, ihTT, ihT, ihET, ihE⟩ := ih
    refine ⟨?_, ?_, ?_, ?_, ?_⟩
    · intro p q h
      rw [Parser.factor] at h
      rcases Parser.match_walk [INTEGER] p with ⟨h1, s1⟩ | ⟨t, ht, hr, h1⟩
      swap
      · simp [h1] at h
        rw [hr, ← h]
        exact .factor_integer t _ (by simpa using ht)
      rcases Parser.match_walk [ID] p with ⟨h2, s2⟩ | ⟨t, ht, hr, h2⟩
      swap
      · simp [h1, h2] at h
        rw [hr, ← h]
        exact .factor_id t _ (by simpa using ht)
      rcases Parser.match_walk [LPAREN] p with ⟨h3, s3⟩ | ⟨t, ht, hr, h3⟩
      swap
      · simp [h1, h2, h3] at h
        obtain ⟨_, q', he, hq⟩ := Run.bind_eq_done h
        simp at hq
        rw [hr, ← hq]
        exact .factor_paren t _ _ _ (by simpa using ht) (ihE _ _ he)
          (Parser.match_skips RPAREN q')
      rcases Parser.match_walk [MINUS] p with ⟨h4, s4⟩ | ⟨t, ht, hr, h4⟩
      swap
      · simp [h1, h2, h3, h4] at h
        rw [hr]
        exact .factor_minus t _ _ (by simpa using ht) (ihF _ _ h)
      simp [h1, h2, h3, h4] at h
      cases htok : p.tokens[p.current]? with
      | none => simp [htok] at h
      | some tok =>
        simp [htok] at h
        rw [Parser.getElem?_current] at htok
        have hq : q.rest = p.rest := by rw [← h]; rfl
        rw [hq]
        cases hrest : p.rest with
        | nil => simp [hrest] at htok
        | cons t r =>
          simp [hrest] at htok
          subst htok
          have a1 := s1 t (by simp [hrest])
          have a2 := s2 t (by simp [hrest])
          have a3 := s3 t (by simp [hrest])
          have a4 := s4 t (by simp [hrest])
          exact .factor_none t r (by simp at a1 a2 a3 a4 ⊢; exact ⟨a1, a2, a3, a4⟩)
    · intro p q h
      rw [Parser.termLoop] at h
      rcases Parser.match_walk [MULTIPLY, DIVIDE] p with ⟨h1, s1⟩ | ⟨t, ht, hr, h1⟩
      · simp [h1] at h
        rw [← h]
        exact .termTail_stop _ s1
      · simp [h1] at h
        obtain ⟨_, q', hf, hq⟩ := Run.bind_eq_done h
        rw [hr]
        exact .termTail_more t _ _ _ ht (ihF _ _ hf) (ihTT _ _ hq)
    · intro p q h
      rw [Parser.term] at h
      obtain ⟨_, q', hf, hq⟩ := Run.bind_eq_done h
      exact .term _ _ _ (ihF _ _ hf) (ihTT _ _ hq)
    · intro p q h
      rw [Parser.expressionLoop] at h
      rcases Parser.match_walk [PLUS, MINUS, GREATER_THAN] p with ⟨h1, s1⟩ | ⟨t, ht, hr, h1⟩
      · simp [h1] at h
        rw [← h]
        exact .expressionTail_stop _ s1
      · simp [h1] at h
        obtain ⟨_, q', hf, hq⟩ := Run.bind_eq_done h
        rw [hr]
        exact .expressionTail_more t _ _ _ ht (ihT _ _ hf) (ihET _ _ hq)
    · intro p q h
      rw [Parser.expression] at h
      obtain ⟨_, q', hf, hq⟩ := Run.bind_eq_done h
      exact .expression _ _ _ (ihT _ _ hf) (ihET _ _ hq)

/-- Every normal completion of `statement` with `nil` is a walk. -/
theorem Parser.walk_statement (n : Nat) :
    ∀ p q, Parser.statement n p = .done none q → ∃ b, Walk b .statement p.rest q.rest := by
  induction n with
  | zero => simp [Parser.statement]
  | succ n ih =>
    intro p q h
    rw [Parser.statement] at h
    rcases Parser.match_walk [ID] p with ⟨h1, _⟩ | ⟨i, hi, hri, h1⟩
    swap
    · simp only [h1, if_true] at h
      cases n with
      | zero => simp [Parser.assignment] at h
      | succ n =>
        rw [Parser.assignment] at h
        rcases Parser.match_walk [ID, ASSIGN] (p.skip 1) with ⟨h2, _⟩ | ⟨a, ha, hra, h2⟩
        · simp [h2] at h
          cases htok : (p.skip 1).tokens[(p.skip 1).current]? <;> simp [htok] at h
        · simp [h2] at h
          obtain ⟨_, q', he, hq⟩ := Run.bind_eq_done h
          have hwe := (Parser.walk_expression n).2.2.2.2 _ _ he
          simp at hq
          subst hq
          have hi' : i.type = ID := by simpa using hi
          rw [hri, hra]
          simp at ha
          rcases ha with ha | ha
          · exact ⟨true, .statement_assign_id i a _ _ hi' ha hwe⟩
          · exact ⟨false, .statement_assign i a _ _ hi' ha hwe⟩
    simp only [h1] at h
    rcases Parser.match_walk [IF] p with ⟨h2, _⟩ | ⟨kw, hkw, hrkw, h2⟩
    · simp [h2] at h
      cases htok : p.tokens[p.current]? <;> simp [htok] at h
    simp only [h2] at h
    simp only [Bool.false_eq_true, if_false, if_true] at h
    have ho1 := Parser.match_skips LPAREN (p.skip 1)
    obtain ⟨_, p2, he, h⟩ := Run.bind_eq_done h
    have hwc := (Parser.walk_expression n).2.2.2.2 _ _ he
    have ho2 := Parser.match_skips RPAREN p2
    have ho3 := Parser.match_skips LBRACE (Parser.match [RPAREN] p2).2
    obtain ⟨err, p5, hs, h⟩ := Run.bind_eq_done h
    cases err with
    | some e => simp at h
    | none =>
      obtain ⟨b1, hws⟩ := ih _ p5 hs
      have ho4 := Parser.match_skips RBRACE p5
      simp only at h
      rcases Parser.match_walk [ELSE] (Parser.match [RBRACE] p5).2 with
        ⟨h7, s7⟩ | ⟨el, hel, hrel, h7⟩
      · simp [h7] at h
        subst h
        rw [hrkw]
        exact ⟨b1, .statement_if b1 kw _ _ _ _ _ _ _ (by simpa using hkw) ho1 hwc ho2 ho3
          hws ho4 s7⟩
      · simp only [h7, if_true] at h
        have ho5 := Parser.match_skips LBRACE ((Parser.match [RBRACE] p5).2.skip 1)
        obtain ⟨err2, p9, hs2, h⟩ := Run.bind_eq_done h
        cases err2 with
        | some e => simp at h
        | none =>
          obtain ⟨b2, hws2⟩ := ih _ p9 hs2
          have ho6 := Parser.match_skips RBRACE p9
          simp at h
          subst h
          rw [hrkw]
          rw [hrel] at ho4
          exact ⟨b1 || b2, .statement_if_else b1 b2 kw _ _ _ _ _ _ el _ _ _ _
            (by simpa using hkw) ho1 hwc ho2 ho3 hws ho4 (by simpa using hel) ho5 hws2 ho6⟩

/-- Every normal completion of the loop of `parse` with `nil` is a walk over the
whole remaining stream. -/
theorem Parser.walk_parseLoop (n : Nat) :
    ∀ p q, Parser.parseLoop n p = .done none q → ∃ b, Walk b .program p.rest [] := by
  induction n with
  | zero => simp [Parser.parseLoop]
  | succ n ih =>
    intro p q h
    rw [Parser.parseLoop] at h
    by_cases hlt : p.current < p.tokens.length
    · simp only [hlt, if_true] at h
      obtain ⟨err, p1, hs, h⟩ := Run.bind_eq_done h
      cases err with
      | some e => simp at h
      | none =>
        obtain ⟨b1, hws⟩ := Parser.walk_statement n p p1 hs
        obtain ⟨b2, hwp⟩ := ih p1 q h
        exact ⟨b1 || b2, .program_cons b1 b2 _ _ hws hwp⟩
    · rw [(Parser.rest_eq_nil_iff p).2 hlt]
      exact ⟨false, .program_nil⟩

theorem Skips.opt {ty : TokenType} {inp out : List Token} (h : Skips ty inp out) :
    ∃ o, inp = o ++ out ∧ Opt ty o := by
  rcases h with ⟨t, rfl, ht⟩ | ⟨rfl, _⟩
  · exact ⟨[t], rfl, Or.inr ⟨t, rfl, ht⟩⟩
  · exact ⟨[], rfl, Or.inl rfl⟩

/-- A walk that never takes an `ID` token for `=` consumes a phrase of the
lenient grammar. -/
theorem Walk.to_lenient {b : Bool} {nt : NT} {inp out : List Token} (h : Walk b nt inp out) :
    b = false → ∃ w, inp = w ++ out ∧ Lenient nt w := by
  induction h with
  | factor_integer t out ht => exact fun _ => ⟨[t], rfl, .factor_integer t ht⟩
  | factor_id t out ht => exact fun _ => ⟨[t], rfl, .factor_id t ht⟩
  | factor_paren l inp mid out hl _ hs ihe =>
    intro _
    obtain ⟨e, rfl, he⟩ := ihe rfl
    obtain ⟨o, rfl, ho⟩ := hs.opt
    exact ⟨l :: (e ++ o), by simp, .factor_paren l e o hl he ho⟩
  | factor_minus m inp out hm _ ihf =>
    intro _
    obtain ⟨f, rfl, hf⟩ := ihf rfl
    exact ⟨m :: f, rfl, .factor_minus m f hm hf⟩
  | factor_none t r _ => exact fun _ => ⟨[], rfl, .factor_empty⟩
  | termTail_stop inp _ => exact fun _ => ⟨[], rfl, .termTail_nil⟩
  | termTail_more op inp mid out hop _ _ ihf iht =>
    intro _
    obtain ⟨f, rfl, hf⟩ := ihf rfl
    obtain ⟨m, rfl, hm⟩ := iht rfl
    exact ⟨op :: (f ++ m), by simp, .termTail_cons op f m (by simpa using hop) hf hm⟩
  | term inp mid out _ _ ihf iht =>
    intro _
    obtain ⟨f, rfl, hf⟩ := ihf rfl
    obtain ⟨m, rfl, hm⟩ := iht rfl
    exact ⟨f ++ m, by simp, .term f m hf hm⟩
  | expressionTail_stop inp _ => exact fun _ => ⟨[], rfl, .expressionTail_nil⟩
  | expressionTail_more op inp mid out hop _ _ ihf iht =>
    intro _
    obtain ⟨f, rfl, hf⟩ := ihf rfl
    obtain ⟨m, rfl, hm⟩ := iht rfl
    exact ⟨op :: (f ++ m), by simp,
      .expressionTail_cons op f m (by simpa using hop) hf hm⟩
  | expression inp mid out _ _ ihf iht =>
    intro _
    obtain ⟨f, rfl, hf⟩ := ihf rfl
    obtain ⟨m, rfl, hm⟩ := iht rfl
    exact ⟨f ++ m, by simp, .expression f m hf hm⟩
  | statement_assign i a inp out hi ha _ ihe =>
    intro _
    obtain ⟨e, rfl, he⟩ := ihe rfl
    exact ⟨i :: a :: e, rfl, .statement_assign i a e hi ha he⟩
  | statement_assign_id i a inp out hi ha _ ihe => exact fun hb => by simp at hb
  | statement_if b kw r1 r2 r3 r4 r5 r6 out hkw h1 _ h2 h3 _ h4 _ ihc ihs =>
    intro hb
    obtain ⟨o1, rfl, ho1⟩ := h1.opt
    obtain ⟨c, rfl, hc⟩ := ihc rfl
    obtain ⟨o2, rfl, ho2⟩ := h2.opt
    obtain ⟨o3, rfl, ho3⟩ := h3.opt
    obtain ⟨s, rfl, hs⟩ := ihs hb
    obtain ⟨o4, rfl, ho4⟩ := h4.opt
    exact ⟨kw :: (o1 ++ (c ++ (o2 ++ (o3 ++ (s ++ o4))))), by simp,
      .statement_if kw o1 c o2 o3 s o4 hkw ho1 hc ho2 ho3 hs ho4⟩
  | statement_if_else b1 b2 kw r1 r2 r3 r4 r5 r6 el r7 r8 r9 out hkw h1 _ h2 h3 _ h4 hel h5 _
      h6 ihc ihs ihs2 =>
    intro hb
    simp at hb
    obtain ⟨o1, rfl, ho1⟩ := h1.opt
    obtain ⟨c, rfl, hc⟩ := ihc rfl
    obtain ⟨o2, rfl, ho2⟩ := h2.opt
    obtain ⟨o3, rfl, ho3⟩ := h3.opt
    obtain ⟨s, rfl, hs⟩ := ihs hb.1
    obtain ⟨o4, rfl, ho4⟩ := h4.opt
    obtain ⟨o5, rfl, ho5⟩ := h5.opt
    obtain ⟨s2, rfl, hs2⟩ := ihs2 hb.2
    obtain ⟨o6, rfl, ho6⟩ := h6.opt
    exact ⟨kw :: (o1 ++ (c ++ (o2 ++ (o3 ++ (s ++ (o4 ++ el :: (o5 ++ (s2 ++ o6)))))))),
      by simp, .statement_if_else kw o1 c o2 o3 s o4 el o5 s2 o6 hkw ho1 hc ho2 ho3 hs ho4
        hel ho5 hs2 ho6⟩
  | program_nil => exact fun _ => ⟨[], rfl, .program_nil⟩
  | program_cons b1 b2 inp mid _ _ ihs ihp =>
    intro hb
    simp at hb
    obtain ⟨s, rfl, hs⟩ := ihs hb.1
    obtain ⟨m, hm, hp⟩ := ihp hb.2
    simp at hm
    subst hm
    exact ⟨s ++ mid, by simp, .program_cons s mid hs hp⟩

theorem Skips.length_out_le {ty : TokenType} {inp out : List Token} (h : Skips ty inp out) :
    out.length ≤ inp.length := by
  rcases h with ⟨t, rfl, _⟩ | ⟨rfl, _⟩ <;> simp

theorem Walk.length_le {b : Bool} {nt : NT} {inp out : List Token} (h : Walk b nt inp out) :
    out.length ≤ inp.length ∧ (nt = .statement → out.length < inp.length) := by
  induction h with
  | factor_integer t out ht => simp
  | factor_id t out ht => simp
  | factor_paren l inp mid out hl _ hs ihe =>
    have := hs.length_out_le
    simp; omega
  | factor_minus m inp out hm _ ihf => simp; omega
  | factor_none t r _ => simp
  | termTail_stop inp _ => simp
  | termTail_more op inp mid out hop _ _ ihf iht => simp; omega
  | term inp mid out _ _ ihf iht => simp; omega
  | expressionTail_stop inp _ => simp
  | expressionTail_more op inp mid out hop _ _ ihf iht => simp; omega
  | expression inp mid out _ _ ihf iht => simp; omega
  | statement_assign i a inp out hi ha _ ihe => simp; omega
  | statement_assign_id i a inp out hi ha _ ihe => simp; omega
  | statement_if b kw r1 r2 r3 r4 r5 r6 out hkw h1 _ h2 h3 _ h4 _ ihc ihs =>
    have := h1.length_out_le
    have := h2.length_out_le
    have := h3.length_out_le
    have := h4.length_out_le
    simp; omega
  | statement_if_else b1 b2 kw r1 r2 r3 r4 r5 r6 el r7 r8 r9 out hkw h1 _ h2 h3 _ h4 hel h5 _
      h6 ihc ihs ihs2 =>
    have := h1.length_out_le
    have := h2.length_out_le
    have := h3.length_out_le
    have l4 := h4.length_out_le
    have := h5.length_out_le
    have := h6.length_out_le
    simp at l4 ⊢; omega
  | program_nil => simp
  | program_cons b1 b2 inp mid _ _ ihs ihp => simp

theorem Parser.match_of_stops {expected : List TokenType} {p : Parser}
    (h : Stops expected p.rest) : Parser.match expected p = (false, p) := by
  rcases Parser.match_walk expected p with ⟨h1, _⟩ | ⟨t, ht, hr, _⟩
  · exact h1
  · exact absurd ht (h t (by rw [hr]; rfl))

theorem Parser.rest_match_of_skips {ty : TokenType} {p : Parser} {out : List Token}
    (h : Skips ty p.rest out) : (Parser.match [ty] p).2.rest = out := by
  rcases h with ⟨t, hp, ht⟩ | ⟨hp, hs⟩
  · rw [Parser.match_cons _ hp, if_pos (by simp [ht])]
    exact Parser.rest_skip (w := [t]) hp
  · rw [Parser.match_of_stops hs]
    exact hp

/-- Every walk is a normal completion of the recognizer: started on a state whose
remaining tokens are `inp`, with three units of fuel per remaining token and the
slack of the nonterminal, the procedure completes on a state whose remaining
tokens are `out`. -/
theorem Parser.recognizes_of_walk {b : Bool} {nt : NT} {inp out : List Token}
    (h : Walk b nt inp out) :
    ∀ (p : Parser), p.rest = inp → ∀ n, 3 * inp.length + slack nt ≤ n →
      ∃ q, Parser.recognizes nt n p q ∧ q.rest = out := by
  induction h with
  | factor_integer t out ht =>
    intro p hp n hn
    obtain ⟨m, rfl⟩ : ∃ m, n = m + 1 := ⟨n - 1, by simp [slack] at hn; omega⟩
    exact ⟨p.skip 1, by simp [Parser.recognizes, Parser.factor, Parser.match_cons _ hp, ht],
      Parser.rest_skip (w := [t]) hp⟩
  | factor_id t out ht =>
    intro p hp n hn
    obtain ⟨m, rfl⟩ : ∃ m, n = m + 1 := ⟨n - 1, by simp [slack] at hn; omega⟩
    exact ⟨p.skip 1, by simp [Parser.recognizes, Parser.factor, Parser.match_cons _ hp, ht],
      Parser.rest_skip (w := [t]) hp⟩
  | factor_paren l inp mid out hl he hs ihe =>
    intro p hp n hn
    obtain ⟨m, rfl⟩ : ∃ m, n = m + 1 := ⟨n - 1, by simp [slack] at hn; omega⟩
    have h1 : (p.skip 1).rest = inp := Parser.rest_skip (w := [l]) hp
    obtain ⟨q', hq', hr'⟩ := ihe (p.skip 1) h1 m (by simp [slack] at hn ⊢; omega)
    simp only [Parser.recognizes] at hq'
    refine ⟨(Parser.match [RPAREN] q').2, ?_, Parser.rest_match_of_skips (hr' ▸ hs)⟩
    simp [Parser.recognizes, Parser.factor, Parser.match_cons _ hp, hl, hq', Run.bind]
  | factor_minus mt inp out hm hf ihf =>
    intro p hp n hn
    obtain ⟨m, rfl⟩ : ∃ m, n = m + 1 := ⟨n - 1, by simp [slack] at hn; omega⟩
    have h1 : (p.skip 1).rest = inp := Parser.rest_skip (w := [mt]) hp
    obtain ⟨q', hq', hr'⟩ := ihf (p.skip 1) h1 m (by simp [slack] at hn ⊢; omega)
    simp only [Parser.recognizes] at hq'
    exact ⟨q', by simp [Parser.recognizes, Parser.factor, Parser.match_cons _ hp, hm, hq'],
      hr'⟩
  | factor_none t r ht =>
    intro p hp n hn
    obtain ⟨m, rfl⟩ : ∃ m, n = m + 1 := ⟨n - 1, by simp [slack] at hn; omega⟩
    have htok : p.tokens[p.current]? = some t := by
      rw [Parser.getElem?_current, hp]; rfl
    simp at ht
    refine ⟨{ p with stdout := p.stdout ++ [syntaxErrorText t ++ "\n"] }, ?_, hp⟩
    simp [Parser.recognizes, Parser.factor, Parser.match_cons _ hp, ht, htok]
  | termTail_stop inp hs =>
    intro p hp n hn
    obtain ⟨m, rfl⟩ : ∃ m, n = m + 1 := ⟨n - 1, by simp [slack] at hn; omega⟩
    exact ⟨p, by simp [Parser.recognizes, Parser.termLoop, Parser.match_of_stops (hp ▸ hs)],
      hp⟩
  | termTail_more op inp mid out hop hf ht ihf iht =>
    intro p hp n hn
    obtain ⟨m, rfl⟩ : ∃ m, n = m + 1 := ⟨n - 1, by simp [slack] at hn; omega⟩
    have h1 : (p.skip 1).rest = inp := Parser.rest_skip (w := [op]) hp
    have := hf.length_le.1
    obtain ⟨q1, hq1, hr1⟩ := ihf (p.skip 1) h1 m (by simp [slack] at hn ⊢; omega)
    obtain ⟨q2, hq2, hr2⟩ := iht q1 hr1 m (by simp [slack] at hn ⊢; omega)
    simp only [Parser.recognizes] at hq1 hq2
    exact ⟨q2, by simp [Parser.recognizes, Parser.termLoop, Parser.match_cons _ hp, hop, hq1,
      Run.bind, hq2], hr2⟩
  | term inp mid out hf ht ihf iht =>
    intro p hp n hn
    obtain ⟨m, rfl⟩ : ∃ m, n = m + 1 := ⟨n - 1, by simp [slack] at hn; omega⟩
    have := hf.length_le.1
    obtain ⟨q1, hq1, hr1⟩ := ihf p hp m (by simp [slack] at hn ⊢; omega)
    obtain ⟨q2, hq2, hr2⟩ := iht q1 hr1 m (by simp [slack] at hn ⊢; omega)
    simp only [Parser.recognizes] at hq1 hq2
    exact ⟨q2, by simp [Parser.recognizes, Parser.term, hq1, Run.bind, hq2], hr2⟩
  | expressionTail_stop inp hs =>
    intro p hp n hn
    obtain ⟨m, rfl⟩ : ∃ m, n = m + 1 := ⟨n - 1, by simp [slack] at hn; omega⟩
    exact ⟨p, by simp [Parser.recognizes, Parser.expressionLoop,
      Parser.match_of_stops (hp ▸ hs)], hp⟩
  | expressionTail_more op inp mid out hop hf ht ihf iht =>
    intro p hp n hn
    obtain ⟨m, rfl⟩ : ∃ m, n = m + 1 := ⟨n - 1, by simp [slack] at hn; omega⟩
    have h1 : (p.skip 1).rest = inp := Parser.rest_skip (w := [op]) hp
    have := hf.length_le.1
    obtain ⟨q1, hq1, hr1⟩ := ihf (p.skip 1) h1 m (by simp [slack] at hn ⊢; omega)
    obtain ⟨q2, hq2, hr2⟩ := iht q1 hr1 m (by simp [slack] at hn ⊢; omega)
    simp only [Parser.recognizes] at hq1 hq2
    exact ⟨q2, by simp [Parser.recognizes, Parser.expressionLoop, Parser.match_cons _ hp, hop,
      hq1, Run.bind, hq2], hr2⟩
  | expression inp mid out hf ht ihf iht =>
    intro p hp n hn
    obtain ⟨m, rfl⟩ : ∃ m, n = m + 1 := ⟨n - 1, by simp [slack] at hn; omega⟩
    have := hf.length_le.1
    obtain ⟨q1, hq1, hr1⟩ := ihf p hp m (by simp [slack] at hn ⊢; omega)
    obtain ⟨q2, hq2, hr2⟩ := iht q1 hr1 m (by simp [slack] at hn ⊢; omega)
    simp only [Parser.recognizes] at hq1 hq2
    exact ⟨q2, by simp [Parser.recognizes, Parser.expression, hq1, Run.bind, hq2], hr2⟩
  | statement_assign i a inp out hi ha he ihe =>
    intro p hp n hn
    obtain ⟨m, rfl⟩ : ∃ m, n = m + 2 := ⟨n - 2, by simp [slack] at hn; omega⟩
    have h1 : (p.skip 1).rest = a :: inp := Parser.rest_skip (w := [i]) hp
    have h2 : ((p.skip 1).skip 1).rest = inp := Parser.rest_skip (w := [a]) h1
    obtain ⟨q1, hq1, hr1⟩ := ihe _ h2 m (by simp [slack] at hn ⊢; omega)
    simp only [Parser.recognizes] at hq1
    exact ⟨q1, by simp [Parser.recognizes, Parser.statement, Parser.assignment,
      Parser.match_cons _ hp, hi, Parser.match_cons _ h1, ha, hq1, Run.bind], hr1⟩
  | statement_assign_id i a inp out hi ha he ihe =>
    intro p hp n hn
    obtain ⟨m, rfl⟩ : ∃ m, n = m + 2 := ⟨n - 2, by simp [slack] at hn; omega⟩
    have h1 : (p.skip 1).rest = a :: inp := Parser.rest_skip (w := [i]) hp
    have h2 : ((p.skip 1).skip 1).rest = inp := Parser.rest_skip (w := [a]) h1
    obtain ⟨q1, hq1, hr1⟩ := ihe _ h2 m (by simp [slack] at hn ⊢; omega)
    simp only [Parser.recognizes] at hq1
    exact ⟨q1, by simp [Parser.recognizes, Parser.statement, Parser.assignment,
      Parser.match_cons _ hp, hi, Parser.match_cons _ h1, ha, hq1, Run.bind], hr1⟩
  | statement_if b kw r1 r2 r3 r4 r5 r6 out hkw s1 hc s2 s3 hs s4 hstop ihc ihs =>
    intro p hp n hn
    obtain ⟨m, rfl⟩ : ∃ m, n = m + 1 := ⟨n - 1, by simp [slack] at hn; omega⟩
    have l1 := s1.length_out_le
    have l2 := hc.length_le.1
    have l3 := s2.length_out_le
    have l4 := s3.length_out_le
    have h0 : (p.skip 1).rest = r1 := Parser.rest_skip (w := [kw]) hp
    have h1 : (Parser.match [LPAREN] (p.skip 1)).2.rest = r2 :=
      Parser.rest_match_of_skips (h0 ▸ s1)
    obtain ⟨p2, hp2, hr2⟩ := ihc _ h1 m (by simp [slack] at hn ⊢; omega)
    have h3 : (Parser.match [RPAREN] p2).2.rest = r4 := Parser.rest_match_of_skips (hr2 ▸ s2)
    have h4 : (Parser.match [LBRACE] (Parser.match [RPAREN] p2).2).2.rest = r5 :=
      Parser.rest_match_of_skips (h3 ▸ s3)
    obtain ⟨p5, hp5, hr5⟩ := ihs _ h4 m (by simp [slack] at hn ⊢; omega)
    have h6 : (Parser.match [RBRACE] p5).2.rest = out := Parser.rest_match_of_skips (hr5 ▸ s4)
    have h7 := Parser.match_of_stops (h6 ▸ hstop)
    simp only [Parser.recognizes] at hp2 hp5
    refine ⟨(Parser.match [RBRACE] p5).2, ?_, h6⟩
    simp [Parser.recognizes, Parser.statement, Parser.match_cons _ hp, hkw, hp2, Run.bind,
      hp5, h7]
  | statement_if_else b1 b2 kw r1 r2 r3 r4 r5 r6 el r7 r8 r9 out hkw s1 hc s2 s3 hs s4 hel s5
      hs2 s6 ihc ihs ihs2 =>
    intro p hp n hn
    obtain ⟨m, rfl⟩ : ∃ m, n = m + 1 := ⟨n - 1, by simp [slack] at hn; omega⟩
    have l1 := s1.length_out_le
    have l2 := hc.length_le.1
    have l3 := s2.length_out_le
    have l4 := s3.length_out_le
    have l5 := hs.length_le.1
    have l6 := s4.length_out_le
    have l7 := s5.length_out_le
    simp at l6
    have h0 : (p.skip 1).rest = r1 := Parser.rest_skip (w := [kw]) hp
    have h1 : (Parser.match [LPAREN] (p.skip 1)).2.rest = r2 :=
      Parser.rest_match_of_skips (h0 ▸ s1)
    obtain ⟨p2, hp2, hr2⟩ := ihc _ h1 m (by simp [slack] at hn ⊢; omega)
    have h3 : (Parser.match [RPAREN] p2).2.rest = r4 := Parser.rest_match_of_skips (hr2 ▸ s2)
    have h4 : (Parser.match [LBRACE] (Parser.match [RPAREN] p2).2).2.rest = r5 :=
      Parser.rest_match_of_skips (h3 ▸ s3)
    obtain ⟨p5, hp5, hr5⟩ := ihs _ h4 m (by simp [slack] at hn ⊢; omega)
    have h6 : (Parser.match [RBRACE] p5).2.rest = el :: r7 :=
      Parser.rest_match_of_skips (hr5 ▸ s4)
    have h7 := Parser.match_cons [ELSE] h6
    rw [if_pos (by simp [hel])] at h7
    have h7r : ((Parser.match [RBRACE] p5).2.skip 1).rest = r7 :=
      Parser.rest_skip (w := [el]) h6
    have h8 : (Parser.match [LBRACE] ((Parser.match [RBRACE] p5).2.skip 1)).2.rest = r8 :=
      Parser.rest_match_of_skips (h7r ▸ s5)
    obtain ⟨p9, hp9, hr9⟩ := ihs2 _ h8 m (by simp [slack] at hn ⊢; omega)
    have h10 : (Parser.match [RBRACE] p9).2.rest = out := Parser.rest_match_of_skips (hr9 ▸ s6)
    simp only [Parser.recognizes] at hp2 hp5 hp9
    refine ⟨(Parser.match [RBRACE] p9).2, ?_, h10⟩
    simp [Parser.recognizes, Parser.statement, Parser.match_cons _ hp, hkw, hp2, Run.bind,
      hp5, h7, hp9]
  | program_nil =>
    intro p hp n hn
    obtain ⟨m, rfl⟩ : ∃ m, n = m + 1 := ⟨n - 1, by simp [slack] at hn; omega⟩
    have := (Parser.rest_eq_nil_iff p).1 hp
    exact ⟨p, by simp [Parser.recognizes, Parser.parseLoop, this], hp⟩
  | program_cons b1 b2 inp mid hs hpr ihs ihp =>
    intro p hp n hn
    obtain ⟨m, rfl⟩ : ∃ m, n = m + 1 := ⟨n - 1, by simp [slack] at hn; omega⟩
    have l1 := hs.length_le.2 rfl
    have hlt : p.current < p.tokens.length := by
      by_contra hc
      have := (Parser.rest_eq_nil_iff p).2 hc
      rw [hp] at this
      subst this
      simp at l1
    obtain ⟨q1, hq1, hr1⟩ := ihs p hp m (by simp [slack] at hn ⊢; omega)
    obtain ⟨q2, hq2, hr2⟩ := ihp q1 hr1 m (by simp [slack] at hn ⊢; omega)
    simp only [Parser.recognizes] at hq1 hq2
    exact ⟨q2, by simp [Parser.recognizes, Parser.parseLoop, hlt, hq1, Run.bind, hq2], hr2⟩

/-! ### Fuel: `parse` never runs out -/

theorem Consumed.length_split {p q : Parser} {w : List Token} (h : Consumed p w q) :
    p.rest.length = w.length + q.rest.length := by
  rw [h.2, List.length_append]

theorem Consumed.match_snd (expected : List TokenType) (p : Parser) :
    ∃ w, Consumed p w (Parser.match expected p).2 := by
  rcases Parser.match_cases expected p with h | ⟨t, _, hc, h⟩
  · exact ⟨[], by rw [h]; exact Consumed.refl p⟩
  · exact ⟨[t], by rw [h]; exact hc⟩

theorem Run.bind_ne_outOfFuel {α β σ : Type} {r : Run α σ} {k : α → σ → Run β σ}
    (hr : r ≠ .outOfFuel) (hk : ∀ a s, r = .done a s → k a s ≠ .outOfFuel) :
    r.bind k ≠ .outOfFuel := by
  cases r with
  | done a s => exact hk a s rfl
  | panic => simp [Run.bind]
  | outOfFuel => exact absurd rfl hr

/-- Every completed run of `assignment` consumed a segment of the stream. -/
theorem Parser.assignment_consumed {n : Nat} {p q : Parser} {a : Option ParseError}
    (h : Parser.assignment n p = .done a q) : ∃ w, Consumed p w q := by
  cases n with
  | zero => simp [Parser.assignment] at h
  | succ n =>
    rw [Parser.assignment] at h
    rcases Parser.match_cases [ID, ASSIGN] p with h1 | ⟨t, _, hc, h1⟩
    · simp only [h1] at h
      cases htok : p.tokens[p.current]? with
      | none => simp [htok] at h
      | some tok =>
        simp [htok] at h
        exact ⟨[], h.2 ▸ Consumed.refl p⟩
    · simp only [h1, if_true] at h
      obtain ⟨_, q', he, hq⟩ := Run.bind_eq_done h
      obtain ⟨e, hce, -⟩ := (Parser.lenient_expression n).2.2.2.2 _ _ he
      simp at hq
      exact ⟨[t] ++ e, hq.2 ▸ hc.trans hce⟩

/-- Every completed run of `statement` consumed a segment of the stream, a
non-empty one when it returned `nil`. -/
theorem Parser.statement_consumed (n : Nat) :
    ∀ (p q : Parser) (a : Option ParseError), Parser.statement n p = .done a q →
      ∃ w, Consumed p w q ∧ (a = none → w ≠ []) := by
  induction n with
  | zero => simp [Parser.statement]
  | succ n ih =>
    intro p q a h
    rw [Parser.statement] at h
    rcases Parser.match_cases [ID] p with h1 | ⟨i, _, hci, h1⟩
    swap
    · simp only [h1, if_true] at h
      obtain ⟨w, hw⟩ := Parser.assignment_consumed h
      exact ⟨[i] ++ w, hci.trans hw, by simp⟩
    simp only [h1] at h
    rcases Parser.match_cases [IF] p with h2 | ⟨kw, _, hckw, h2⟩
    · simp only [h2] at h
      cases htok : p.tokens[p.current]? with
      | none => simp [htok] at h
      | some tok =>
        simp [htok] at h
        exact ⟨[], h.2 ▸ Consumed.refl p, by simp [← h.1]⟩
    simp only [h2, Bool.false_eq_true, if_false, if_true] at h
    obtain ⟨o1, hco1⟩ := Consumed.match_snd [LPAREN] (p.skip 1)
    obtain ⟨_, p2, he, h⟩ := Run.bind_eq_done h
    obtain ⟨c, hcc, -⟩ := (Parser.lenient_expression n).2.2.2.2 _ _ he
    obtain ⟨o2, hco2⟩ := Consumed.match_snd [RPAREN] p2
    obtain ⟨o3, hco3⟩ := Consumed.match_snd [LBRACE] (Parser.match [RPAREN] p2).2
    obtain ⟨err, p5, hs, h⟩ := Run.bind_eq_done h
    obtain ⟨s1, hcs, -⟩ := ih _ _ _ hs
    have hpre := hckw.trans (hco1.trans (hcc.trans (hco2.trans (hco3.trans hcs))))
    cases err with
    | some e =>
      simp at h
      exact ⟨_, h.2 ▸ hpre, by simp⟩
    | none =>
      obtain ⟨o4, hco4⟩ := Consumed.match_snd [RBRACE] p5
      simp only at h
      rcases Parser.match_cases [ELSE] (Parser.match [RBRACE] p5).2 with
        h7 | ⟨el, _, hcel, h7⟩
      · simp [h7] at h
        exact ⟨_, h.2 ▸ hpre.trans hco4, by simp⟩
      · simp only [h7, if_true] at h
        obtain ⟨o5, hco5⟩ := Consumed.match_snd [LBRACE] ((Parser.match [RBRACE] p5).2.skip 1)
        obtain ⟨err2, p9, hs2, h⟩ := Run.bind_eq_done h
        obtain ⟨s2, hcs2, -⟩ := ih _ _ _ hs2
        have hpre2 := hpre.trans (hco4.trans (hcel.trans (hco5.trans hcs2)))
        cases err2 with
        | some e =>
          simp at h
          exact ⟨_, h.2 ▸ hpre2, by simp⟩
        | none =>
          obtain ⟨o6, hco6⟩ := Consumed.match_snd [RBRACE] p9
          simp at h
          exact ⟨_, h.2 ▸ hpre2.trans hco6, by simp⟩

/-- Fuel that suffices for the expression procedures: three units per remaining
token, plus the slack of the procedure. -/
theorem Parser.expression_fuel (n : Nat) :
    (∀ p, 3 * p.rest.length + 1 ≤ n → Parser.factor n p ≠ .outOfFuel) ∧
    (∀ p, 3 * p.rest.length + 1 ≤ n → Parser.termLoop n p ≠ .outOfFuel) ∧
    (∀ p, 3 * p.rest.length + 2 ≤ n → Parser.term n p ≠ .outOfFuel) ∧
    (∀ p, 3 * p.rest.length + 1 ≤ n → Parser.expressionLoop n p ≠ .outOfFuel) ∧
    (∀ p, 3 * p.rest.length + 3 ≤ n → Parser.expression n p ≠ .outOfFuel) := by
  induction n with
  | zero => simp
  | succ n ih =>
    obtain ⟨ihF, ihTT, ihT, ihET, ihE⟩ := ih
    obtain ⟨snF, snTT, snT, snET, snE⟩ := Parser.lenient_expression n
    refine ⟨?_, ?_, ?_, ?_, ?_⟩
    · intro p hp
      rw [Parser.factor]
      rcases Parser.match_cases [INTEGER] p with h1 | ⟨t, _, _, h1⟩
      swap
      · simp [h1]
      rcases Parser.match_cases [ID] p with h2 | ⟨t, _, _, h2⟩
      swap
      · simp [h1, h2]
      rcases Parser.match_cases [LPAREN] p with h3 | ⟨t, _, hc, h3⟩
      swap
      · simp only [h1, h2, h3, Bool.false_eq_true, if_false, if_true]
        have := hc.length_split
        exact Run.bind_ne_outOfFuel (ihE _ (by simp at this; omega)) (by simp)
      rcases Parser.match_cases [MINUS] p with h4 | ⟨t, _, hc, h4⟩
      swap
      · simp only [h1, h2, h3, h4, Bool.false_eq_true, if_false, if_true]
        have := hc.length_split
        exact ihF _ (by simp at this; omega)
      simp only [h1, h2, h3, h4, Bool.false_eq_true, if_false]
      cases p.tokens[p.current]? <;> simp
    · intro p hp
      rw [Parser.termLoop]
      rcases Parser.match_cases [MULTIPLY, DIVIDE] p with h1 | ⟨t, _, hc, h1⟩
      · simp [h1]
      · simp only [h1, if_true]
        have := hc.length_split
        refine Run.bind_ne_outOfFuel (ihF _ (by simp at this; omega)) ?_
        intro _ q hq
        obtain ⟨w, hw, -⟩ := snF _ _ hq
        have := hw.length_split
        exact ihTT _ (by simp at *; omega)
    · intro p hp
      rw [Parser.term]
      refine Run.bind_ne_outOfFuel (ihF _ (by omega)) ?_
      intro _ q hq
      obtain ⟨w, hw, -⟩ := snF _ _ hq
      have := hw.length_split
      exact ihTT _ (by omega)
    · intro p hp
      rw [Parser.expressionLoop]
      rcases Parser.match_cases [PLUS, MINUS, GREATER_THAN] p with h1 | ⟨t, _, hc, h1⟩
      · simp [h1]
      · simp only [h1, if_true]
        have := hc.length_split
        refine Run.bind_ne_outOfFuel (ihT _ (by simp at this; omega)) ?_
        intro _ q hq
        obtain ⟨w, hw, -⟩ := snT _ _ hq
        have := hw.length_split
        exact ihET _ (by simp at *; omega)
    · intro p hp
      rw [Parser.expression]
      refine Run.bind_ne_outOfFuel (ihT _ (by omega)) ?_
      intro _ q hq
      obtain ⟨w, hw, -⟩ := snT _ _ hq
      have := hw.length_split
      exact ihET _ (by omega)

theorem Parser.assignment_fuel (n : Nat) (p : Parser) (h : 3 * p.rest.length + 4 ≤ n) :
    Parser.assignment n p ≠ .outOfFuel := by
  obtain ⟨m, rfl⟩ : ∃ m, n = m + 1 := ⟨n - 1, by omega⟩
  rw [Parser.assignment]
  rcases Parser.match_cases [ID, ASSIGN] p with h1 | ⟨t, _, hc, h1⟩
  · simp only [h1, Bool.false_eq_true, if_false]
    cases p.tokens[p.current]? <;> simp
  · simp only [h1, if_true]
    have := hc.length_split
    exact Run.bind_ne_outOfFuel ((Parser.expression_fuel m).2.2.2.2 _ (by simp at this; omega))
      (by simp)

theorem Parser.statement_fuel (n : Nat) :
    ∀ p : Parser, 3 * p.rest.length + 2 ≤ n → Parser.statement n p ≠ .outOfFuel := by
  induction n with
  | zero => simp
  | succ n ih =>
    intro p hp
    rw [Parser.statement]
    rcases Parser.match_cases [ID] p with h1 | ⟨i, _, hci, h1⟩
    swap
    · simp only [h1, if_true]
      have := hci.length_split
      exact Parser.assignment_fuel _ _ (by simp at this; omega)
    simp only [h1]
    rcases Parser.match_cases [IF] p with h2 | ⟨kw, _, hckw, h2⟩
    · simp only [h2, Bool.false_eq_true, if_false]
      cases p.tokens[p.current]? <;> simp
    simp only [h2, Bool.false_eq_true, if_false, if_true]
    have l0 := hckw.length_split
    obtain ⟨o1, hco1⟩ := Consumed.match_snd [LPAREN] (p.skip 1)
    have l1 := hco1.length_split
    refine Run.bind_ne_outOfFuel
      ((Parser.expression_fuel n).2.2.2.2 _ (by simp at l0; omega)) ?_
    intro _ p2 he
    obtain ⟨c, hcc, -⟩ := (Parser.lenient_expression n).2.2.2.2 _ _ he
    have l2 := hcc.length_split
    obtain ⟨o2, hco2⟩ := Consumed.match_snd [RPAREN] p2
    have l3 := hco2.length_split
    obtain ⟨o3, hco3⟩ := Consumed.match_snd [LBRACE] (Parser.match [RPAREN] p2).2
    have l4 := hco3.length_split
    refine Run.bind_ne_outOfFuel (ih _ (by simp at l0; omega)) ?_
    intro err p5 hs
    obtain ⟨s1, hcs, -⟩ := Parser.statement_consumed n _ _ _ hs
    have l5 := hcs.length_split
    cases err with
    | some e => simp
    | none =>
      simp only
      obtain ⟨o4, hco4⟩ := Consumed.match_snd [RBRACE] p5
      have l6 := hco4.length_split
      rcases Parser.match_cases [ELSE] (Parser.match [RBRACE] p5).2 with
        h7 | ⟨el, _, hcel, h7⟩
      · simp [h7]
      · simp only [h7, if_true]
        have l7 := hcel.length_split
        obtain ⟨o5, hco5⟩ := Consumed.match_snd [LBRACE] ((Parser.match [RBRACE] p5).2.skip 1)
        have l8 := hco5.length_split
        refine Run.bind_ne_outOfFuel (ih _ (by simp at l0; omega)) ?_
        intro err2 p9 _
        cases err2 <;> simp

theorem Parser.parseLoop_fuel (n : Nat) :
    ∀ p : Parser, 3 * p.rest.length + 3 ≤ n → Parser.parseLoop n p ≠ .outOfFuel := by
  induction n with
  | zero => simp
  | succ n ih =>
    intro p hp
    rw [Parser.parseLoop]
    by_cases hlt : p.current < p.tokens.length
    · simp only [hlt, if_true]
      refine Run.bind_ne_outOfFuel (Parser.statement_fuel n p (by omega)) ?_
      intro err q hs
      obtain ⟨w, hw, hne⟩ := Parser.statement_consumed n _ _ _ hs
      have l1 := hw.length_split
      cases err with
      | some e => simp
      | none =>
        have := List.length_pos.2 (hne rfl)
        exact ih q (by omega)
    · simp [hlt]

/-- The fuel that `parse` supplies is never exhausted: `parse()` completes or
panics. -/
theorem Parser.parse_ne_outOfFuel (p : Parser) : p.parse ≠ .outOfFuel := by
  rw [Parser.parse]
  exact Parser.parseLoop_fuel _ p (by simp [Parser.parseFuel, Parser.rest])

/-! ### The recognizer on particular streams -/

theorem Derives.first_of_expression {nt : NT} {w : List Token} (h : Derives nt w) :
    nt = .factor ∨ nt = .term ∨ nt = .expression →
      ∃ t r, w = t :: r ∧ t.type ∈ [INTEGER, ID, LPAREN, MINUS] := by
  induction h with
  | factor_integer t ht => intro _; exact ⟨t, [], rfl, by simp [ht]⟩
  | factor_id t ht => intro _; exact ⟨t, [], rfl, by simp [ht]⟩
  | factor_paren l e r hl _ _ _ => intro _; exact ⟨l, _, rfl, by simp [hl]⟩
  | factor_minus m f hm _ _ => intro _; exact ⟨m, _, rfl, by simp [hm]⟩
  | term f more _ _ ihf _ =>
    intro _
    obtain ⟨t, r, rfl, ht⟩ := ihf (Or.inl rfl)
    exact ⟨t, r ++ more, rfl, ht⟩
  | expression t more _ _ iht _ =>
    intro _
    obtain ⟨x, r, rfl, hx⟩ := iht (Or.inr (Or.inl rfl))
    exact ⟨x, r ++ more, rfl, hx⟩
  | _ => simp

theorem Derives.statement_inv {s : List Token} (h : Derives .statement s) :
    (∃ i a e, s = i :: a :: e ∧ i.type = ID ∧ a.type = ASSIGN ∧ Derives .expression e) ∨
    (∃ kw r, s = kw :: r ∧ kw.type = IF) := by
  cases h with
  | statement_assign i a e hi ha he => exact Or.inl ⟨i, a, e, rfl, hi, ha, he⟩
  | statement_if kw lp c rp lb s rb hkw => exact Or.inr ⟨kw, _, rfl, hkw⟩
  | statement_if_else kw lp c rp lb s rb el lb2 s2 rb2 hkw => exact Or.inr ⟨kw, _, rfl, hkw⟩

theorem Derives.program_inv {w : List Token} (h : Derives .program w) :
    w = [] ∨ ∃ s more, w = s ++ more ∧ Derives .statement s := by
  cases h with
  | program_nil => exact Or.inl rfl
  | program_cons s more hs _ => exact Or.inr ⟨s, more, rfl, hs⟩

theorem not_derives_tokensStarFive : ¬ Derives .program tokensStarFive := by
  intro h
  rcases Derives.program_inv h with h | ⟨s, more, hw, hs⟩
  · simp [tokensStarFive] at h
  rcases Derives.statement_inv hs with ⟨i, a, e, rfl, hi, ha, he⟩ | ⟨kw, r, rfl, hkw⟩
  · obtain ⟨t, r, rfl, ht⟩ := Derives.first_of_expression he (Or.inr (Or.inr rfl))
    simp [tokensStarFive] at hw
    obtain ⟨-, -, rfl, -⟩ := hw
    simp at ht
  · simp [tokensStarFive] at hw
    obtain ⟨rfl, -⟩ := hw
    simp at hkw

theorem Opt.single {ty : TokenType} {t : Token} (h : t.type = ty) : Opt ty [t] :=
  Or.inr ⟨t, rfl, h⟩

/-- The lenient grammar extends the grammar of the specification. -/
theorem Derives.lenient {nt : NT} {w : List Token} (h : Derives nt w) : Lenient nt w := by
  induction h with
  | factor_integer t ht => exact .factor_integer t ht
  | factor_id t ht => exact .factor_id t ht
  | factor_paren l e r hl _ hr ih => exact .factor_paren l e [r] hl ih (Opt.single hr)
  | factor_minus m f hm _ ih => exact .factor_minus m f hm ih
  | termTail_nil => exact .termTail_nil
  | termTail_cons op f more hop _ _ ihf ihm => exact .termTail_cons op f more hop ihf ihm
  | term f more _ _ ihf ihm => exact .term f more ihf ihm
  | expressionTail_nil => exact .expressionTail_nil
  | expressionTail_cons op t more hop _ _ iht ihm =>
    exact .expressionTail_cons op t more hop iht ihm
  | expression t more _ _ iht ihm => exact .expression t more iht ihm
  | statement_assign i a e hi ha _ ih => exact .statement_assign i a e hi ha ih
  | statement_if kw lp c rp lb s rb hkw hlp _ hrp hlb _ hrb ihc ihs =>
    have := Lenient.statement_if kw [lp] c [rp] [lb] s [rb] hkw (Opt.single hlp) ihc
      (Opt.single hrp) (Opt.single hlb) ihs (Opt.single hrb)
    simpa using this
  | statement_if_else kw lp c rp lb s rb el lb2 s2 rb2 hkw hlp _ hrp hlb _ hrb hel hlb2 _
      hrb2 ihc ihs ihs2 =>
    have := Lenient.statement_if_else kw [lp] c [rp] [lb] s [rb] el [lb2] s2 [rb2] hkw
      (Opt.single hlp) ihc (Opt.single hrp) (Opt.single hlb) ihs (Opt.single hrb) hel
      (Opt.single hlb2) ihs2 (Opt.single hrb2)
    simpa using this
  | program_nil => exact .program_nil
  | program_cons s more _ _ ihs ihm => exact .program_cons s more ihs ihm

/-- C2, as stated, fails: the tokens of `"x = * 5"` are accepted (`parse()` returns
`nil` after the no-match branch of `factor` printed its diagnostic) although they
are not derivable from the grammar. -/
theorem parse_sound_counterexample :
    (NewParser tokensStarFive).parse =
      .done none { tokens := tokensStarFive, current := 4,
                   stdout := ["Syntax error at token: (MULTIPLY, *)\n"] } ∧
    ¬ Derives .program tokensStarFive :=
  ⟨by decide, not_derives_tokensStarFive⟩

/-- Every walk over a whole stream is an acceptance by `parse()`. -/
theorem Parser.parse_of_walk {b : Bool} {tokens : List Token}
    (h : Walk b .program tokens []) : ∃ q, (NewParser tokens).parse = .done none q := by
  obtain ⟨q, hq, _⟩ := Parser.recognizes_of_walk h (NewParser tokens) rfl
    (NewParser tokens).parseFuel (by simp [slack, Parser.parseFuel, NewParser])
  exact ⟨q, hq⟩

theorem Lenient.tail_head {nt : NT} {w : List Token} (h : Lenient nt w) :
    nt = .termTail ∨ nt = .expressionTail → ∀ t r, w = t :: r →
      t.type ∈ [MULTIPLY, DIVIDE, PLUS, MINUS, GREATER_THAN] := by
  intro hnt t r hw
  cases h with
  | termTail_cons op f more hop _ _ =>
    simp at hw
    rw [← hw.1]
    rcases hop with h | h <;> simp [h]
  | expressionTail_cons op f more hop _ _ =>
    simp at hw
    rw [← hw.1]
    rcases hop with h | h | h <;> simp [h]
  | termTail_nil => simp at hw
  | expressionTail_nil => simp at hw
  | _ => simp at hnt

theorem Lenient.factor_id_single {f : List Token} (h : Lenient .factor f) :
    ∀ t r, f = t :: r → t.type = ID → r = [] := by
  intro t r hf ht
  cases h with
  | factor_integer x hx => simp at hf; exact hf.2
  | factor_id x hx => simp at hf; exact hf.2
  | factor_paren l e o hl _ _ => simp at hf; rw [hf.1] at hl; simp [ht] at hl
  | factor_minus m g hm _ => simp at hf; rw [hf.1] at hm; simp [ht] at hm
  | factor_empty => simp at hf

/-- Inside an expression of the lenient grammar an `ID` token in first position
is followed by an operator, if by anything. -/
theorem Lenient.after_id {nt : NT} {w : List Token} (h : Lenient nt w) :
    nt = .term ∨ nt = .expression → ∀ t u r, w = t :: u :: r → t.type = ID →
      u.type ∈ [MULTIPLY, DIVIDE, PLUS, MINUS, GREATER_THAN] := by
  induction h with
  | term f more hf hm _ _ =>
    intro _ t u r hw ht
    cases f with
    | nil =>
      have := hm.tail_head (Or.inl rfl) t (u :: r) (by simpa using hw)
      simp [ht] at this
    | cons x f =>
      simp at hw
      have hx : x.type = ID := by rw [hw.1]; exact ht
      have := hf.factor_id_single x f rfl hx
      subst this
      exact hm.tail_head (Or.inl rfl) u r (by simpa using hw.2)
  | expression tm more htm hm iht _ =>
    intro _ t u r hw ht
    cases tm with
    | nil =>
      have := hm.tail_head (Or.inr rfl) t (u :: r) (by simpa using hw)
      simp [ht] at this
    | cons x tm =>
      cases tm with
      | nil =>
        simp at hw
        exact hm.tail_head (Or.inr rfl) u r hw.2
      | cons y tm =>
        simp at hw
        exact iht (Or.inl rfl) t u (tm) (by simp [hw.1, hw.2.1]) ht
  | _ => intro hnt; simp at hnt

theorem Lenient.statement_head {s : List Token} (h : Lenient .statement s) :
    (∃ i a e, s = i :: a :: e ∧ i.type = ID ∧ a.type = ASSIGN ∧ Lenient .expression e) ∨
    ∃ kw r, s = kw :: r ∧ kw.type = IF := by
  cases h with
  | statement_assign i a e hi ha he => exact Or.inl ⟨i, a, e, rfl, hi, ha, he⟩
  | statement_if kw o1 c o2 o3 s o4 hkw => exact Or.inr ⟨kw, _, rfl, hkw⟩
  | statement_if_else kw o1 c o2 o3 s o4 el o5 s2 o6 hkw => exact Or.inr ⟨kw, _, rfl, hkw⟩

theorem Lenient.program_split {w : List Token} (h : Lenient .program w) :
    w = [] ∨ ∃ s more, w = s ++ more ∧ Lenient .statement s ∧ Lenient .program more := by
  cases h with
  | program_nil => exact Or.inl rfl
  | program_cons s more hs hm => exact Or.inr ⟨s, more, rfl, hs, hm⟩

/-- A lenient program that starts with a token of type `ID` continues with a
token of type `ASSIGN`. -/
theorem Lenient.program_id_assign {w : List Token} (h : Lenient .program w) :
    ∀ t r, w = t :: r → t.type = ID → ∃ a r', r = a :: r' ∧ a.type = ASSIGN := by
  intro t r hw ht
  rcases h.program_split with h0 | ⟨s, more, hsm, hs, _⟩
  · simp [h0] at hw
  · rcases hs.statement_head with ⟨i, a, e, rfl, _, ha, _⟩ | ⟨kw, r1, rfl, hkw⟩
    · rw [hsm] at hw
      simp at hw
      exact ⟨a, e ++ more, hw.2.symm, ha⟩
    · rw [hsm] at hw
      simp at hw
      rw [hw.1] at hkw
      simp [ht] at hkw

theorem not_lenient_single_id : ¬ Lenient .program [⟨ID, "x"⟩] := by
  intro h
  obtain ⟨a, r', hr, _⟩ := h.program_id_assign _ _ rfl rfl
  simp at hr

theorem not_lenient_tokensStrayFactor : ¬ Lenient .program tokensStrayFactor := by
  intro h
  rcases h.program_split with h0 | ⟨s, more, hsm, hs, hm⟩
  · simp [tokensStrayFactor] at h0
  rcases hs.statement_head with ⟨i, a, e, rfl, _, _, he⟩ | ⟨kw, r1, rfl, hkw⟩
  swap
  · simp [tokensStrayFactor] at hsm
    rw [← hsm.1] at hkw
    simp at hkw
  simp [tokensStrayFactor] at hsm
  obtain ⟨-, -, hsm⟩ := hsm
  cases e with
  | nil =>
    obtain ⟨a', r', hr, ha'⟩ := hm.program_id_assign ⟨ID, "y"⟩ _ (by simpa using hsm.symm) rfl
    simp at hr
    rw [← hr.1] at ha'
    simp at ha'
  | cons y e =>
    cases e with
    | nil =>
      simp at hsm
      obtain ⟨a', r', hr, ha'⟩ := hm.program_id_assign ⟨ID, "z"⟩ _ hsm.2.symm rfl
      simp at hr
      rw [← hr.1] at ha'
      simp at ha'
    | cons z e =>
      simp at hsm
      have := he.after_id (Or.inr rfl) y z e rfl (by rw [← hsm.1])
      rw [← hsm.2.1] at this
      simp at this

theorem not_walk_single_id (b : Bool) : ¬ Walk b .program [⟨ID, "x"⟩] [] := by
  intro h
  obtain ⟨q, hq⟩ := Parser.parse_of_walk h
  have hp : (NewParser [⟨ID, "x"⟩]).parse = .panic := by decide
  rw [hp] at hq
  cases hq

theorem not_walk_tokensStrayFactor (b : Bool) : ¬ Walk b .program tokensStrayFactor [] := by
  intro h
  obtain ⟨q, hq⟩ := Parser.parse_of_walk h
  have hp : (NewParser tokensStrayFactor).parse =
      .done (some ⟨"Syntax error at token: (PLUS, +)"⟩) ⟨tokensStrayFactor, 4, []⟩ := by decide
  rw [hp] at hq
  cases hq

theorem Parser.walk_of_parse {tokens : List Token} {q : Parser}
    (h : (NewParser tokens).parse = .done none q) : ∃ b, Walk b .program tokens [] :=
  Parser.walk_parseLoop _ (NewParser tokens) q h

/-- The walks over a whole stream are exactly the acceptances of `parse()`. -/
theorem Parser.parse_nil_iff_walk (tokens : List Token) :
    (∃ q, (NewParser tokens).parse = .done none q) ↔ ∃ b, Walk b .program tokens [] :=
  ⟨fun h => h.elim fun _ hq => Parser.walk_of_parse hq,
    fun h => h.elim fun _ hw => Parser.parse_of_walk hw⟩

/-- C2 (corrected): `parse()` is sound for the lenient grammar, the slip of
`assignment` left aside. For every token sequence: when
`NewParser(tokens).parse()` returns `nil`, the sequence is derivable from the
lenient grammar `Lenient` (optional delimiters, possibly empty factors), or the
walk of the recognizer over it took an `ID` token in the place of `=` in some
assignment (`Walk true`, the case of `match(ID, ASSIGN)`). A sequence of neither
kind is not accepted: `parse()` returns a `SyntaxError` or panics. -/
theorem parse_sound_lenient (tokens : List Token) :
    (∀ q, (NewParser tokens).parse = .done none q →
      Lenient .program tokens ∨ Walk true .program tokens []) ∧
    (¬ Lenient .program tokens → ¬ Walk true .program tokens [] →
      (NewParser tokens).parse = .panic ∨
        ∃ e q, (NewParser tokens).parse = .done (some e) q) := by
  have key : ∀ q, (NewParser tokens).parse = .done none q →
      Lenient .program tokens ∨ Walk true .program tokens [] := by
    intro q h
    obtain ⟨b, hw⟩ := Parser.walk_of_parse h
    cases b with
    | true => exact Or.inr hw
    | false =>
      obtain ⟨w, hw', hl⟩ := hw.to_lenient rfl
      simp at hw'
      subst hw'
      exact Or.inl hl
  refine ⟨key, fun hl hw => ?_⟩
  cases h : (NewParser tokens).parse with
  | panic => exact Or.inl rfl
  | outOfFuel => exact absurd h (Parser.parse_ne_outOfFuel _)
  | done err q =>
    cases err with
    | some e => exact Or.inr ⟨e, q, rfl⟩
    | none => exact absurd (key q h) (by simp [hl, hw])

/-- The corrected C2 at the tokens of `"x = y z = 1"` and of `"x = * 5"`, which
`parse()` accepts, and at the tokens of `"x = y z + 1"` and of `"x"`, which are of
neither kind: on the former `parse()` returns a `SyntaxError`, on the latter it
panics. -/
theorem parse_sound_lenient_witness :
    (NewParser tokensTwoAssignments).parse = .done none ⟨tokensTwoAssignments, 6, []⟩ ∧
    (Lenient .program tokensTwoAssignments ∨ Walk true .program tokensTwoAssignments []) ∧
    (NewParser tokensStarFive).parse =
      .done none ⟨tokensStarFive, 4, ["Syntax error at token: (MULTIPLY, *)\n"]⟩ ∧
    (Lenient .program tokensStarFive ∨ Walk true .program tokensStarFive []) ∧
    ¬ Lenient .program tokensStrayFactor ∧ ¬ Walk true .program tokensStrayFactor [] ∧
    ((NewParser tokensStrayFactor).parse = .panic ∨
      ∃ e q, (NewParser tokensStrayFactor).parse = .done (some e) q) ∧
    ¬ Lenient .program [⟨ID, "x"⟩] ∧ ¬ Walk true .program [⟨ID, "x"⟩] [] ∧
    ((NewParser [⟨ID, "x"⟩]).parse = .panic ∨
      ∃ e q, (NewParser [⟨ID, "x"⟩]).parse = .done (some e) q) :=
  ⟨by decide,
    (parse_sound_lenient tokensTwoAssignments).1 ⟨tokensTwoAssignments, 6, []⟩ (by decide),
    by decide,
    (parse_sound_lenient tokensStarFive).1
      ⟨tokensStarFive, 4, ["Syntax error at token: (MULTIPLY, *)\n"]⟩ (by decide),
    not_lenient_tokensStrayFactor, not_walk_tokensStrayFactor true,
    (parse_sound_lenient tokensStrayFactor).2 not_lenient_tokensStrayFactor
      (not_walk_tokensStrayFactor true),
    not_lenient_single_id, not_walk_single_id true,
    (parse_sound_lenient [⟨ID, "x"⟩]).2 not_lenient_single_id (not_walk_single_id true)⟩

/-- C3 fails on the code: on a stream that ends while a rule still expects a
token, `parse()` reads `p.tokens[p.current]` with `current == len(tokens)` and
panics instead of yielding a verdict. -/
theorem parse_panics_at_end_of_stream :
    (NewParser [⟨ID, "x"⟩]).parse = .panic ∧
    (NewParser [⟨ID, "x"⟩, ⟨ASSIGN, "="⟩]).parse = .panic ∧
    (NewParser [⟨IF, "if"⟩, ⟨LPAREN, "("⟩, ⟨ID, "x"⟩, ⟨RPAREN, ")"⟩,
      ⟨LBRACE, "\x7b"⟩]).parse = .panic := by
  decide

/-- C4. Hard failure at a statement start: when the cursor is on a token `t`
whose type is neither `ID` nor `IF`, `statement()` returns the `ParseError` with
message `"Syntax error at token: (<t.Type>, <t.Value>)"` and leaves the receiver
unchanged, and `parse()` returns that same error at once, the receiver still
unchanged. -/
theorem statement_hard_failure (p : Parser) (t : Token)
    (ht : p.tokens[p.current]? = some t) (hid : t.type ≠ ID) (hif : t.type ≠ IF) :
    (∀ fuel, Parser.statement (fuel + 1) p =
      .done (some { Message :=
        "Syntax error at token: (" ++ t.type ++ ", " ++ t.Value ++ ")" }) p) ∧
    p.parse = .done (some { Message :=
        "Syntax error at token: (" ++ t.type ++ ", " ++ t.Value ++ ")" }) p := by
  have hrest : p.rest.head? = some t := by rw [← Parser.getElem?_current]; exact ht
  obtain ⟨r, hr⟩ : ∃ r, p.rest = t :: r := by
    cases h : p.rest with
    | nil => simp [h] at hrest
    | cons a r => simp [h] at hrest; exact ⟨r, by rw [hrest]⟩
  have hstmt : ∀ fuel, Parser.statement (fuel + 1) p =
      .done (some { Message :=
        "Syntax error at token: (" ++ t.type ++ ", " ++ t.Value ++ ")" }) p := by
    intro fuel
    have h1 : t.type ∉ [ID] := by simpa using hid
    have h2 : t.type ∉ [IF] := by simpa using hif
    rw [Parser.statement]
    simp only [Parser.match_cons _ hr, if_neg h1, if_neg h2, ht]
    simp only [syntaxErrorText, Token.String, String.append_assoc]
    rw [← String.append_assoc "Syntax error at token: " "("]
    rfl
  refine ⟨hstmt, ?_⟩
  have hlt : p.current < p.tokens.length := by
    by_contra hcon
    rw [(Parser.rest_eq_nil_iff p).2 hcon] at hr
    simp at hr
  rw [Parser.parse, Parser.parseFuel, Parser.parseLoop]
  simp only [hlt, if_true]
  rw [show 3 * (p.tokens.length - p.current) + 2 = (3 * (p.tokens.length - p.current) + 1) + 1
    from rfl, hstmt]
  rfl

/-- C4 at the fourth input of `TestParser`: with the cursor on `INTEGER(3)`,
`statement()` and `parse()` fail with the error naming `(INTEGER, 3)`; and the
whole parse of `"if (x > 2) { 3 = 4 } else { y = 5 }"` fails with that error. -/
theorem statement_hard_failure_witness :
    ((∀ fuel, Parser.statement (fuel + 1) ⟨tokensTest4, 7, []⟩ =
      .done (some { Message := "Syntax error at token: (INTEGER, 3)" })
        ⟨tokensTest4, 7, []⟩) ∧
     Parser.parse ⟨tokensTest4, 7, []⟩ =
      .done (some { Message := "Syntax error at token: (INTEGER, 3)" })
        ⟨tokensTest4, 7, []⟩) ∧
    scanThenParse (goBytes "if (x > 2) { 3 = 4 } else { y = 5 }") =
      .done (some { Message := "Syntax error at token: (INTEGER, 3)" })
        ⟨tokensTest4, 7, []⟩ := by
  have e4 : (NewLexer (goBytes "if (x > 2) { 3 = 4 } else { y = 5 }")).tokenize =
      .done tokensTest4 ⟨goBytes "if (x > 2) { 3 = 4 } else { y = 5 }", 35, []⟩ := by
    decide
  simp only [scanThenParse, e4]
  exact ⟨statement_hard_failure ⟨tokensTest4, 7, []⟩ ⟨INTEGER, "3"⟩ (by decide) (by decide)
    (by decide), by decide⟩

/-- C5 fails on the code: `assignment` calls `match(ID, ASSIGN)`, so an `ID` token
is accepted where the `=` is required; the tokens of `"x y 5"` are accepted. -/
theorem assignment_accepts_id_for_assign :
    (NewParser [⟨ID, "x"⟩, ⟨ID, "y"⟩, ⟨INTEGER, "5"⟩]).parse =
      .done none ⟨[⟨ID, "x"⟩, ⟨ID, "y"⟩, ⟨INTEGER, "5"⟩], 3, []⟩ := by
  decide

/-- C6. Soft factor failure: on the tokens of `"x = + 5"`, `factor()` called with
the cursor on `PLUS` takes its no-match branch (it prints the diagnostic,
consumes nothing and returns normally), and `parse()` returns `nil`, the
diagnostic being the only line printed. -/
theorem soft_factor_failure :
    ∃ tokens : List Token,
      (∀ fuel, Parser.factor (fuel + 1) ⟨tokens, 2, []⟩ =
        .done () ⟨tokens, 2, ["Syntax error at token: (PLUS, +)\n"]⟩) ∧
      (NewParser tokens).parse =
        .done none ⟨tokens, 4, ["Syntax error at token: (PLUS, +)\n"]⟩ :=
  ⟨tokensPlusFive, fun _ => by rw [Parser.factor]; rfl, by decide⟩

/-! ### The scanner -/

theorem Lexer.getElem?_position (l : Lexer) : l.input[l.position]? = l.rest.head? := by
  simp [Lexer.rest, List.head?_drop]

theorem Lexer.rest_after_skip {l : Lexer} {w r : List Nat}
    (h : l.rest = w ++ r) : (l.skip w.length).rest = r := by
  simp only [Lexer.rest, Lexer.skip] at h ⊢
  rw [← List.drop_drop, h]
  simp

theorem Lexer.skip_add (l : Lexer) (a b : Nat) : (l.skip a).skip b = l.skip (a + b) := by
  simp [Lexer.skip, Nat.add_assoc]

theorem push_append_runeString (s : String) (b : Nat) (bs : List Nat) :
    s.push (Char.ofNat b) ++ runeString bs = s ++ runeString (b :: bs) := by
  apply String.ext
  simp [runeString, String.data_append, String.data_push]

theorem append_runeString_nil (s : String) : s ++ runeString [] = s := by
  apply String.ext
  simp [runeString]

theorem Lexer.readNumberLoop_eq (fuel : Nat) :
    ∀ (l : Lexer) (result : String), l.rest.length < fuel →
      Lexer.readNumberLoop fuel l result =
        .done (result ++ runeString (l.rest.takeWhile unicode.IsDigit))
          (l.skip (l.rest.takeWhile unicode.IsDigit).length) := by
  induction fuel with
  | zero => intro l result h; simp at h
  | succ fuel ih =>
    intro l result h
    rw [Lexer.readNumberLoop, Lexer.getElem?_position]
    cases hr : l.rest with
    | nil => simp [append_runeString_nil, Lexer.skip]
    | cons b r =>
      have hr' : (l.skip 1).rest = r := Lexer.rest_after_skip (w := [b]) hr
      by_cases hb : unicode.IsDigit b = true
      · have := ih (l.skip 1) (result.push (Char.ofNat b))
          (by rw [hr']; rw [hr] at h; simpa using h)
        simp only [List.head?_cons, hb, if_true]
        rw [show ({ l with position := l.position + 1 } : Lexer) = l.skip 1 from rfl, this, hr',
          List.takeWhile_cons_of_pos hb, push_append_runeString, Lexer.skip_add]
        simp [Nat.add_comm]
      · simp [hb, append_runeString_nil, Lexer.skip]

theorem Lexer.readIdentifierLoop_eq (fuel : Nat) :
    ∀ (l : Lexer) (result : String), l.rest.length < fuel →
      Lexer.readIdentifierLoop fuel l result =
        .done (result ++ runeString
            (l.rest.takeWhile isIdentByte))
          (l.skip (l.rest.takeWhile isIdentByte).length) := by
  induction fuel with
  | zero => intro l result h; simp at h
  | succ fuel ih =>
    intro l result h
    rw [Lexer.readIdentifierLoop, Lexer.getElem?_position]
    cases hr : l.rest with
    | nil => simp [append_runeString_nil, Lexer.skip]
    | cons b r =>
      have hr' : (l.skip 1).rest = r := Lexer.rest_after_skip (w := [b]) hr
      by_cases hb : isIdentByte b = true
      · have := ih (l.skip 1) (result.push (Char.ofNat b))
          (by rw [hr']; rw [hr] at h; simpa using h)
        have hb' : (unicode.IsLetter b || unicode.IsDigit b) = true := hb
        simp only [List.head?_cons, hb', if_true]
        rw [show ({ l with position := l.position + 1 } : Lexer) = l.skip 1 from rfl, this, hr',
          List.takeWhile_cons_of_pos hb, push_append_runeString, Lexer.skip_add]
        simp [Nat.add_comm]
      · have hb' : ¬ (unicode.IsLetter b || unicode.IsDigit b) = true := hb
        simp only [List.head?_cons, hb', if_false, List.takeWhile_cons_of_neg hb]
        simp [append_runeString_nil, Lexer.skip]

theorem Lexer.length_rest (l : Lexer) : l.rest.length = l.input.length - l.position := by
  simp [Lexer.rest]

theorem empty_append_runeString (bs : List Nat) : "" ++ runeString bs = runeString bs := by
  apply String.ext
  simp [runeString]

theorem Lexer.readNumber_eq (l : Lexer) :
    l.readNumber = .done (runeString (l.rest.takeWhile unicode.IsDigit))
      (l.skip (l.rest.takeWhile unicode.IsDigit).length) := by
  rw [Lexer.readNumber, Lexer.readNumberLoop_eq _ _ _ (by rw [Lexer.length_rest]; omega),
    empty_append_runeString]

theorem Lexer.readIdentifier_eq (l : Lexer) :
    l.readIdentifier = .done (runeString
        (l.rest.takeWhile isIdentByte))
      (l.skip (l.rest.takeWhile isIdentByte).length) := by
  rw [Lexer.readIdentifier, Lexer.readIdentifierLoop_eq _ _ _ (by rw [Lexer.length_rest]; omega),
    empty_append_runeString]

/-- One iteration of the loop of `tokenize` on a byte that is not invalid: it
consumes a non-empty run `w` of bytes, none invalid, and appends at most one
token. -/
theorem Lexer.tokenizeLoop_step {l : Lexer} {c : Nat} {r : List Nat}
    (hr : l.rest = c :: r) (hc : invalidByte c = false) :
    ∃ w r' ts, c :: r = w ++ r' ∧ w ≠ [] ∧ (∀ x ∈ w, invalidByte x = false) ∧
      ∀ fuel tokens, Lexer.tokenizeLoop (fuel + 1) l tokens =
        Lexer.tokenizeLoop fuel (l.skip w.length) (tokens ++ ts) := by
  by_cases hd : unicode.IsDigit c = true
  · refine ⟨(c :: r).takeWhile unicode.IsDigit, (c :: r).dropWhile unicode.IsDigit,
      [⟨INTEGER, runeString ((c :: r).takeWhile unicode.IsDigit)⟩],
      (List.takeWhile_append_dropWhile _ _).symm, ?_, ?_, ?_⟩
    · simp [List.takeWhile_cons_of_pos hd]
    · intro x hx
      have := List.mem_takeWhile_imp hx
      simp [invalidByte, this]
    · intro fuel tokens
      rw [Lexer.tokenizeLoop, Lexer.getElem?_position, hr]
      simp only [List.head?_cons, hd, if_true, Lexer.readNumber_eq, Run.bind, hr]
  by_cases hs : unicode.IsSpace c = true
  · refine ⟨[c], r, [], rfl, by simp, ?_, ?_⟩
    · intro x hx
      simp at hx
      subst hx
      simp [invalidByte, hs]
    · intro fuel tokens
      rw [Lexer.tokenizeLoop, Lexer.getElem?_position, hr]
      simp [hd, hs, Lexer.skip]
  cases hp : punctType c with
  | some ty =>
    refine ⟨[c], r, [punctToken ty c], rfl, by simp, ?_, ?_⟩
    · intro x hx
      simp at hx
      subst hx
      simp [invalidByte, hp]
    · intro fuel tokens
      rw [Lexer.tokenizeLoop, Lexer.getElem?_position, hr]
      simp [hd, hs, hp, Lexer.skip]
  | none =>
    have hl : unicode.IsLetter c = true := by
      simp [invalidByte, hd, hs, hp] at hc
      exact hc
    have hl' : isIdentByte c = true := by simp [isIdentByte, hl]
    refine ⟨(c :: r).takeWhile isIdentByte,
      (c :: r).dropWhile isIdentByte,
      [identifierToken (runeString
        ((c :: r).takeWhile isIdentByte))],
      (List.takeWhile_append_dropWhile _ _).symm, ?_, ?_, ?_⟩
    · rw [List.takeWhile_cons_of_pos hl']; simp
    · intro x hx
      have := List.mem_takeWhile_imp hx
      simp [isIdentByte] at this
      rcases this with h | h <;> simp [invalidByte, h]
    · intro fuel tokens
      rw [Lexer.tokenizeLoop, Lexer.getElem?_position, hr]
      simp only [List.head?_cons, hd, hs, hp, hl, if_true, Lexer.readIdentifier_eq, Run.bind, hr]
      simp

theorem Lexer.tokenizeLoop_invalid {l : Lexer} {c : Nat} {r : List Nat}
    (hr : l.rest = c :: r) (hc : invalidByte c = true) (fuel : Nat) (tokens : List Token) :
    Lexer.tokenizeLoop (fuel + 1) l tokens =
      .done [] { l with stdout := l.stdout ++ [invalidCharacterText c] } := by
  simp [invalidByte] at hc
  obtain ⟨⟨⟨hd, hs⟩, hp⟩, hl⟩ := hc
  rw [Lexer.tokenizeLoop, Lexer.getElem?_position, hr]
  simp [hd, hs, hp, hl]

theorem Lexer.skip_none (l : Lexer) : l.skip 0 = l := rfl

/-- Without invalid bytes the loop of `tokenize` consumes the whole input and
prints nothing. -/
theorem Lexer.tokenizeLoop_valid (fuel : Nat) :
    ∀ (l : Lexer) (tokens : List Token), l.rest.length < fuel →
      (∀ b ∈ l.rest, invalidByte b = false) →
      ∃ ts, Lexer.tokenizeLoop fuel l tokens = .done ts (l.skip l.rest.length) := by
  induction fuel with
  | zero => intro l tokens h; simp at h
  | succ fuel ih =>
    intro l tokens h hv
    cases hr : l.rest with
    | nil =>
      refine ⟨tokens, ?_⟩
      rw [Lexer.tokenizeLoop, Lexer.getElem?_position, hr]
      rfl
    | cons c r =>
      obtain ⟨w, r', ts, hw, hne, hwv, hstep⟩ :=
        Lexer.tokenizeLoop_step hr (hv c (by simp [hr]))
      have hr' : (l.skip w.length).rest = r' := Lexer.rest_after_skip (hr.trans hw)
      have hlen : (c :: r).length = w.length + r'.length := by rw [hw]; simp
      have hwpos : 0 < w.length := List.length_pos.2 hne
      obtain ⟨ts', hts'⟩ := ih (l.skip w.length) (tokens ++ ts)
        (by rw [hr']; rw [hr] at h; omega)
        (by rw [hr']; intro b hb; exact hv b (by rw [hr, hw]; simp [hb]))
      refine ⟨ts', ?_⟩
      rw [hstep, hts', hr', Lexer.skip_add, hlen]

theorem prefix_of_valid {α : Type} {P : α → Prop} {w r' pre post : List α} {b : α}
    (h : w ++ r' = pre ++ b :: post) (hw : ∀ x ∈ w, P x) (hb : ¬ P b) :
    ∃ pre', pre = w ++ pre' ∧ r' = pre' ++ b :: post := by
  rcases List.append_eq_append_iff.1 h with ⟨a', ha, hb'⟩ | ⟨c', hc, hd⟩
  · exact ⟨a', ha, hb'⟩
  · cases c' with
    | nil => exact ⟨[], by simpa using hc.symm, by simpa using hd.symm⟩
    | cons x c' =>
      simp at hd
      exact absurd (hw b (by rw [hc, hd.1]; simp)) hb

/-- At the first invalid byte the loop of `tokenize` prints the diagnostic and
returns `nil`, the position resting on that byte. -/
theorem Lexer.tokenizeLoop_abort (fuel : Nat) :
    ∀ (l : Lexer) (tokens : List Token) (pre : List Nat) (b : Nat) (post : List Nat),
      l.rest.length < fuel → l.rest = pre ++ b :: post →
      (∀ x ∈ pre, invalidByte x = false) → invalidByte b = true →
      Lexer.tokenizeLoop fuel l tokens =
        .done [] { l.skip pre.length with stdout := l.stdout ++ [invalidCharacterText b] } := by
  induction fuel with
  | zero => intro l tokens pre b post h; simp at h
  | succ fuel ih =>
    intro l tokens pre b post h hrest hpre hb
    cases hr : l.rest with
    | nil => rw [hr] at hrest; simp at hrest
    | cons c r =>
      by_cases hc : invalidByte c = true
      · cases pre with
        | nil =>
          rw [hr] at hrest
          simp at hrest
          rw [Lexer.tokenizeLoop_invalid hr hc, hrest.1]
          rfl
        | cons x pre =>
          rw [hr] at hrest
          simp at hrest
          have := hpre x (by simp)
          rw [← hrest.1, hc] at this
          simp at this
      · have hc' : invalidByte c = false := by simpa using hc
        obtain ⟨w, r', ts, hw, hne, hwv, hstep⟩ := Lexer.tokenizeLoop_step hr hc'
        have hr' : (l.skip w.length).rest = r' := Lexer.rest_after_skip (hr.trans hw)
        have hwpos : 0 < w.length := List.length_pos.2 hne
        obtain ⟨pre', hpre', hr''⟩ := prefix_of_valid (P := fun x => invalidByte x = false)
          (hw.symm.trans (hr.symm.trans hrest)) hwv (by simp [hb])
        have hlen : (c :: r).length = w.length + r'.length := by rw [hw]; simp
        have := ih (l.skip w.length) (tokens ++ ts) pre' b post
          (by rw [hr']; rw [hr] at h; omega) (hr'.trans hr'')
          (fun x hx => hpre x (by rw [hpre']; simp [hx])) hb
        rw [hstep, this, Lexer.skip_add, hpre']
        simp [Lexer.skip]

theorem NewLexer_rest (input : List Nat) : (NewLexer input).rest = input := rfl

theorem exists_first_invalid (input : List Nat) (h : ∃ b ∈ input, invalidByte b = true) :
    ∃ pre b post, input = pre ++ b :: post ∧ (∀ x ∈ pre, invalidByte x = false) ∧
      invalidByte b = true := by
  induction input with
  | nil => simp at h
  | cons a input ih =>
    by_cases ha : invalidByte a = true
    · exact ⟨[], a, input, rfl, by simp, ha⟩
    · obtain ⟨b, hb, hbi⟩ := h
      simp at hb
      rcases hb with rfl | hb
      · exact absurd hbi ha
      · obtain ⟨pre, b', post, rfl, hpre, hb'⟩ := ih ⟨b, hb, hbi⟩
        refine ⟨a :: pre, b', post, rfl, ?_, hb'⟩
        intro x hx
        simp at hx
        rcases hx with rfl | hx
        · simpa using ha
        · exact hpre x hx

/-- On a fresh lexer, an input whose first invalid byte is `b` makes `tokenize()`
print the diagnostic for `b` and return `nil`, the position resting on `b`. -/
theorem Lexer.tokenize_of_first_invalid (input pre : List Nat) (b : Nat) (post : List Nat)
    (hin : input = pre ++ b :: post) (hpre : ∀ x ∈ pre, invalidByte x = false)
    (hb : invalidByte b = true) :
    (NewLexer input).tokenize =
      .done [] ⟨input, pre.length, [invalidCharacterText b]⟩ := by
  rw [Lexer.tokenize, Lexer.tokenizeLoop_abort _ (NewLexer input) [] pre b post
    (by rw [Lexer.length_rest]; omega) hin hpre hb]
  simp [Lexer.skip, NewLexer]

/-- On a fresh lexer, an input without invalid bytes is consumed whole and nothing
is printed. -/
theorem Lexer.tokenize_of_valid (input : List Nat)
    (hv : ∀ b ∈ input, invalidByte b = false) :
    ∃ ts, (NewLexer input).tokenize = .done ts ⟨input, input.length, []⟩ := by
  obtain ⟨ts, hts⟩ := Lexer.tokenizeLoop_valid _ (NewLexer input) []
    (show (NewLexer input).rest.length <
      (NewLexer input).input.length - (NewLexer input).position + 1 by
        rw [Lexer.length_rest]; omega) hv
  exact ⟨ts, by rw [Lexer.tokenize, hts]; simp [Lexer.skip, NewLexer, Lexer.rest]⟩

/-- The fuel that `tokenize` supplies is never exhausted: on a fresh lexer
`tokenize()` completes. -/
theorem Lexer.tokenize_total (input : List Nat) :
    ∃ ts l, (NewLexer input).tokenize = .done ts l := by
  by_cases h : ∃ b ∈ input, invalidByte b = true
  · obtain ⟨pre, b, post, hin, hpre, hb⟩ := exists_first_invalid input h
    exact ⟨[], _, Lexer.tokenize_of_first_invalid input pre b post hin hpre hb⟩
  · obtain ⟨ts, hts⟩ := Lexer.tokenize_of_valid input (by
      intro b hb
      by_contra hbi
      exact h ⟨b, hb, by simpa using hbi⟩)
    exact ⟨ts, _, hts⟩

/-- C8. Scanner abort is all-or-nothing. `tokenize()` on a fresh lexer prints the
invalid-character diagnostic if and only if the input contains a byte that is
none of whitespace, digit, letter and punctuation mark (`invalidByte`); when the
input has such a byte, with `b` the first one, the result is `nil`, the only line
printed reports `b` and the position rests on `b`; otherwise nothing is printed
and the whole input is consumed. -/
theorem tokenize_abort_iff (input : List Nat) :
    ((∃ b ∈ input, invalidByte b = true) ↔
      ∃ ts l, (NewLexer input).tokenize = .done ts l ∧ l.stdout ≠ []) ∧
    (∀ pre b post, input = pre ++ b :: post → (∀ x ∈ pre, invalidByte x = false) →
      invalidByte b = true →
      (NewLexer input).tokenize =
        .done [] ⟨input, pre.length, [invalidCharacterText b]⟩) ∧
    ((∀ b ∈ input, invalidByte b = false) →
      ∃ ts, (NewLexer input).tokenize = .done ts ⟨input, input.length, []⟩) := by
  refine ⟨⟨?_, ?_⟩, Lexer.tokenize_of_first_invalid input, Lexer.tokenize_of_valid input⟩
  · intro h
    obtain ⟨pre, b, post, hin, hpre, hb⟩ := exists_first_invalid input h
    exact ⟨[], _, Lexer.tokenize_of_first_invalid input pre b post hin hpre hb, by simp⟩
  · rintro ⟨ts, l, hrun, hout⟩
    by_contra hno
    obtain ⟨ts', hts'⟩ := Lexer.tokenize_of_valid input (by
      intro b hb
      by_contra hbi
      exact hno ⟨b, hb, by simpa using hbi⟩)
    rw [hts'] at hrun
    simp at hrun
    exact hout (by rw [← hrun.2])

/-- The C8 theorem at `"x = 5 ;"`: the first invalid byte is `;`, at position 6. -/
theorem tokenize_abort_iff_witness :
    (NewLexer (goBytes "x = 5 ;")).tokenize =
      .done [] ⟨goBytes "x = 5 ;", (goBytes "x = 5 ").length,
        [invalidCharacterText ';'.toNat]⟩ ∧
    (goBytes "x = 5 ").length = 6 ∧
    invalidCharacterText ';'.toNat = "Invalid character: ;\n" :=
  ⟨(tokenize_abort_iff (goBytes "x = 5 ;")).2.1 (goBytes "x = 5 ") ';'.toNat []
    (by decide) (by decide) (by decide), by decide, by decide⟩

/-- C7, as stated, fails: `"x\r"` contains a carriage return, which is outside the
claimed set, yet `tokenize()` returns the token `ID(x)` and prints nothing. -/
theorem tokenize_charset_counterexample :
    (∃ b ∈ goBytes "x\r", inClaimedSet b = false) ∧
    (NewLexer (goBytes "x\r")).tokenize =
      .done [⟨ID, "x"⟩] ⟨goBytes "x\r", 2, []⟩ := by
  decide

theorem invalidByte_of_ascii_outside :
    ∀ b < 128, inClaimedSet b = false → b ≠ 0x0B → b ≠ 0x0C → b ≠ 0x0D →
      invalidByte b = true := by
  decide

/-- C7, amended. For every ASCII input (all bytes below `0x80`) that contains a
byte outside `[0-9a-zA-Z+\-*/()=>{} \t\n\v\f\r]`, `tokenize()` prints the
invalid-character diagnostic for a byte of the input and returns `nil`. -/
theorem tokenize_rejects_outside_charset (input : List Nat)
    (hascii : ∀ b ∈ input, b < 128)
    (hout : ∃ b ∈ input, inClaimedSet b = false ∧ b ≠ 0x0B ∧ b ≠ 0x0C ∧ b ≠ 0x0D) :
    ∃ c pos, c ∈ input ∧
      (NewLexer input).tokenize = .done [] ⟨input, pos, [invalidCharacterText c]⟩ := by
  obtain ⟨b, hb, h1, h2, h3, h4⟩ := hout
  have hinv : invalidByte b = true := invalidByte_of_ascii_outside b (hascii b hb) h1 h2 h3 h4
  obtain ⟨pre, c, post, hin, hpre, hc⟩ := exists_first_invalid input ⟨b, hb, hinv⟩
  exact ⟨c, pre.length, by rw [hin]; simp,
    Lexer.tokenize_of_first_invalid input pre c post hin hpre hc⟩

/-- The amended C7 at `"x = 5 ;"`. -/
theorem tokenize_rejects_outside_charset_witness :
    (∀ b ∈ goBytes "x = 5 ;", b < 128) ∧
    (∃ b ∈ goBytes "x = 5 ;", inClaimedSet b = false ∧ b ≠ 0x0B ∧ b ≠ 0x0C ∧ b ≠ 0x0D) ∧
    ∃ c pos, c ∈ goBytes "x = 5 ;" ∧
      (NewLexer (goBytes "x = 5 ;")).tokenize =
        .done [] ⟨goBytes "x = 5 ;", pos, [invalidCharacterText c]⟩ :=
  ⟨by decide, by decide,
    tokenize_rejects_outside_charset (goBytes "x = 5 ;") (by decide) (by decide)⟩

theorem isDigit_of_isSpace {b : Nat} (h : unicode.IsSpace b = true) :
    unicode.IsDigit b = false := by
  simp [unicode.IsSpace] at h
  simp [unicode.IsDigit]
  omega

theorem Lexer.tokenizeLoop_space (fuel : Nat) :
    ∀ (l : Lexer) (tokens : List Token), l.rest.length < fuel →
      (∀ b ∈ l.rest, unicode.IsSpace b = true) →
      Lexer.tokenizeLoop fuel l tokens = .done tokens (l.skip l.rest.length) := by
  induction fuel with
  | zero => intro l tokens h; simp at h
  | succ fuel ih =>
    intro l tokens h hs
    cases hr : l.rest with
    | nil =>
      rw [Lexer.tokenizeLoop, Lexer.getElem?_position, hr]
      rfl
    | cons c r =>
      have hc : unicode.IsSpace c = true := hs c (by simp [hr])
      have hr' : (l.skip 1).rest = r := Lexer.rest_after_skip (w := [c]) hr
      have := ih (l.skip 1) tokens (by rw [hr']; rw [hr] at h; simpa using h)
        (by rw [hr']; intro b hb; exact hs b (by simp [hr, hb]))
      rw [Lexer.tokenizeLoop, Lexer.getElem?_position, hr]
      simp only [List.head?_cons, isDigit_of_isSpace hc, hc, if_true, Bool.false_eq_true,
        if_false]
      rw [show ({ l with position := l.position + 1 } : Lexer) = l.skip 1 from rfl, this, hr',
        Lexer.skip_add]
      simp [Nat.add_comm]

/-- C9. On an input made only of bytes that the scanner classifies as whitespace
(the empty input included), `tokenize()` returns the empty token sequence, having
consumed the whole input and printed nothing. -/
theorem tokenize_whitespace (input : List Nat)
    (h : ∀ b ∈ input, unicode.IsSpace b = true) :
    (NewLexer input).tokenize = .done [] ⟨input, input.length, []⟩ := by
  rw [Lexer.tokenize, Lexer.tokenizeLoop_space _ (NewLexer input) []
    (by rw [Lexer.length_rest]; omega) h]
  simp [Lexer.skip, NewLexer, Lexer.rest]

/-- C9 at the empty input and at `" \t\n \r"`. -/
theorem tokenize_whitespace_witness :
    (NewLexer []).tokenize = .done [] ⟨[], 0, []⟩ ∧
    (∀ b ∈ goBytes " \t\n \r", unicode.IsSpace b = true) ∧
    (NewLexer (goBytes " \t\n \r")).tokenize =
      .done [] ⟨goBytes " \t\n \r", (goBytes " \t\n \r").length, []⟩ :=
  ⟨tokenize_whitespace [] (by simp), by decide,
    tokenize_whitespace (goBytes " \t\n \r") (by decide)⟩

/-- C10 fails on the code: `readIdentifier` appends `rune(b)` for each byte `b`, so
a non-ASCII letter byte is re-encoded. The two bytes `0xC3 0xAA` (the UTF-8
encoding of U+00EA) are consumed as an identifier whose `Value` is the text
U+00C3 U+00AA, four bytes long. -/
theorem identifier_value_reencoded :
    goBytes "ê" = [0xC3, 0xAA] ∧
    (NewLexer [0xC3, 0xAA]).tokenize =
      .done [⟨ID, "Ãª"⟩] ⟨[0xC3, 0xAA], 2, []⟩ ∧
    goBytes "Ãª" = [0xC3, 0x83, 0xC2, 0xAA] := by
  decide

/-! ### The scanner: tokens of an input without invalid bytes -/

theorem lexStep_fst_initial (c : Nat) (r : List Nat) : (lexStep c r).1 <+: c :: r := by
  unfold lexStep
  by_cases hd : unicode.IsDigit c = true
  · simp only [hd, if_true]
    exact List.takeWhile_prefix _
  by_cases hs : unicode.IsSpace c = true
  · simp [hd, hs]
  cases hp : punctType c with
  | some ty => simp [hd, hs]
  | none =>
    simp only [hd, hs, Bool.false_eq_true, if_false]
    exact List.takeWhile_prefix _

theorem lexStep_fst_append (c : Nat) (r : List Nat) :
    (lexStep c r).1 ++ (c :: r).drop (lexStep c r).1.length = c :: r :=
  List.prefix_iff_eq_append.1 (lexStep_fst_initial c r)

theorem lexStep_fst_ne_nil (c : Nat) (r : List Nat) (hc : invalidByte c = false) :
    (lexStep c r).1 ≠ [] := by
  unfold lexStep
  by_cases hd : unicode.IsDigit c = true
  · simp [hd, List.takeWhile_cons_of_pos hd]
  by_cases hs : unicode.IsSpace c = true
  · simp [hd, hs]
  cases hp : punctType c with
  | some ty => simp [hd, hs]
  | none =>
    have hl : isIdentByte c = true := by
      simp [invalidByte, hd, hs, hp] at hc
      simp [isIdentByte, hc]
    simp only [hd, hs, Bool.false_eq_true, if_false]
    rw [List.takeWhile_cons_of_pos hl]
    simp

theorem lexStep_length (c : Nat) (r : List Nat) (hc : invalidByte c = false) :
    1 ≤ (lexStep c r).1.length ∧ (lexStep c r).1.length ≤ (c :: r).length :=
  ⟨List.length_pos.2 (lexStep_fst_ne_nil c r hc), (lexStep_fst_initial c r).length_le⟩

/-- One iteration of the loop of `tokenize` on a byte that is not invalid is
`lexStep`. -/
theorem Lexer.tokenizeLoop_lexStep {l : Lexer} {c : Nat} {r : List Nat}
    (hr : l.rest = c :: r) (hc : invalidByte c = false) (fuel : Nat) (tokens : List Token) :
    Lexer.tokenizeLoop (fuel + 1) l tokens =
      Lexer.tokenizeLoop fuel (l.skip (lexStep c r).1.length) (tokens ++ (lexStep c r).2) := by
  unfold lexStep
  by_cases hd : unicode.IsDigit c = true
  · rw [Lexer.tokenizeLoop, Lexer.getElem?_position, hr]
    simp only [List.head?_cons, hd, if_true, Lexer.readNumber_eq, Run.bind, hr]
  by_cases hs : unicode.IsSpace c = true
  · rw [Lexer.tokenizeLoop, Lexer.getElem?_position, hr]
    simp [hd, hs, Lexer.skip]
  cases hp : punctType c with
  | some ty =>
    rw [Lexer.tokenizeLoop, Lexer.getElem?_position, hr]
    simp [hd, hs, hp, Lexer.skip]
  | none =>
    have hl : unicode.IsLetter c = true := by
      simp [invalidByte, hd, hs, hp] at hc
      exact hc
    rw [Lexer.tokenizeLoop, Lexer.getElem?_position, hr]
    simp only [List.head?_cons, hd, hs, hp, hl, if_true, Lexer.readIdentifier_eq, Run.bind, hr]
    simp

/-- Without invalid bytes the loop of `tokenize` appends `lexemesFuel` of the
remaining bytes to the tokens built so far. -/
theorem Lexer.tokenizeLoop_eq_lexemesFuel (fuel : Nat) :
    ∀ (l : Lexer) (tokens : List Token), l.rest.length < fuel →
      (∀ b ∈ l.rest, invalidByte b = false) →
      Lexer.tokenizeLoop fuel l tokens =
        .done (tokens ++ lexemesFuel fuel l.rest) (l.skip l.rest.length) := by
  induction fuel with
  | zero => intro l tokens h; simp at h
  | succ fuel ih =>
    intro l tokens h hv
    cases hr : l.rest with
    | nil =>
      rw [Lexer.tokenizeLoop, Lexer.getElem?_position, hr]
      simp [lexemesFuel, Lexer.skip]
    | cons c r =>
      have hc : invalidByte c = false := hv c (by simp [hr])
      have happ := lexStep_fst_append c r
      have hlen := lexStep_length c r hc
      have hr' : (l.skip (lexStep c r).1.length).rest = (c :: r).drop (lexStep c r).1.length :=
        Lexer.rest_after_skip (hr.trans happ.symm)
      have hdl : ((c :: r).drop (lexStep c r).1.length).length =
          (c :: r).length - (lexStep c r).1.length := List.length_drop _ _
      rw [Lexer.tokenizeLoop_lexStep hr hc, ih _ _ (by rw [hr', hdl]; rw [hr] at h; omega)
        (by rw [hr']; intro b hb; exact hv b (by rw [hr]; exact List.mem_of_mem_drop hb)),
        hr', lexemesFuel, Lexer.skip_add, hdl, List.append_assoc]
      congr 2
      omega

/-- More fuel than bytes: the amount does not matter. -/
theorem lexemesFuel_eq (n : Nat) :
    ∀ (m : Nat) (bs : List Nat), bs.length < n → bs.length < m →
      (∀ b ∈ bs, invalidByte b = false) → lexemesFuel n bs = lexemesFuel m bs := by
  induction n with
  | zero => intro m bs h; simp at h
  | succ n ih =>
    intro m bs hn hm hv
    obtain ⟨m, rfl⟩ : ∃ k, m = k + 1 := ⟨m - 1, by omega⟩
    cases bs with
    | nil => simp [lexemesFuel]
    | cons c r =>
      have hc : invalidByte c = false := hv c (by simp)
      have hlen := lexStep_length c r hc
      have hdl : ((c :: r).drop (lexStep c r).1.length).length =
          (c :: r).length - (lexStep c r).1.length := List.length_drop _ _
      rw [lexemesFuel, lexemesFuel, ih m _ (by rw [hdl]; omega) (by rw [hdl]; omega)
        (fun b hb => hv b (List.mem_of_mem_drop hb))]

theorem lexemesFuel_eq_lexemes (n : Nat) (bs : List Nat) (h : bs.length < n)
    (hv : ∀ b ∈ bs, invalidByte b = false) : lexemesFuel n bs = lexemes bs :=
  lexemesFuel_eq n _ bs h (by omega) hv

theorem lexemes_nil : lexemes [] = [] := rfl

theorem lexemes_cons (c : Nat) (r : List Nat) (hv : ∀ b ∈ c :: r, invalidByte b = false) :
    lexemes (c :: r) = (lexStep c r).2 ++ lexemes ((c :: r).drop (lexStep c r).1.length) := by
  have hc : invalidByte c = false := hv c (by simp)
  have hlen := lexStep_length c r hc
  have hdl : ((c :: r).drop (lexStep c r).1.length).length =
      (c :: r).length - (lexStep c r).1.length := List.length_drop _ _
  rw [lexemes, lexemesFuel, lexemesFuel_eq_lexemes _ _ (by rw [hdl]; omega)
    (fun b hb => hv b (List.mem_of_mem_drop hb))]

/-- On a fresh lexer, the tokens of an input without invalid bytes. -/
theorem Lexer.tokenize_eq_lexemes (input : List Nat)
    (hv : ∀ b ∈ input, invalidByte b = false) :
    (NewLexer input).tokenize = .done (lexemes input) ⟨input, input.length, []⟩ := by
  rw [Lexer.tokenize, Lexer.tokenizeLoop_eq_lexemesFuel _ (NewLexer input) []
    (by rw [Lexer.length_rest]; omega) hv]
  simp [Lexer.skip, NewLexer, Lexer.rest, lexemes]

/-- A run of `tokenize` on a fresh lexer that printed nothing read an input
without invalid bytes and returned its `lexemes`. -/
theorem Lexer.lexemes_of_tokenize {input : List Nat} {ts : List Token} {l : Lexer}
    (h : (NewLexer input).tokenize = .done ts l) (hout : l.stdout = []) :
    (∀ b ∈ input, invalidByte b = false) ∧ ts = lexemes input ∧
      l = ⟨input, input.length, []⟩ := by
  have hv : ∀ b ∈ input, invalidByte b = false := by
    intro b hb
    by_contra hbi
    obtain ⟨pre, c, post, hin, hpre, hc⟩ :=
      exists_first_invalid input ⟨b, hb, by simpa using hbi⟩
    rw [Lexer.tokenize_of_first_invalid input pre c post hin hpre hc] at h
    simp at h
    rw [← h.2] at hout
    simp at hout
  rw [Lexer.tokenize_eq_lexemes input hv] at h
  simp at h
  exact ⟨hv, h.1.symm, h.2.symm⟩

theorem goBytes_ofNat_ascii :
    ∀ b < 128, (String.utf8EncodeChar (Char.ofNat b)).map UInt8.toNat = [b] := by
  decide

theorem goBytes_runeString (bs : List Nat) (h : ∀ b ∈ bs, b < 128) :
    goBytes (runeString bs) = bs := by
  induction bs with
  | nil => rfl
  | cons b bs ih =>
    have hb := goBytes_ofNat_ascii b (h b (by simp))
    have := ih (fun x hx => h x (by simp [hx]))
    simp only [goBytes, runeString, String.toList, List.map_cons, List.flatMap_cons,
      List.map_append] at this ⊢
    rw [hb, this]
    rfl

theorem runeString_eq_nil_iff (bs : List Nat) : runeString bs = "" ↔ bs = [] := by
  constructor
  · intro h
    have := congrArg String.data h
    simpa [runeString] using this
  · rintro rfl; rfl

theorem takeWhile_append_of_head {α : Type} (P : α → Bool) (x s : List α)
    (hs : ∀ b, s.head? = some b → P b = false) :
    (x ++ s).takeWhile P = x.takeWhile P := by
  induction x with
  | nil =>
    cases s with
    | nil => rfl
    | cons b s => simp [List.takeWhile_cons, hs b rfl]
  | cons a x ih =>
    simp only [List.cons_append, List.takeWhile_cons, ih]

theorem takeWhile_all {α : Type} (P : α → Bool) (x : List α) (h : ∀ b ∈ x, P b = true) :
    x.takeWhile P = x := by
  induction x with
  | nil => rfl
  | cons a x ih =>
    rw [List.takeWhile_cons_of_pos (h a (by simp)), ih (fun b hb => h b (by simp [hb]))]

theorem isAsciiLetter_lt {b : Nat} (h : isAsciiLetter b = true) : b < 128 := by
  simp [isAsciiLetter] at h
  omega

theorem isAsciiLetter_class :
    ∀ b < 128, isAsciiLetter b = true →
      unicode.IsDigit b = false ∧ unicode.IsSpace b = false ∧ punctType b = none ∧
      unicode.IsLetter b = true := by
  decide

theorem isDigit_lt {b : Nat} (h : unicode.IsDigit b = true) : b < 128 := by
  simp [unicode.IsDigit] at h
  omega

theorem invalidByte_of_isDigit {b : Nat} (h : unicode.IsDigit b = true) :
    invalidByte b = false := by
  simp [invalidByte, h]

theorem runeString_eq_iff (bs : List Nat) (h : ∀ b ∈ bs, b < 128) (s : String)
    (hs : runeString (goBytes s) = s) : runeString bs = s ↔ bs = goBytes s := by
  constructor
  · intro e
    rw [← e, goBytes_runeString bs h]
  · rintro rfl
    exact hs

/-- A word of an ASCII letter followed by ASCII letters and digits is one
iteration of the loop: the identifier branch consumes all of it. -/
theorem lexemes_word (w : List Nat) (hne : w ≠ [])
    (hhead : ∀ c, w.head? = some c → isAsciiLetter c = true)
    (hall : ∀ b ∈ w, isAsciiLetter b = true ∨ unicode.IsDigit b = true) :
    (∀ b ∈ w, invalidByte b = false) ∧ (∀ b ∈ w, b < 128) ∧
      lexemes w = [identifierToken (runeString w)] := by
  have hlt : ∀ b ∈ w, b < 128 := by
    intro b hb
    rcases hall b hb with h | h
    · exact isAsciiLetter_lt h
    · exact isDigit_lt h
  have hident : ∀ b ∈ w, isIdentByte b = true := by
    intro b hb
    rcases hall b hb with h | h
    · simp [isIdentByte, (isAsciiLetter_class b (isAsciiLetter_lt h) h).2.2.2]
    · simp [isIdentByte, h]
  have hv : ∀ b ∈ w, invalidByte b = false := by
    intro b hb
    rcases hall b hb with h | h
    · simp [invalidByte, (isAsciiLetter_class b (isAsciiLetter_lt h) h).2.2.2]
    · exact invalidByte_of_isDigit h
  refine ⟨hv, hlt, ?_⟩
  cases w with
  | nil => exact absurd rfl hne
  | cons c cs =>
    have hc := hhead c rfl
    obtain ⟨h1, h2, h3, h4⟩ := isAsciiLetter_class c (isAsciiLetter_lt hc) hc
    have hstep : lexStep c cs = (c :: cs, [identifierToken (runeString (c :: cs))]) := by
      simp only [lexStep, h1, h2, h3, Bool.false_eq_true, if_false,
        takeWhile_all isIdentByte (c :: cs) hident]
    rw [lexemes_cons c cs hv, hstep]
    simp [lexemes_nil]

/-! ### Keywords, numbers, punctuation and the produced token types -/

/-- C11. Keyword classification is exact and case-sensitive: a word `w` made of an
ASCII letter followed by ASCII letters and digits is scanned to a single token
whose `Value` has exactly the bytes of `w` and whose type is `IF` if and only if
`w` is `"if"`, `ELSE` if and only if `w` is `"else"`, and `ID` in every other
case. -/
theorem keyword_classification (w : List Nat) (hne : w ≠ [])
    (hhead : ∀ c, w.head? = some c → isAsciiLetter c = true)
    (hall : ∀ b ∈ w, isAsciiLetter b = true ∨ unicode.IsDigit b = true) :
    ∃ t : Token,
      (NewLexer w).tokenize = .done [t] ⟨w, w.length, []⟩ ∧
      goBytes t.Value = w ∧
      (t.type = IF ↔ w = goBytes "if") ∧
      (t.type = ELSE ↔ w = goBytes "else") ∧
      (t.type = ID ↔ w ≠ goBytes "if" ∧ w ≠ goBytes "else") := by
  obtain ⟨hv, hlt, hlex⟩ := lexemes_word w hne hhead hall
  have hif := runeString_eq_iff w hlt "if" (by decide)
  have helse := runeString_eq_iff w hlt "else" (by decide)
  have hne' : goBytes "if" ≠ goBytes "else" := by decide
  refine ⟨identifierToken (runeString w), ?_, ?_, ?_, ?_, ?_⟩
  · rw [Lexer.tokenize_eq_lexemes w hv, hlex]
  · have : (identifierToken (runeString w)).Value = runeString w := by
      unfold identifierToken
      split_ifs <;> rfl
    rw [this, goBytes_runeString w hlt]
  · rw [← hif]
    unfold identifierToken
    split_ifs with h1 h2 <;> simp [h1]
  · rw [← helse]
    unfold identifierToken
    split_ifs with h1 h2
    · have := hif.1 h1
      simp
      intro h
      exact hne' (this.symm.trans (helse.1 h))
    · simp [h2]
    · simp [h2]
  · rw [ne_eq, ne_eq, ← hif, ← helse]
    unfold identifierToken
    split_ifs with h1 h2
    · simp [h1]
    · simp [h2]
    · simp [h1, h2]

/-- C11 at the words `"if"`, `"else"`, `"If"`, `"iff"`, `"else1"`, `"then"` and
`"endif"`. -/
theorem keyword_classification_witness :
    (∃ t : Token,
      (NewLexer (goBytes "iff")).tokenize =
        .done [t] ⟨goBytes "iff", (goBytes "iff").length, []⟩ ∧
      goBytes t.Value = goBytes "iff" ∧
      (t.type = IF ↔ goBytes "iff" = goBytes "if") ∧
      (t.type = ELSE ↔ goBytes "iff" = goBytes "else") ∧
      (t.type = ID ↔ goBytes "iff" ≠ goBytes "if" ∧ goBytes "iff" ≠ goBytes "else")) ∧
    (NewLexer (goBytes "if")).tokenize = .done [⟨IF, "if"⟩] ⟨goBytes "if", 2, []⟩ ∧
    (NewLexer (goBytes "else")).tokenize = .done [⟨ELSE, "else"⟩] ⟨goBytes "else", 4, []⟩ ∧
    (NewLexer (goBytes "If")).tokenize = .done [⟨ID, "If"⟩] ⟨goBytes "If", 2, []⟩ ∧
    (NewLexer (goBytes "iff")).tokenize = .done [⟨ID, "iff"⟩] ⟨goBytes "iff", 3, []⟩ ∧
    (NewLexer (goBytes "else1")).tokenize =
      .done [⟨ID, "else1"⟩] ⟨goBytes "else1", 5, []⟩ ∧
    (NewLexer (goBytes "then")).tokenize = .done [⟨ID, "then"⟩] ⟨goBytes "then", 4, []⟩ ∧
    (NewLexer (goBytes "endif")).tokenize =
      .done [⟨ID, "endif"⟩] ⟨goBytes "endif", 5, []⟩ :=
  ⟨keyword_classification (goBytes "iff") (by decide) (by decide) (by decide),
    by decide, by decide, by decide, by decide, by decide, by decide, by decide⟩

theorem lexemes_digits_append (d r : List Nat) (hd : d ≠ [])
    (hdig : ∀ b ∈ d, unicode.IsDigit b = true)
    (hr : ∀ b, r.head? = some b → unicode.IsDigit b = false)
    (hv : ∀ b ∈ r, invalidByte b = false) :
    lexemes (d ++ r) = { type := INTEGER, Value := runeString d } :: lexemes r := by
  cases d with
  | nil => exact absurd rfl hd
  | cons c d =>
    have hc := hdig c (by simp)
    have htw : ((c :: d) ++ r).takeWhile unicode.IsDigit = c :: d := by
      rw [takeWhile_append_of_head _ _ _ hr, takeWhile_all _ _ hdig]
    have hstep : lexStep c (d ++ r) = (c :: d, [{ type := INTEGER, Value := runeString (c :: d) }]) := by
      have htw' : (c :: (d ++ r)).takeWhile unicode.IsDigit = c :: d := htw
      simp only [lexStep, hc, if_true, htw']
    have hvall : ∀ b ∈ c :: (d ++ r), invalidByte b = false := by
      intro b hb
      simp at hb
      rcases hb with rfl | hb | hb
      · exact invalidByte_of_isDigit hc
      · exact invalidByte_of_isDigit (hdig b (by simp [hb]))
      · exact hv b hb
    rw [List.cons_append, lexemes_cons c (d ++ r) hvall, hstep]
    simp

/-- C12. Maximal munch for numbers: for a non-empty string `d` of digits and a
string `r` that is empty or starts with a non-digit and that `tokenize` scans
without a diagnostic to the tokens `tr`, the tokens of `d ++ r` are
`Token{INTEGER, d}` followed by `tr`; the `Value` has exactly the bytes of `d`. -/
theorem number_maximal_munch (d r : List Nat) (tr : List Token) (lr : Lexer)
    (hd : d ≠ []) (hdig : ∀ b ∈ d, unicode.IsDigit b = true)
    (hr : ∀ b, r.head? = some b → unicode.IsDigit b = false)
    (hrun : (NewLexer r).tokenize = .done tr lr) (hok : lr.stdout = []) :
    (NewLexer (d ++ r)).tokenize =
      .done ({ type := INTEGER, Value := runeString d } :: tr)
        ⟨d ++ r, (d ++ r).length, []⟩ ∧
    goBytes (runeString d) = d := by
  obtain ⟨hv, htr, -⟩ := Lexer.lexemes_of_tokenize hrun hok
  have hvall : ∀ b ∈ d ++ r, invalidByte b = false := by
    intro b hb
    simp at hb
    rcases hb with hb | hb
    · exact invalidByte_of_isDigit (hdig b hb)
    · exact hv b hb
  refine ⟨?_, goBytes_runeString d (fun b hb => isDigit_lt (hdig b hb))⟩
  rw [Lexer.tokenize_eq_lexemes _ hvall, lexemes_digits_append d r hd hdig hr hv, htr]

/-- C12 at `d = "007"` and `r = "x"`, and at `d = "12345678901234567890"` with `r`
empty. -/
theorem number_maximal_munch_witness :
    ((NewLexer (goBytes "007" ++ goBytes "x")).tokenize =
      .done [{ type := INTEGER, Value := runeString (goBytes "007") }, ⟨ID, "x"⟩]
        ⟨goBytes "007" ++ goBytes "x", (goBytes "007" ++ goBytes "x").length, []⟩ ∧
     goBytes (runeString (goBytes "007")) = goBytes "007") ∧
    runeString (goBytes "007") = "007" ∧
    ((NewLexer (goBytes "12345678901234567890" ++ [])).tokenize =
      .done [{ type := INTEGER, Value := runeString (goBytes "12345678901234567890") }]
        ⟨goBytes "12345678901234567890" ++ [],
          (goBytes "12345678901234567890" ++ []).length, []⟩ ∧
     goBytes (runeString (goBytes "12345678901234567890")) =
       goBytes "12345678901234567890") :=
  ⟨number_maximal_munch (goBytes "007") (goBytes "x") [⟨ID, "x"⟩] ⟨goBytes "x", 1, []⟩
      (by decide) (by decide) (by decide) (by decide) rfl,
    by decide,
    number_maximal_munch (goBytes "12345678901234567890") [] [] ⟨[], 0, []⟩
      (by decide) (by decide) (by decide) (by decide) rfl⟩

/-- C13. Punctuation mapping: each of the ten characters `+ - * / ( ) = >` and the
two braces is scanned to exactly one token whose `Value` is that character and
whose type is respectively `PLUS`, `MINUS`, `MULTIPLY`, `DIVIDE`, `LPAREN`,
`RPAREN`, `ASSIGN`, `GREATER_THAN`, `LBRACE`, `RBRACE`; the ten types are pairwise
distinct; and `"-5"` is scanned to `[MINUS(-), INTEGER(5)]`. -/
theorem punctuation_mapping :
    (NewLexer (goBytes "+")).tokenize = .done [⟨PLUS, "+"⟩] ⟨goBytes "+", 1, []⟩ ∧
    (NewLexer (goBytes "-")).tokenize = .done [⟨MINUS, "-"⟩] ⟨goBytes "-", 1, []⟩ ∧
    (NewLexer (goBytes "*")).tokenize = .done [⟨MULTIPLY, "*"⟩] ⟨goBytes "*", 1, []⟩ ∧
    (NewLexer (goBytes "/")).tokenize = .done [⟨DIVIDE, "/"⟩] ⟨goBytes "/", 1, []⟩ ∧
    (NewLexer (goBytes "(")).tokenize = .done [⟨LPAREN, "("⟩] ⟨goBytes "(", 1, []⟩ ∧
    (NewLexer (goBytes ")")).tokenize = .done [⟨RPAREN, ")"⟩] ⟨goBytes ")", 1, []⟩ ∧
    (NewLexer (goBytes "=")).tokenize = .done [⟨ASSIGN, "="⟩] ⟨goBytes "=", 1, []⟩ ∧
    (NewLexer (goBytes ">")).tokenize =
      .done [⟨GREATER_THAN, ">"⟩] ⟨goBytes ">", 1, []⟩ ∧
    (NewLexer (goBytes "\x7b")).tokenize =
      .done [⟨LBRACE, "\x7b"⟩] ⟨goBytes "\x7b", 1, []⟩ ∧
    (NewLexer (goBytes "\x7d")).tokenize =
      .done [⟨RBRACE, "\x7d"⟩] ⟨goBytes "\x7d", 1, []⟩ ∧
    [PLUS, MINUS, MULTIPLY, DIVIDE, LPAREN, RPAREN, ASSIGN, GREATER_THAN, LBRACE,
      RBRACE].Nodup ∧
    (NewLexer (goBytes "-5")).tokenize =
      .done [⟨MINUS, "-"⟩, ⟨INTEGER, "5"⟩] ⟨goBytes "-5", 2, []⟩ := by
  decide

theorem producedTypes_not_dead : ∀ ty ∈ producedTypes, ty ∉ deadTypes := by
  decide

theorem mem_producedTypes_of_some {ty x : TokenType}
    (hx : x ∈ producedTypes) (h : some x = some ty) : ty ∈ producedTypes := by
  cases h; exact hx

theorem punctType_produced {c : Nat} {ty : TokenType} (h : punctType c = some ty) :
    ty ∈ producedTypes := by
  unfold punctType at h
  by_cases h0 : c = '+'.toNat
  · rw [if_pos h0] at h; exact mem_producedTypes_of_some (by decide) h
  rw [if_neg h0] at h
  by_cases h1 : c = '-'.toNat
  · rw [if_pos h1] at h; exact mem_producedTypes_of_some (by decide) h
  rw [if_neg h1] at h
  by_cases h2 : c = '*'.toNat
  · rw [if_pos h2] at h; exact mem_producedTypes_of_some (by decide) h
  rw [if_neg h2] at h
  by_cases h3 : c = '/'.toNat
  · rw [if_pos h3] at h; exact mem_producedTypes_of_some (by decide) h
  rw [if_neg h3] at h
  by_cases h4 : c = '('.toNat
  · rw [if_pos h4] at h; exact mem_producedTypes_of_some (by decide) h
  rw [if_neg h4] at h
  by_cases h5 : c = ')'.toNat
  · rw [if_pos h5] at h; exact mem_producedTypes_of_some (by decide) h
  rw [if_neg h5] at h
  by_cases h6 : c = '='.toNat
  · rw [if_pos h6] at h; exact mem_producedTypes_of_some (by decide) h
  rw [if_neg h6] at h
  by_cases h7 : c = '>'.toNat
  · rw [if_pos h7] at h; exact mem_producedTypes_of_some (by decide) h
  rw [if_neg h7] at h
  by_cases h8 : c = '{'.toNat
  · rw [if_pos h8] at h; exact mem_producedTypes_of_some (by decide) h
  rw [if_neg h8] at h
  by_cases h9 : c = '}'.toNat
  · rw [if_pos h9] at h; exact mem_producedTypes_of_some (by decide) h
  rw [if_neg h9] at h
  cases h

theorem identifierToken_produced (s : String) : (identifierToken s).type ∈ producedTypes := by
  unfold identifierToken
  split_ifs <;> simp [producedTypes]

theorem lexStep_produced (c : Nat) (r : List Nat) :
    ∀ t ∈ (lexStep c r).2, t.type ∈ producedTypes := by
  intro t ht
  unfold lexStep at ht
  split_ifs at ht
  · simp at ht; subst ht; simp [producedTypes]
  · simp at ht
  · cases hp : punctType c with
    | some ty =>
      simp [hp] at ht
      subst ht
      exact punctType_produced hp
    | none =>
      simp [hp] at ht
      subst ht
      exact identifierToken_produced _

theorem lexemesFuel_produced (n : Nat) :
    ∀ bs : List Nat, ∀ t ∈ lexemesFuel n bs, t.type ∈ producedTypes := by
  induction n with
  | zero => intro bs t ht; simp [lexemesFuel] at ht
  | succ n ih =>
    intro bs t ht
    cases bs with
    | nil => simp [lexemesFuel] at ht
    | cons c r =>
      rw [lexemesFuel, List.mem_append] at ht
      rcases ht with ht | ht
      · exact lexStep_produced c r t ht
      · exact ih _ t ht

/-- C14. Dead vocabulary: every token returned by `tokenize()` has one of the
fourteen types `INTEGER`, `PLUS`, `MINUS`, `MULTIPLY`, `DIVIDE`, `LPAREN`,
`RPAREN`, `ASSIGN`, `ID`, `IF`, `ELSE`, `GREATER_THAN`, `LBRACE`, `RBRACE`, and none
has type `ENDIF`, `THEN`, `LBRACKET`, `RBRACKET`, `COMMA` or `DOT`. -/
theorem dead_vocabulary (input : List Nat) (ts : List Token) (l : Lexer)
    (h : (NewLexer input).tokenize = .done ts l) :
    ∀ t ∈ ts, t.type ∈ producedTypes ∧ t.type ∉ deadTypes := by
  have hts : ∀ t ∈ ts, t.type ∈ producedTypes := by
    by_cases hinv : ∃ b ∈ input, invalidByte b = true
    · obtain ⟨pre, b, post, hin, hpre, hb⟩ := exists_first_invalid input hinv
      rw [Lexer.tokenize_of_first_invalid input pre b post hin hpre hb] at h
      obtain ⟨h1, -⟩ := Run.done.inj h
      intro t ht
      rw [← h1] at ht
      simp at ht
    · have hv : ∀ b ∈ input, invalidByte b = false := by
        intro b hb
        by_contra hbi
        exact hinv ⟨b, hb, by simpa using hbi⟩
      rw [Lexer.tokenize_eq_lexemes input hv] at h
      obtain ⟨h1, -⟩ := Run.done.inj h
      intro t ht
      rw [← h1] at ht
      exact lexemesFuel_produced _ _ t ht
  exact fun t ht => ⟨hts t ht, producedTypes_not_dead _ (hts t ht)⟩

/-- C14 at `"endif then"`: the run returns the two tokens `ID(endif)` and
`ID(then)`, whose type `ID` is one of the fourteen and none of the six. -/
theorem dead_vocabulary_witness :
    (NewLexer (goBytes "endif then")).tokenize =
      .done [⟨ID, "endif"⟩, ⟨ID, "then"⟩] ⟨goBytes "endif then", 10, []⟩ ∧
    ((⟨ID, "endif"⟩ : Token).type ∈ producedTypes ∧
      (⟨ID, "endif"⟩ : Token).type ∉ deadTypes) ∧
    ((⟨ID, "then"⟩ : Token).type ∈ producedTypes ∧
      (⟨ID, "then"⟩ : Token).type ∉ deadTypes) :=
  ⟨by decide,
    dead_vocabulary (goBytes "endif then") [⟨ID, "endif"⟩, ⟨ID, "then"⟩]
      ⟨goBytes "endif then", 10, []⟩ (by decide) ⟨ID, "endif"⟩ (by decide),
    dead_vocabulary (goBytes "endif then") [⟨ID, "endif"⟩, ⟨ID, "then"⟩]
      ⟨goBytes "endif then", 10, []⟩ (by decide) ⟨ID, "then"⟩ (by decide)⟩

/-! ### The scanner and whitespace -/

theorem not_isSpace_of_isDigit {b : Nat} (h : unicode.IsDigit b = true) :
    unicode.IsSpace b = false := by
  simp [unicode.IsDigit] at h
  simp [unicode.IsSpace]
  omega

theorem not_isSpace_of_isIdentByte {b : Nat} (h : isIdentByte b = true) :
    unicode.IsSpace b = false := by
  simp [isIdentByte, unicode.IsLetter, unicode.IsDigit] at h
  simp [unicode.IsSpace]
  omega

theorem filter_notSpace_of_all {w : List Nat} (h : ∀ b ∈ w, unicode.IsSpace b = false) :
    w.filter (fun b => !unicode.IsSpace b) = w := by
  rw [List.filter_eq_self]
  intro b hb
  simp [h b hb]

theorem identifierToken_Value (s : String) : (identifierToken s).Value = s := by
  unfold identifierToken
  split_ifs <;> rfl

theorem punctToken_Value (ty : TokenType) (c : Nat) :
    (punctToken ty c).Value = runeString [c] := rfl

/-- The shape of one iteration: a run of digits with its `INTEGER` token, one
whitespace byte without a token, one punctuation byte with its token, or a run
of letters and digits with its identifier token. In each case the token, if any,
carries the text of the run, and the run has no whitespace unless it is the
single whitespace byte. -/
theorem lexStep_shape (c : Nat) (r : List Nat) (hc : invalidByte c = false) :
    ((lexStep c r).1 = [c] ∧ unicode.IsSpace c = true ∧ (lexStep c r).2 = []) ∨
    (∃ t, (lexStep c r).2 = [t] ∧ t.Value = runeString (lexStep c r).1 ∧
      (lexStep c r).1 ≠ [] ∧ ∀ b ∈ (lexStep c r).1, unicode.IsSpace b = false) := by
  have hne := lexStep_fst_ne_nil c r hc
  unfold lexStep at hne ⊢
  by_cases hd : unicode.IsDigit c = true
  · simp only [hd, if_true] at hne ⊢
    exact Or.inr ⟨_, rfl, rfl, hne,
      fun b hb => not_isSpace_of_isDigit (List.mem_takeWhile_imp hb)⟩
  by_cases hs : unicode.IsSpace c = true
  · refine Or.inl ?_
    simp [hd, hs]
  cases hp : punctType c with
  | some ty =>
    simp only [hd, hs, Bool.false_eq_true, if_false]
    exact Or.inr ⟨_, rfl, punctToken_Value ty c, by simp, by
      intro b hb
      simp at hb
      subst hb
      simpa using hs⟩
  | none =>
    simp only [hd, hs, hp, Bool.false_eq_true, if_false] at hne ⊢
    exact Or.inr ⟨_, rfl, identifierToken_Value _, hne,
      fun b hb => not_isSpace_of_isIdentByte (List.mem_takeWhile_imp hb)⟩

/-- The tokens of a byte sequence without invalid bytes carry, in order, the
text of its non-whitespace bytes; none is empty and there are at most as many
as non-whitespace bytes. -/
theorem lexemesFuel_values (n : Nat) :
    ∀ bs : List Nat, bs.length < n → (∀ b ∈ bs, invalidByte b = false) →
      ((∀ b ∈ bs, b < 128) →
        (lexemesFuel n bs).flatMap (fun t => goBytes t.Value) =
          bs.filter (fun b => !unicode.IsSpace b)) ∧
      (∀ t ∈ lexemesFuel n bs, t.Value ≠ "") ∧
      (lexemesFuel n bs).length ≤ (bs.filter (fun b => !unicode.IsSpace b)).length := by
  induction n with
  | zero => intro bs h; simp at h
  | succ n ih =>
    intro bs hn hv
    cases bs with
    | nil => simp [lexemesFuel]
    | cons c r =>
      have hc : invalidByte c = false := hv c (by simp)
      have happ := lexStep_fst_append c r
      have hlen := lexStep_length c r hc
      have hdl : ((c :: r).drop (lexStep c r).1.length).length =
          (c :: r).length - (lexStep c r).1.length := List.length_drop _ _
      obtain ⟨ih1, ih2, ih3⟩ := ih ((c :: r).drop (lexStep c r).1.length)
        (by rw [hdl]; omega) (fun b hb => hv b (List.mem_of_mem_drop hb))
      have hfilter : (c :: r).filter (fun b => !unicode.IsSpace b) =
          (lexStep c r).1.filter (fun b => !unicode.IsSpace b) ++
            ((c :: r).drop (lexStep c r).1.length).filter (fun b => !unicode.IsSpace b) := by
        rw [← List.filter_append, happ]
      rw [lexemesFuel, hfilter]
      have hsub : ∀ b ∈ (c :: r).drop (lexStep c r).1.length, b ∈ c :: r :=
        fun b hb => List.mem_of_mem_drop hb
      have hpre : ∀ b ∈ (lexStep c r).1, b ∈ c :: r :=
        fun b hb => (lexStep_fst_initial c r).subset hb
      generalize (c :: r).drop (lexStep c r).1.length = rest' at *
      rcases lexStep_shape c r hc with ⟨h1, h2, h3⟩ | ⟨t, h1, h2, h3, h4⟩
      · rw [h3, h1]
        simp only [List.nil_append, List.filter_cons, h2, Bool.not_true, Bool.false_eq_true,
          if_false, List.filter_nil]
        exact ⟨fun hascii => ih1 (fun b hb => hascii b (hsub b hb)), ih2, ih3⟩
      · rw [h1, filter_notSpace_of_all h4]
        refine ⟨?_, ?_, ?_⟩
        · intro hascii
          have hw : ∀ b ∈ (lexStep c r).1, b < 128 := fun b hb => hascii b (hpre b hb)
          rw [List.singleton_append, List.flatMap_cons, h2, goBytes_runeString _ hw,
            ih1 (fun b hb => hascii b (hsub b hb))]
        · intro x hx
          simp only [List.singleton_append, List.mem_cons] at hx
          rcases hx with rfl | hx
          · rw [h2]
            intro h
            exact h3 ((runeString_eq_nil_iff _).1 h)
          · exact ih2 x hx
        · simp only [List.singleton_append, List.length_cons, List.length_append]
          omega

/-- C19. The scanner loses nothing but whitespace: for an ASCII input that
`tokenize()` scans without a diagnostic, the bytes of the `Value` fields of the
returned tokens, concatenated in order, are the input with its whitespace bytes
removed; every `Value` is non-empty; and there are at most as many tokens as
non-whitespace bytes. -/
theorem scanner_loses_only_whitespace (input : List Nat) (ts : List Token) (l : Lexer)
    (hascii : ∀ b ∈ input, b < 128)
    (h : (NewLexer input).tokenize = .done ts l) (hok : l.stdout = []) :
    ts.flatMap (fun t => goBytes t.Value) = input.filter (fun b => !unicode.IsSpace b) ∧
    (∀ t ∈ ts, t.Value ≠ "") ∧
    ts.length ≤ (input.filter (fun b => !unicode.IsSpace b)).length := by
  obtain ⟨hv, hts, -⟩ := Lexer.lexemes_of_tokenize h hok
  obtain ⟨h1, h2, h3⟩ := lexemesFuel_values (input.length + 1) input (by omega) hv
  rw [hts]
  exact ⟨h1 hascii, h2, h3⟩

/-- C19 at `" x1 = (30+y)\n"`. -/
theorem scanner_loses_only_whitespace_witness :
    [⟨ID, "x1"⟩, ⟨ASSIGN, "="⟩, ⟨LPAREN, "("⟩, ⟨INTEGER, "30"⟩, ⟨PLUS, "+"⟩, ⟨ID, "y"⟩,
        ⟨RPAREN, ")"⟩].flatMap (fun t : Token => goBytes t.Value) =
      (goBytes " x1 = (30+y)\n").filter (fun b => !unicode.IsSpace b) ∧
    (∀ t ∈ ([⟨ID, "x1"⟩, ⟨ASSIGN, "="⟩, ⟨LPAREN, "("⟩, ⟨INTEGER, "30"⟩, ⟨PLUS, "+"⟩,
        ⟨ID, "y"⟩, ⟨RPAREN, ")"⟩] : List Token), t.Value ≠ "") ∧
    ([⟨ID, "x1"⟩, ⟨ASSIGN, "="⟩, ⟨LPAREN, "("⟩, ⟨INTEGER, "30"⟩, ⟨PLUS, "+"⟩, ⟨ID, "y"⟩,
        ⟨RPAREN, ")"⟩] : List Token).length ≤
      ((goBytes " x1 = (30+y)\n").filter (fun b => !unicode.IsSpace b)).length :=
  scanner_loses_only_whitespace (goBytes " x1 = (30+y)\n") _
    ⟨goBytes " x1 = (30+y)\n", 13, []⟩ (by decide) (by decide) rfl

theorem invalidByte_of_isSpace {b : Nat} (h : unicode.IsSpace b = true) :
    invalidByte b = false := by
  simp [invalidByte, h]

theorem not_isIdentByte_of_isSpace {b : Nat} (h : unicode.IsSpace b = true) :
    isIdentByte b = false := by
  cases hi : isIdentByte b with
  | false => rfl
  | true => rw [not_isSpace_of_isIdentByte hi] at h; cases h

/-- A whitespace byte after the bytes `r` ends every run: the iteration on
`c :: r` is not changed by what follows. -/
theorem lexStep_append (c : Nat) (r s : List Nat)
    (hs : ∀ b, s.head? = some b → unicode.IsSpace b = true) :
    lexStep c (r ++ s) = lexStep c r := by
  have h1 : (c :: (r ++ s)).takeWhile unicode.IsDigit = (c :: r).takeWhile unicode.IsDigit :=
    takeWhile_append_of_head unicode.IsDigit (c :: r) s
      (fun b hb => isDigit_of_isSpace (hs b hb))
  have h2 : (c :: (r ++ s)).takeWhile isIdentByte = (c :: r).takeWhile isIdentByte :=
    takeWhile_append_of_head isIdentByte (c :: r) s
      (fun b hb => not_isIdentByte_of_isSpace (hs b hb))
  simp only [lexStep, h1, h2]

theorem lexemesFuel_append (n : Nat) :
    ∀ a s : List Nat, (a ++ s).length < n → (∀ b ∈ a, invalidByte b = false) →
      (∀ b ∈ s, invalidByte b = false) →
      (∀ b, s.head? = some b → unicode.IsSpace b = true) →
      lexemesFuel n (a ++ s) = lexemesFuel n a ++ lexemesFuel n s := by
  induction n with
  | zero => intro a s h; simp at h
  | succ n ih =>
    intro a s hn hva hvs hs
    cases a with
    | nil => simp [lexemesFuel]
    | cons c r =>
      have hc : invalidByte c = false := hva c (by simp)
      have hlen := lexStep_length c r hc
      have hdl : ((c :: r).drop (lexStep c r).1.length).length =
          (c :: r).length - (lexStep c r).1.length := List.length_drop _ _
      have hdrop : (c :: (r ++ s)).drop (lexStep c r).1.length =
          (c :: r).drop (lexStep c r).1.length ++ s :=
        List.drop_append_of_le_length hlen.2
      simp only [List.length_append, List.length_cons] at hn hlen hdl
      rw [List.cons_append, lexemesFuel, lexemesFuel, lexStep_append c r s hs, hdrop,
        ih _ s (by simp only [List.length_append, hdl, List.length_cons]; omega)
          (fun b hb => hva b (List.mem_of_mem_drop hb)) hvs hs,
        lexemesFuel_eq n (n + 1) s (by omega) (by omega) hvs, List.append_assoc]

theorem lexemes_append (a s : List Nat) (hva : ∀ b ∈ a, invalidByte b = false)
    (hvs : ∀ b ∈ s, invalidByte b = false)
    (hs : ∀ b, s.head? = some b → unicode.IsSpace b = true) :
    lexemes (a ++ s) = lexemes a ++ lexemes s := by
  have hlen : (a ++ s).length = a.length + s.length := List.length_append _ _
  rw [lexemes, lexemesFuel_append _ a s (by omega) hva hvs hs,
    lexemesFuel_eq_lexemes _ a (by omega) hva, lexemesFuel_eq_lexemes _ s (by omega) hvs]

theorem lexemes_space_append (w b : List Nat) (hws : ∀ x ∈ w, unicode.IsSpace x = true)
    (hvb : ∀ x ∈ b, invalidByte x = false) : lexemes (w ++ b) = lexemes b := by
  induction w with
  | nil => rfl
  | cons c w ih =>
    have hc := hws c (by simp)
    have hstep : lexStep c (w ++ b) = ([c], []) := by
      simp [lexStep, isDigit_of_isSpace hc, hc]
    have hv : ∀ x ∈ c :: (w ++ b), invalidByte x = false := by
      intro x hx
      simp at hx
      rcases hx with rfl | hx | hx
      · exact invalidByte_of_isSpace hc
      · exact invalidByte_of_isSpace (hws x (by simp [hx]))
      · exact hvb x hx
    rw [List.cons_append, lexemes_cons c (w ++ b) hv, hstep]
    simpa using ih (fun x hx => hws x (by simp [hx]))

/-- C20. Whitespace is a token separator: for byte strings `a` and `b` that
`tokenize()` scans without a diagnostic to `ta` and `tb`, and a non-empty string
`w` of whitespace bytes, the tokens of `a ++ w ++ b` are `ta ++ tb`; in particular
the tokens of `w ++ a` and of `a ++ w` are `ta`. -/
theorem tokenize_whitespace_separates (a w b : List Nat) (ta tb : List Token)
    (la lb : Lexer) (hw : w ≠ []) (hws : ∀ x ∈ w, unicode.IsSpace x = true)
    (ha : (NewLexer a).tokenize = .done ta la) (hao : la.stdout = [])
    (hb : (NewLexer b).tokenize = .done tb lb) (hbo : lb.stdout = []) :
    (NewLexer (a ++ w ++ b)).tokenize =
      .done (ta ++ tb) ⟨a ++ w ++ b, (a ++ w ++ b).length, []⟩ ∧
    (NewLexer (w ++ a)).tokenize = .done ta ⟨w ++ a, (w ++ a).length, []⟩ ∧
    (NewLexer (a ++ w)).tokenize = .done ta ⟨a ++ w, (a ++ w).length, []⟩ := by
  obtain ⟨hva, hta, -⟩ := Lexer.lexemes_of_tokenize ha hao
  obtain ⟨hvb, htb, -⟩ := Lexer.lexemes_of_tokenize hb hbo
  have hvw : ∀ x ∈ w, invalidByte x = false := fun x hx => invalidByte_of_isSpace (hws x hx)
  have hvwb : ∀ x ∈ w ++ b, invalidByte x = false := by
    intro x hx
    rcases List.mem_append.1 hx with h | h
    · exact hvw x h
    · exact hvb x h
  have hhead : ∀ s : List Nat, ∀ x, (w ++ s).head? = some x → unicode.IsSpace x = true := by
    intro s x hx
    cases w with
    | nil => exact absurd rfl hw
    | cons c w =>
      simp at hx
      subst hx
      exact hws _ (by simp)
  refine ⟨?_, ?_, ?_⟩
  · have hv : ∀ x ∈ a ++ w ++ b, invalidByte x = false := by
      intro x hx
      rw [List.append_assoc] at hx
      rcases List.mem_append.1 hx with h | h
      · exact hva x h
      · exact hvwb x h
    rw [Lexer.tokenize_eq_lexemes _ hv, List.append_assoc,
      lexemes_append a (w ++ b) hva hvwb (hhead b), lexemes_space_append w b hws hvb,
      hta, htb]
  · have hv : ∀ x ∈ w ++ a, invalidByte x = false := by
      intro x hx
      rcases List.mem_append.1 hx with h | h
      · exact hvw x h
      · exact hva x h
    rw [Lexer.tokenize_eq_lexemes _ hv, lexemes_space_append w a hws hva, hta]
  · have hv : ∀ x ∈ a ++ w, invalidByte x = false := by
      intro x hx
      rcases List.mem_append.1 hx with h | h
      · exact hva x h
      · exact hvw x h
    have hwn : lexemes w = [] := by
      have := lexemes_space_append w [] hws (by simp)
      simpa [lexemes_nil] using this
    have hh : ∀ x, w.head? = some x → unicode.IsSpace x = true := by
      intro x hx
      exact hhead [] x (by simpa using hx)
    rw [Lexer.tokenize_eq_lexemes _ hv, lexemes_append a w hva hvw hh, hwn, hta]
    simp

/-- C20 at `a = "x=1"`, `w = " \n\t"` and `b = "if(y)"`. -/
theorem tokenize_whitespace_separates_witness :
    (NewLexer (goBytes "x=1" ++ goBytes " \n\t" ++ goBytes "if(y)")).tokenize =
      .done ([⟨ID, "x"⟩, ⟨ASSIGN, "="⟩, ⟨INTEGER, "1"⟩] ++
          [⟨IF, "if"⟩, ⟨LPAREN, "("⟩, ⟨ID, "y"⟩, ⟨RPAREN, ")"⟩])
        ⟨goBytes "x=1" ++ goBytes " \n\t" ++ goBytes "if(y)",
          (goBytes "x=1" ++ goBytes " \n\t" ++ goBytes "if(y)").length, []⟩ ∧
    (NewLexer (goBytes " \n\t" ++ goBytes "x=1")).tokenize =
      .done [⟨ID, "x"⟩, ⟨ASSIGN, "="⟩, ⟨INTEGER, "1"⟩]
        ⟨goBytes " \n\t" ++ goBytes "x=1", (goBytes " \n\t" ++ goBytes "x=1").length, []⟩ ∧
    (NewLexer (goBytes "x=1" ++ goBytes " \n\t")).tokenize =
      .done [⟨ID, "x"⟩, ⟨ASSIGN, "="⟩, ⟨INTEGER, "1"⟩]
        ⟨goBytes "x=1" ++ goBytes " \n\t", (goBytes "x=1" ++ goBytes " \n\t").length, []⟩ :=
  tokenize_whitespace_separates (goBytes "x=1") (goBytes " \n\t") (goBytes "if(y)")
    [⟨ID, "x"⟩, ⟨ASSIGN, "="⟩, ⟨INTEGER, "1"⟩]
    [⟨IF, "if"⟩, ⟨LPAREN, "("⟩, ⟨ID, "y"⟩, ⟨RPAREN, ")"⟩]
    ⟨goBytes "x=1", 3, []⟩ ⟨goBytes "if(y)", 5, []⟩
    (by decide) (by decide) (by decide) rfl (by decide) rfl

/-! ### `match` and the cursor invariant -/

theorem Parser.match_fst_iff (expected : List TokenType) (p : Parser) :
    (Parser.match expected p).1 = true ↔
      ∃ t, p.tokens[p.current]? = some t ∧ t.type ∈ expected := by
  rw [Parser.match_eq, Parser.getElem?_current]
  cases p.rest.head? with
  | none => simp
  | some t =>
    by_cases ht : t.type ∈ expected
    · simp [ht]
    · simp [ht]

theorem Parser.match_snd_eq (expected : List TokenType) (p : Parser) :
    (Parser.match expected p).2 =
      if (Parser.match expected p).1 = true then { p with current := p.current + 1 } else p := by
  rw [Parser.match_eq]
  cases p.rest.head? with
  | none => simp
  | some t =>
    by_cases ht : t.type ∈ expected
    · simp [ht, Parser.advance]
    · simp [ht]

/-- C15. Contract of `match`: it returns `true` if and only if the cursor is
inside the stream and the type of the token under it is one of the expected
types; when it returns `true` the cursor has advanced by exactly 1, when it
returns `false` the receiver is unchanged; the token stream (and the output) is
unchanged in both cases. -/
theorem match_contract (expected : List TokenType) (p : Parser) :
    ((Parser.match expected p).1 = true ↔
      p.current < p.tokens.length ∧
        ∃ t, p.tokens[p.current]? = some t ∧ t.type ∈ expected) ∧
    ((Parser.match expected p).1 = true →
      (Parser.match expected p).2.current = p.current + 1) ∧
    ((Parser.match expected p).1 = false → (Parser.match expected p).2 = p) ∧
    (Parser.match expected p).2.tokens = p.tokens ∧
    (Parser.match expected p).2.stdout = p.stdout := by
  have hsnd := Parser.match_snd_eq expected p
  refine ⟨?_, ?_, ?_, ?_, ?_⟩
  · rw [Parser.match_fst_iff]
    constructor
    · rintro ⟨t, ht, hmem⟩
      exact ⟨(List.getElem?_eq_some_iff.1 ht).1, t, ht, hmem⟩
    · rintro ⟨-, h⟩
      exact h
  · intro h
    rw [hsnd, if_pos h]
  · intro h
    rw [hsnd, if_neg (by simp [h])]
  · rw [hsnd]
    split_ifs <;> rfl
  · rw [hsnd]
    split_ifs <;> rfl

/-- C15 on the tokens of `"x = 5"`: `match(ID, ASSIGN)` at the cursor 1 succeeds
and moves the cursor to 2; `match(INTEGER)` at the cursor 1 and `match(ID)` at
the end of the stream fail and change nothing. -/
theorem match_contract_witness :
    Parser.match [ID, ASSIGN] ⟨tokensTest1, 1, []⟩ = (true, ⟨tokensTest1, 2, []⟩) ∧
    (Parser.match [ID, ASSIGN] ⟨tokensTest1, 1, []⟩).2.current = 1 + 1 ∧
    Parser.match [INTEGER] ⟨tokensTest1, 1, []⟩ = (false, ⟨tokensTest1, 1, []⟩) ∧
    (Parser.match [ID] ⟨tokensTest1, 3, []⟩).2 = ⟨tokensTest1, 3, []⟩ :=
  ⟨by decide,
    (match_contract [ID, ASSIGN] ⟨tokensTest1, 1, []⟩).2.1 (by decide),
    by decide,
    (match_contract [ID] ⟨tokensTest1, 3, []⟩).2.2.1 (by decide)⟩

theorem Parser.Advances.same (p : Parser) : p.Advances p := ⟨rfl, Nat.le_refl _, id⟩

theorem Parser.Advances.andThen {p q r : Parser} (h1 : p.Advances q) (h2 : q.Advances r) :
    p.Advances r := by
  obtain ⟨a1, a2, a3⟩ := h1
  obtain ⟨b1, b2, b3⟩ := h2
  refine ⟨b1.trans a1, Nat.le_trans a2 b2, fun hp => ?_⟩
  have := b3 (by rw [a1]; exact a3 hp)
  rwa [a1] at this

theorem Parser.Advances.printed (p : Parser) (out : List String) :
    p.Advances { p with stdout := out } := ⟨rfl, Nat.le_refl _, id⟩

theorem Parser.Advances.of_match (expected : List TokenType) (p : Parser) :
    p.Advances (Parser.match expected p).2 := by
  rw [Parser.match_snd_eq]
  split_ifs with h
  · obtain ⟨t, ht, -⟩ := (Parser.match_fst_iff expected p).1 h
    have := (List.getElem?_eq_some_iff.1 ht).1
    exact ⟨rfl, Nat.le_succ _, fun _ => this⟩
  · exact Parser.Advances.same p

/-- The cursor only moves forward, inside the stream, in the expression
procedures. -/
theorem Parser.advances_expression (n : Nat) :
    (∀ p q, Parser.factor n p = .done () q → p.Advances q) ∧
    (∀ p q, Parser.termLoop n p = .done () q → p.Advances q) ∧
    (∀ p q, Parser.term n p = .done () q → p.Advances q) ∧
    (∀ p q, Parser.expressionLoop n p = .done () q → p.Advances q) ∧
    (∀ p q, Parser.expression n p = .done () q → p.Advances q) := by
  induction n with
  | zero => simp [Parser.factor, Parser.termLoop, Parser.term, Parser.expressionLoop,
      Parser.expression]
  | succ n ih =>
    obtain ⟨ihF, ihTT, ihT, ihET, ihE⟩ := ih
    refine ⟨?_, ?_, ?_, ?_, ?_⟩
    · intro p q h
      rw [Parser.factor] at h
      have a1 := Parser.Advances.of_match [INTEGER] p
      have a2 := Parser.Advances.of_match [ID] (Parser.match [INTEGER] p).2
      have a3 := Parser.Advances.of_match [LPAREN]
        (Parser.match [ID] (Parser.match [INTEGER] p).2).2
      have a4 := Parser.Advances.of_match [MINUS]
        (Parser.match [LPAREN] (Parser.match [ID] (Parser.match [INTEGER] p).2).2).2
      simp only at h
      split_ifs at h with h1 h2 h3 h4
      · obtain ⟨-, hq⟩ := Run.done.inj h
        exact hq ▸ a1
      · obtain ⟨-, hq⟩ := Run.done.inj h
        exact hq ▸ a1.andThen a2
      · obtain ⟨_, q', he, hq⟩ := Run.bind_eq_done h
        obtain ⟨-, hq⟩ := Run.done.inj hq
        exact hq ▸ (a1.andThen (a2.andThen a3)).andThen
          ((ihE _ _ he).andThen (Parser.Advances.of_match [RPAREN] q'))
      · exact (a1.andThen (a2.andThen (a3.andThen a4))).andThen (ihF _ _ h)
      · split at h
        · obtain ⟨-, hq⟩ := Run.done.inj h
          exact hq ▸ (a1.andThen (a2.andThen (a3.andThen a4))).andThen (Parser.Advances.printed _ _)
        · cases h
    · intro p q h
      rw [Parser.termLoop] at h
      have a1 := Parser.Advances.of_match [MULTIPLY, DIVIDE] p
      split_ifs at h with h1
      · obtain ⟨_, q', hf, hq⟩ := Run.bind_eq_done h
        exact a1.andThen ((ihF _ _ hf).andThen (ihTT _ _ hq))
      · obtain ⟨-, hq⟩ := Run.done.inj h
        exact hq ▸ a1
    · intro p q h
      rw [Parser.term] at h
      obtain ⟨_, q', hf, hq⟩ := Run.bind_eq_done h
      exact (ihF _ _ hf).andThen (ihTT _ _ hq)
    · intro p q h
      rw [Parser.expressionLoop] at h
      have a1 := Parser.Advances.of_match [PLUS, MINUS, GREATER_THAN] p
      split_ifs at h with h1
      · obtain ⟨_, q', hf, hq⟩ := Run.bind_eq_done h
        exact a1.andThen ((ihT _ _ hf).andThen (ihET _ _ hq))
      · obtain ⟨-, hq⟩ := Run.done.inj h
        exact hq ▸ a1
    · intro p q h
      rw [Parser.expression] at h
      obtain ⟨_, q', hf, hq⟩ := Run.bind_eq_done h
      exact (ihT _ _ hf).andThen (ihET _ _ hq)


theorem Parser.advances_assignment {n : Nat} {p q : Parser} {a : Option ParseError}
    (h : Parser.assignment n p = .done a q) : p.Advances q := by
  cases n with
  | zero => simp [Parser.assignment] at h
  | succ n =>
    rw [Parser.assignment] at h
    have a1 := Parser.Advances.of_match [ID, ASSIGN] p
    split_ifs at h with h1
    · obtain ⟨_, q', he, hq⟩ := Run.bind_eq_done h
      obtain ⟨-, hq⟩ := Run.done.inj hq
      exact hq ▸ a1.andThen ((Parser.advances_expression n).2.2.2.2 _ _ he)
    · split at h
      · obtain ⟨-, hq⟩ := Run.done.inj h
        exact hq ▸ a1
      · cases h

theorem Parser.advances_statement (n : Nat) :
    ∀ (p q : Parser) (a : Option ParseError), Parser.statement n p = .done a q →
      p.Advances q := by
  induction n with
  | zero => simp [Parser.statement]
  | succ n ih =>
    intro p q a h
    rw [Parser.statement] at h
    have a1 := Parser.Advances.of_match [ID] p
    have a2 := Parser.Advances.of_match [IF] (Parser.match [ID] p).2
    simp only at h
    split_ifs at h with h1 h2
    · exact a1.andThen (Parser.advances_assignment h)
    · have a3 := Parser.Advances.of_match [LPAREN]
        (Parser.match [IF] (Parser.match [ID] p).2).2
      obtain ⟨_, p2, he, h⟩ := Run.bind_eq_done h
      have a4 := (Parser.advances_expression n).2.2.2.2 _ _ he
      have a5 := Parser.Advances.of_match [RPAREN] p2
      have a6 := Parser.Advances.of_match [LBRACE] (Parser.match [RPAREN] p2).2
      obtain ⟨err, p5, hs, h⟩ := Run.bind_eq_done h
      have a7 := ih _ _ _ hs
      have pre := a1.andThen (a2.andThen (a3.andThen (a4.andThen (a5.andThen (a6.andThen a7)))))
      cases err with
      | some e =>
        obtain ⟨-, hq⟩ := Run.done.inj h
        exact hq ▸ pre
      | none =>
        have a8 := Parser.Advances.of_match [RBRACE] p5
        have a9 := Parser.Advances.of_match [ELSE] (Parser.match [RBRACE] p5).2
        simp only at h
        split_ifs at h with h7
        · have a10 := Parser.Advances.of_match [LBRACE]
            (Parser.match [ELSE] (Parser.match [RBRACE] p5).2).2
          obtain ⟨err2, p9, hs2, h⟩ := Run.bind_eq_done h
          have a11 := ih _ _ _ hs2
          have pre2 := pre.andThen (a8.andThen (a9.andThen (a10.andThen a11)))
          cases err2 with
          | some e =>
            obtain ⟨-, hq⟩ := Run.done.inj h
            exact hq ▸ pre2
          | none =>
            obtain ⟨-, hq⟩ := Run.done.inj h
            exact hq ▸ pre2.andThen (Parser.Advances.of_match [RBRACE] p9)
        · obtain ⟨-, hq⟩ := Run.done.inj h
          exact hq ▸ pre.andThen (a8.andThen a9)
    · split at h
      · obtain ⟨-, hq⟩ := Run.done.inj h
        exact hq ▸ a1.andThen a2
      · cases h

theorem Parser.advances_parseLoop (n : Nat) :
    ∀ (p q : Parser) (a : Option ParseError), Parser.parseLoop n p = .done a q →
      p.Advances q := by
  induction n with
  | zero => simp [Parser.parseLoop]
  | succ n ih =>
    intro p q a h
    rw [Parser.parseLoop] at h
    split_ifs at h with hlt
    · obtain ⟨err, p1, hs, h⟩ := Run.bind_eq_done h
      have a1 := Parser.advances_statement n _ _ _ hs
      cases err with
      | some e =>
        obtain ⟨-, hq⟩ := Run.done.inj h
        exact hq ▸ a1
      | none => exact a1.andThen (ih _ _ _ h)
    · obtain ⟨-, hq⟩ := Run.done.inj h
      exact hq ▸ Parser.Advances.same p

/-- C16. Cursor invariant: each recognizer operation (`match`, `factor`, `term`,
`expression`, `assignment`, `statement`, `parse`) started with the cursor within
the stream (`current <= len(tokens)`) and completed leaves a cursor `c'` with
`current <= c' <= len(tokens)` and the same token stream. -/
theorem cursor_invariant (p q : Parser) (hp : p.current ≤ p.tokens.length) :
    (∀ expected, (Parser.match expected p).2 = q →
      p.current ≤ q.current ∧ q.current ≤ p.tokens.length ∧ q.tokens = p.tokens) ∧
    (∀ fuel, Parser.factor fuel p = .done () q →
      p.current ≤ q.current ∧ q.current ≤ p.tokens.length ∧ q.tokens = p.tokens) ∧
    (∀ fuel, Parser.term fuel p = .done () q →
      p.current ≤ q.current ∧ q.current ≤ p.tokens.length ∧ q.tokens = p.tokens) ∧
    (∀ fuel, Parser.expression fuel p = .done () q →
      p.current ≤ q.current ∧ q.current ≤ p.tokens.length ∧ q.tokens = p.tokens) ∧
    (∀ fuel err, Parser.assignment fuel p = .done err q →
      p.current ≤ q.current ∧ q.current ≤ p.tokens.length ∧ q.tokens = p.tokens) ∧
    (∀ fuel err, Parser.statement fuel p = .done err q →
      p.current ≤ q.current ∧ q.current ≤ p.tokens.length ∧ q.tokens = p.tokens) ∧
    (∀ err, p.parse = .done err q →
      p.current ≤ q.current ∧ q.current ≤ p.tokens.length ∧ q.tokens = p.tokens) := by
  have key : p.Advances q →
      p.current ≤ q.current ∧ q.current ≤ p.tokens.length ∧ q.tokens = p.tokens :=
    fun h => ⟨h.2.1, h.2.2 hp, h.1⟩
  refine ⟨?_, ?_, ?_, ?_, ?_, ?_, ?_⟩
  · intro expected h
    exact key (h ▸ Parser.Advances.of_match expected p)
  · intro fuel h
    exact key ((Parser.advances_expression fuel).1 _ _ h)
  · intro fuel h
    exact key ((Parser.advances_expression fuel).2.2.1 _ _ h)
  · intro fuel h
    exact key ((Parser.advances_expression fuel).2.2.2.2 _ _ h)
  · intro fuel err h
    exact key (Parser.advances_assignment h)
  · intro fuel err h
    exact key (Parser.advances_statement fuel _ _ _ h)
  · intro err h
    exact key (Parser.advances_parseLoop _ _ _ _ h)

/-- C16 on the tokens of `"x = + 5"` and of the fourth input of `TestParser`:
`parse()` ends with the cursor at 4 of 4, and at 7 of 17 when it fails. -/
theorem cursor_invariant_witness :
    ((NewParser tokensPlusFive).current ≤ 4 ∧ 4 ≤ (NewParser tokensPlusFive).tokens.length ∧
      tokensPlusFive = (NewParser tokensPlusFive).tokens) ∧
    ((NewParser tokensTest4).current ≤ 7 ∧ 7 ≤ (NewParser tokensTest4).tokens.length ∧
      tokensTest4 = (NewParser tokensTest4).tokens) :=
  ⟨(cursor_invariant (NewParser tokensPlusFive)
      ⟨tokensPlusFive, 4, ["Syntax error at token: (PLUS, +)\n"]⟩
      (by decide)).2.2.2.2.2.2 none (by decide),
    (cursor_invariant (NewParser tokensTest4) ⟨tokensTest4, 7, []⟩
      (by decide)).2.2.2.2.2.2 (some ⟨"Syntax error at token: (INTEGER, 3)"⟩)
      (by decide)⟩

/-! ### Termination and the scan-then-parse pipeline -/

theorem exists_first_invalid_or_valid (bs : List Nat) :
    (∀ b ∈ bs, invalidByte b = false) ∨
    ∃ pre b post, bs = pre ++ b :: post ∧ (∀ x ∈ pre, invalidByte x = false) ∧
      invalidByte b = true := by
  by_cases h : ∃ b ∈ bs, invalidByte b = true
  · exact Or.inr (exists_first_invalid bs h)
  · refine Or.inl fun b hb => ?_
    by_contra hbi
    exact h ⟨b, hb, by simpa using hbi⟩

/-- From any state, `tokenize()` completes with the fuel it supplies. -/
theorem Lexer.tokenize_completes (l : Lexer) : ∃ ts l', l.tokenize = .done ts l' := by
  have hfuel : l.rest.length < l.input.length - l.position + 1 := by
    rw [Lexer.length_rest]; omega
  rcases exists_first_invalid_or_valid l.rest with hv | ⟨pre, b, post, hin, hpre, hb⟩
  · obtain ⟨ts, hts⟩ := Lexer.tokenizeLoop_valid _ l [] hfuel hv
    exact ⟨ts, _, hts⟩
  · exact ⟨[], _, Lexer.tokenizeLoop_abort _ l [] pre b post hfuel hin hpre hb⟩

/-- Every iteration of the loop of `tokenize` returns or moves the position
forward, within the input. -/
theorem Lexer.tokenizeLoop_progress (l : Lexer) (fuel : Nat) (tokens : List Token) :
    (∃ ts l', Lexer.tokenizeLoop (fuel + 1) l tokens = .done ts l') ∨
    (∃ l' tokens', l'.input = l.input ∧ l.position < l'.position ∧
      l'.position ≤ l.input.length ∧
      Lexer.tokenizeLoop (fuel + 1) l tokens = Lexer.tokenizeLoop fuel l' tokens') := by
  cases hr : l.rest with
  | nil =>
    refine Or.inl ⟨tokens, l, ?_⟩
    rw [Lexer.tokenizeLoop, Lexer.getElem?_position, hr]
    rfl
  | cons c r =>
    by_cases hc : invalidByte c = true
    · exact Or.inl ⟨[], _, Lexer.tokenizeLoop_invalid hr hc fuel tokens⟩
    · have hc' : invalidByte c = false := by simpa using hc
      have hlen := lexStep_length c r hc'
      have hrl : (c :: r).length = l.input.length - l.position := by
        rw [← hr, Lexer.length_rest]
      refine Or.inr ⟨l.skip (lexStep c r).1.length, tokens ++ (lexStep c r).2, rfl, ?_, ?_,
        Lexer.tokenizeLoop_lexStep hr hc' fuel tokens⟩
      · simp only [Lexer.skip]; omega
      · simp only [Lexer.skip]; omega

/-- A call of `statement` that returns `nil` has advanced the cursor. -/
theorem Parser.statement_progress {n : Nat} {p q : Parser}
    (h : Parser.statement n p = .done none q) : p.current < q.current := by
  obtain ⟨w, hw, hne⟩ := Parser.statement_consumed n p q none h
  have hlen := hw.length_split
  have hpos := List.length_pos.2 (hne rfl)
  simp only [Parser.rest, List.length_drop, hw.1] at hlen
  omega

/-- C17. Termination: `tokenize()` completes from every scanner state and
`parse()` completes or panics from every recognizer state, with the fuel
`len(input) - position + 1` and `3 * (len(tokens) - current) + 3` that the model
supplies; every iteration of the scanner loop returns or moves the position
forward, and every call of `statement` that returns `nil` has advanced the
cursor. -/
theorem termination :
    (∀ l : Lexer, ∃ ts l', l.tokenize = .done ts l') ∧
    (∀ p : Parser, p.parse = .panic ∨ ∃ err q, p.parse = .done err q) ∧
    (∀ (l : Lexer) (fuel : Nat) (tokens : List Token),
      (∃ ts l', Lexer.tokenizeLoop (fuel + 1) l tokens = .done ts l') ∨
      (∃ l' tokens', l'.input = l.input ∧ l.position < l'.position ∧
        l'.position ≤ l.input.length ∧
        Lexer.tokenizeLoop (fuel + 1) l tokens = Lexer.tokenizeLoop fuel l' tokens')) ∧
    (∀ (fuel : Nat) (p q : Parser), Parser.statement fuel p = .done none q →
      p.current < q.current ∧ q.current ≤ p.tokens.length) := by
  refine ⟨Lexer.tokenize_completes, ?_, Lexer.tokenizeLoop_progress, ?_⟩
  · intro p
    have h := Parser.parse_ne_outOfFuel p
    cases hp : p.parse with
    | done err q => exact Or.inr ⟨err, q, rfl⟩
    | panic => exact Or.inl rfl
    | outOfFuel => exact absurd hp h
  · intro fuel p q h
    have hlt := Parser.statement_progress h
    obtain ⟨w, hw, hne⟩ := Parser.statement_consumed fuel p q none h
    have hlen := hw.length_split
    have hpos := List.length_pos.2 (hne rfl)
    simp only [Parser.rest, List.length_drop, hw.1] at hlen
    exact ⟨hlt, (Parser.advances_statement fuel p q none h).2.2 (by omega)⟩

/-- C17 on the tokens of `"x = 5"`: `statement` returns `nil` with the cursor
moved from 0 to 3. -/
theorem termination_witness :
    (NewParser tokensTest1).current < 3 ∧ 3 ≤ (NewParser tokensTest1).tokens.length :=
  termination.2.2.2 5 (NewParser tokensTest1) ⟨tokensTest1, 3, []⟩ (by decide)

/-- C18. A scanner failure is invisible to the verdict: when `tokenize()` prints
the invalid-character diagnostic, the returned sequence is `nil` and the
recognizer run on it returns `nil` at once, so scan-then-parse reports
success. -/
theorem scanner_failure_invisible (input : List Nat) (ts : List Token) (l : Lexer)
    (h : (NewLexer input).tokenize = .done ts l) (habort : l.stdout ≠ []) :
    ts = [] ∧ (NewParser ts).parse = .done none ⟨[], 0, []⟩ ∧
    scanThenParse input = .done none ⟨[], 0, []⟩ := by
  have hts : ts = [] := by
    rcases exists_first_invalid_or_valid input with hv | ⟨pre, b, post, hin, hpre, hb⟩
    · rw [Lexer.tokenize_eq_lexemes input hv] at h
      obtain ⟨-, hl⟩ := Run.done.inj h
      rw [← hl] at habort
      exact absurd rfl habort
    · rw [Lexer.tokenize_of_first_invalid input pre b post hin hpre hb] at h
      exact (Run.done.inj h).1.symm
  subst hts
  refine ⟨rfl, rfl, ?_⟩
  simp only [scanThenParse, h]
  rfl

/-- C18 at `"3 = $"` and `"x = 5 ;"`. -/
theorem scanner_failure_invisible_witness :
    (([] : List Token) = [] ∧ (NewParser []).parse = .done none ⟨[], 0, []⟩ ∧
      scanThenParse (goBytes "3 = $") = .done none ⟨[], 0, []⟩) ∧
    (([] : List Token) = [] ∧ (NewParser []).parse = .done none ⟨[], 0, []⟩ ∧
      scanThenParse (goBytes "x = 5 ;") = .done none ⟨[], 0, []⟩) :=
  ⟨scanner_failure_invisible (goBytes "3 = $") []
      ⟨goBytes "3 = $", 4, ["Invalid character: $\n"]⟩ (by decide) (by decide),
    scanner_failure_invisible (goBytes "x = 5 ;") []
      ⟨goBytes "x = 5 ;", 6, ["Invalid character: ;\n"]⟩ (by decide) (by decide)⟩

end Compilers
